import Mathlib

/-!
Shallow embedding of the GTA graph-algorithms library (the `algorithm/`
modules of the repository) and verification of its specification claims.

Conventions of the embedding:
* Python vertex identifiers are `ℤ` (the benchmark uses integers).
* A raw adjacency mapping (a Python `dict`) is an ordered association list
  `List (ℤ × List NeighborInfo)`; iteration order of `dict.items()` is the
  list order, as Python dictionaries preserve insertion order.
* A neighbor descriptor is a bare identifier, a pair `(v, w)` or a triple
  `(v, cap, cost)`, mirroring the tuple shapes the modules inspect.
* Python `float('inf')` sentinels are modelled by `Option ℤ` with `none`
  standing for infinity; numeric weights, capacities and costs are `ℤ`.
* Python exceptions (`raise ValueError`, `KeyError`) are modelled with
  `Except PyErr`; functions that contain no raising operation are total.
* Unbounded recursion and `while` loops are given explicit fuel; the fuel
  values chosen at call sites dominate the real recursion depth, and the
  fuel-exhaustion branches are unreachable on the inputs the theorems use.
-/

namespace GTA

/-- The error values the Python code can raise: `ValueError` from explicit
validation `raise` statements and `KeyError` from missing dictionary keys. -/
inductive PyErr where
  | valueError
  | keyError
deriving DecidableEq

/-- A neighbor descriptor in a raw adjacency list: either a bare vertex
identifier, a tuple `(v, w)` carrying a weight or capacity, or a tuple
`(v, cap, cost)` carrying capacity and cost. -/
inductive NeighborInfo where
  | bare (v : ℤ)
  | pair (v : ℤ) (w : ℤ)
  | triple (v : ℤ) (w : ℤ) (c : ℤ)
deriving DecidableEq

/-- A raw adjacency mapping: Python `dict` from vertex to neighbor list. -/
abbrev Graph := List (ℤ × List NeighborInfo)

/-- The target vertex of a descriptor: `v_info if not isinstance(v_info, tuple)
else v_info[0]` in the Python modules. -/
def NeighborInfo.target : NeighborInfo → ℤ
  | .bare v => v
  | .pair v _ => v
  | .triple v _ _ => v

/-- The weight/capacity slot of a descriptor: tuples of length `>= 2` yield
their second component, bare identifiers default to `1`.  This is the
`v, weight = neighbor_info[:2]` convention shared by the MST, shortest-path
and max-flow modules. -/
def NeighborInfo.weight2 : NeighborInfo → ℤ
  | .bare _ => 1
  | .pair _ w => w
  | .triple _ w _ => w

/-- Insert into a Python-set-modelling list only when absent. -/
def insertNew (l : List ℤ) (x : ℤ) : List ℤ :=
  if x ∈ l then l else l ++ [x]

/-- Python `tuple(sorted((u, v)))`: the canonical (ascending) endpoint pair
used to deduplicate undirected edges. -/
def canonPair (u v : ℤ) : ℤ × ℤ :=
  if u ≤ v then (u, v) else (v, u)

/-- Python `dict.get(k, [])` over our association-list model. -/
def lookupD (g : Graph) (v : ℤ) : List NeighborInfo :=
  match g.lookup v with
  | some l => l
  | none => []

/-- The dictionary key list in insertion order (`list(graph.keys())`). -/
def gKeys (g : Graph) : List ℤ :=
  g.foldl (fun a p => insertNew a p.1) []

/-! ### `minimum_spanning_tree.py`: UnionFind -/

/-- The `UnionFind` class: `parent` and `rank` dictionaries (modelled as total
functions whose meaningful domain is `verts`, the initialization vertex set)
plus the `count` of disjoint sets. -/
structure UnionFind where
  parent : ℤ → ℤ
  rank : ℤ → ℕ
  count : ℕ
  verts : Finset ℤ

/-- `UnionFind.__init__(vertices)`: every vertex is its own parent, ranks are
zero, `count = len(vertices)`.  Callers pass deduplicated vertex collections,
so `vs.length` is the cardinality of the vertex set. -/
def UnionFind.init (vs : List ℤ) : UnionFind :=
  { parent := fun v => v
    rank := fun _ => 0
    count := vs.length
    verts := vs.toFinset }

/-- `UnionFind.find` with path compression, fuelled: returns the updated
structure and the root.  Fuel exhaustion (unreachable when the fuel exceeds
the parent-chain length) returns the argument unchanged. -/
def UnionFind.findAux (uf : UnionFind) : ℕ → ℤ → UnionFind × ℤ
  | 0, v => (uf, v)
  | fuel + 1, v =>
    if uf.parent v = v then (uf, v)
    else
      let r := uf.findAux fuel (uf.parent v)
      ({ r.1 with parent := Function.update r.1.parent v r.2 }, r.2)

/-- `UnionFind.find` at the fuel every call site of the claims uses: one more
than the number of initialization vertices, which dominates any parent-chain
length. -/
def UnionFind.find (uf : UnionFind) (v : ℤ) : UnionFind × ℤ :=
  uf.findAux (uf.verts.card + 1) v

/-- `UnionFind.union(u, v)`: find both roots; if distinct, link by rank
(ties link `root_v` under `root_u` and bump `root_u`'s rank), decrement
`count`, return `True`; otherwise return `False`. -/
def UnionFind.union (uf : UnionFind) (u v : ℤ) : UnionFind × Bool :=
  let fu := uf.find u
  let fv := fu.1.find v
  let s := fv.1
  let ru := fu.2
  let rv := fv.2
  if ru = rv then (s, false)
  else if s.rank ru < s.rank rv then
    ({ s with parent := Function.update s.parent ru rv, count := s.count - 1 }, true)
  else if s.rank ru = s.rank rv then
    ({ s with parent := Function.update s.parent rv ru
              rank := Function.update s.rank ru (s.rank ru + 1)
              count := s.count - 1 }, true)
  else
    ({ s with parent := Function.update s.parent rv ru, count := s.count - 1 }, true)

/-- The root of `v`: follow `parent` for `card verts` steps, which under the
forest invariant reaches the unique fixed point of `v`'s parent chain and
hence identifies the disjoint set containing `v`. -/
def UnionFind.root (uf : UnionFind) (v : ℤ) : ℤ :=
  uf.parent^[uf.verts.card] v

/-- Disjoint-set-forest invariant: `parent` maps `verts` into `verts` and is
the identity elsewhere, every parent chain stabilizes, and `count` equals the
number of roots (fixed points of `parent`) inside `verts`. -/
def UnionFind.Inv (uf : UnionFind) : Prop :=
  (∀ v ∈ uf.verts, uf.parent v ∈ uf.verts) ∧
  (∀ v, v ∉ uf.verts → uf.parent v = v) ∧
  (∀ v, ∃ k, uf.parent^[k + 1] v = uf.parent^[k] v) ∧
  uf.count = (uf.verts.filter fun v => uf.parent v = v).card

/-- `g` repoints every vertex forward along its own `f`-parent chain (by at
least one step): exactly what path compression and root linking do. -/
def ChainPres (f g : ℤ → ℤ) : Prop :=
  ∀ x, ∃ m, 1 ≤ m ∧ g x = f^[m] x

/-- A single `UnionFind` operation of the public interface. -/
inductive UFOp where
  | find (v : ℤ)
  | union (u v : ℤ)

/-- A well-formed call uses initialization vertices: Python's `find` and
`union` index `self.parent` (a dictionary over the initialization vertices)
directly with their arguments. -/
def UFOp.valid (vs : List ℤ) : UFOp → Bool
  | .find v => decide (v ∈ vs)
  | .union u v => decide (u ∈ vs) && decide (v ∈ vs)

/-- The same well-formedness against the vertex set of a live structure. -/
def UFOp.InVerts (s : Finset ℤ) : UFOp → Prop
  | .find v => v ∈ s
  | .union u v => u ∈ s ∧ v ∈ s

/-- Apply one operation, keeping the mutated structure. -/
def ufApplyOp (uf : UnionFind) : UFOp → UnionFind
  | .find v => (uf.find v).1
  | .union u v => (uf.union u v).1

/-- The structure after a sequence of operations. -/
def ufRun (uf : UnionFind) (ops : List UFOp) : UnionFind :=
  ops.foldl ufApplyOp uf

/-- The structure obtained from `UnionFind(vertices)` followed by `ops`. -/
def ufAfter (vs : List ℤ) (ops : List UFOp) : UnionFind :=
  ufRun (UnionFind.init vs) ops

/-! ### `minimum_spanning_tree.py`: Kruskal -/

/-- An undirected weighted edge record `(u, v, weight)`. -/
abbrev WEdge := ℤ × ℤ × ℤ

/-- Accumulator of `extract_edges_and_vertices`: the vertex set (insertion
ordered), the edge list, and the set of processed canonical endpoint pairs. -/
structure ExtractState where
  vertices : List ℤ
  edges : List WEdge
  processed : List (ℤ × ℤ)

/-- One neighbor-descriptor step of `extract_edges_and_vertices`. -/
def extractStep (u : ℤ) (st : ExtractState) (info : NeighborInfo) : ExtractState :=
  let v := info.target
  let w := info.weight2
  let vertices := insertNew st.vertices v
  let e := canonPair u v
  if e ∈ st.processed then { st with vertices := vertices }
  else
    { vertices := vertices
      edges := st.edges ++ [(u, v, w)]
      processed := st.processed ++ [e] }

/-- `extract_edges_and_vertices(graph)`: all vertices (keys plus neighbors)
and each undirected edge exactly once (deduplicated by canonical pair),
weights defaulting to 1. -/
def extract_edges_and_vertices (g : Graph) : List ℤ × List WEdge :=
  let verts0 := g.foldl (fun acc p => insertNew acc p.1) []
  let st := g.foldl
    (fun st p => p.2.foldl (extractStep p.1) st)
    { vertices := verts0, edges := [], processed := [] }
  (st.vertices, st.edges)

/-- Insert an edge before the first strictly heavier edge of an already
sorted list (keeping equal-weight edges in encounter order). -/
def insertSorted (e : WEdge) : List WEdge → List WEdge
  | [] => [e]
  | f :: rest => if e.2.2 ≤ f.2.2 then e :: f :: rest else f :: insertSorted e rest

/-- Stable ascending sort by edge weight: Python `edges.sort(key=lambda x: x[2])`. -/
def sortEdges (es : List WEdge) : List WEdge :=
  es.foldr insertSorted []

/-- State of the Kruskal greedy loop; `done` models the early `break` once
`num_vertices - 1` edges have been merged. -/
structure KruskalState where
  uf : UnionFind
  mst : List WEdge
  total : ℤ
  done : Bool

/-- One edge step of the Kruskal loop. -/
def kruskalStep (n : ℕ) (st : KruskalState) (e : WEdge) : KruskalState :=
  if st.done then st
  else
    let r := st.uf.union e.1 e.2.1
    if r.2 then
      let mst := st.mst ++ [e]
      { uf := r.1
        mst := mst
        total := st.total + e.2.2
        done := decide (mst.length = n - 1) }
    else { st with uf := r.1 }

/-- The Kruskal loop over the sorted deduplicated edges of `g`. -/
def kruskalLoop (g : Graph) : KruskalState :=
  let ve := extract_edges_and_vertices g
  (sortEdges ve.2).foldl (kruskalStep ve.1.length)
    { uf := UnionFind.init ve.1, mst := [], total := 0, done := false }

/-- `find_mst_using_kruskal(graph)`: `([], 0)` for empty or single-vertex
graphs, `([], inf)` when no edges span several vertices or fewer than
`n - 1` merges succeed, otherwise the MST edges and total weight.
`none` models the `inf` sentinel. -/
def find_mst_using_kruskal (g : Graph) : List WEdge × Option ℤ :=
  if g = [] then ([], some 0)
  else
    let ve := extract_edges_and_vertices g
    let n := ve.1.length
    if n ≤ 1 then ([], some 0)
    else if ve.2 = [] then ([], none)
    else
      let st := kruskalLoop g
      if st.mst.length < n - 1 then ([], none)
      else (st.mst, some st.total)

/-- `find_mst_weight(graph)`: the MST weight, `none` (= `inf`) if none exists. -/
def find_mst_weight (g : Graph) : Option ℤ :=
  if g = [] then some 0
  else (find_mst_using_kruskal g).2

/-! ### `minimum_spanning_tree.py`: second MST -/

/-- Append one directed adjacency entry to the `graph_mst` defaultdict. -/
def addAdj (f : ℤ → List (ℤ × ℤ)) (u : ℤ) (p : ℤ × ℤ) : ℤ → List (ℤ × ℤ) :=
  Function.update f u (f u ++ [p])

/-- Build the MST adjacency (`graph_mst`), both directions per MST edge. -/
def buildMstAdj (es : List WEdge) : ℤ → List (ℤ × ℤ) :=
  es.foldl (fun f e => addAdj (addAdj f e.1 (e.2.1, e.2.2)) e.2.1 (e.1, e.2.2))
    (fun _ => [])

/-- `_find_max_weight_edge_on_path` worker: DFS from `u` over the remaining
neighbor list toward `target`, threading the `visited` set, returning the
maximum-weight edge on the discovered path.  Fuel bounds the total number of
DFS steps (unreachable exhaustion returns `none`); the quadratic fuel passed
by the caller dominates the step count of the Python recursion. -/
def findMaxAux (adj : ℤ → List (ℤ × ℤ)) (target : ℤ) :
    ℕ → ℤ → List (ℤ × ℤ) → List ℤ → List ℤ × Option (ℤ × WEdge)
  | 0, _, _, visited => (visited, none)
  | fuel + 1, u, l, visited =>
    match l with
    | [] => (visited, none)
    | (v, w) :: rest =>
      if v = target then (visited, some (w, (u, v, w)))
      else if v ∈ visited then findMaxAux adj target fuel u rest visited
      else
        let sub := findMaxAux adj target fuel v (adj v) (visited ++ [v])
        match sub.2 with
        | some sw =>
          if w > sw.1 then (sub.1, some (w, (u, v, w))) else (sub.1, some sw)
        | none => findMaxAux adj target fuel u rest sub.1

/-- `_find_max_weight_edge_on_path(u, target, [], visited, graph_mst)` at its
`find_second_mst_weight_optimized` call site (fresh `visited = {u}`). -/
def findMaxOnPath (adj : ℤ → List (ℤ × ℤ)) (fuel : ℕ) (u target : ℤ) :
    Option (ℤ × WEdge) :=
  (findMaxAux adj target fuel u (adj u) [u]).2

/-- `min` of an accumulator that may still be `inf`. -/
def optMin (acc : Option ℤ) (x : ℤ) : Option ℤ :=
  match acc with
  | none => some x
  | some a => some (min a x)

/-- One non-MST-edge step of the second-MST candidate scan: strictly heavier
replacement edges always produce a candidate; equal-weight replacements only
count when the candidate weight exceeds the MST weight (which never happens,
as the candidate then equals the MST weight — the code's documented
strict-second-tree convention). -/
def secondMstStep (adj : ℤ → List (ℤ × ℤ)) (mstSet : List (ℤ × ℤ)) (mw : ℤ)
    (fuel : ℕ) (acc : Option ℤ) (e : WEdge) : Option ℤ :=
  if canonPair e.1 e.2.1 ∈ mstSet then acc
  else
    match findMaxOnPath adj fuel e.1 e.2.1 with
    | none => acc
    | some m =>
      if e.2.2 > m.1 then optMin acc (mw - m.1 + e.2.2)
      else if e.2.2 = m.1 then
        if mw - m.1 + e.2.2 > mw then optMin acc (mw - m.1 + e.2.2) else acc
      else acc

/-- `find_second_mst_weight_optimized(graph)`: `0` for trivial graphs, `inf`
(`none`) when disconnected or when no strictly heavier spanning tree arises,
otherwise the minimum candidate weight over all non-MST edges. -/
def find_second_mst_weight_optimized (g : Graph) : Option ℤ :=
  let ve := extract_edges_and_vertices g
  if ve.1.length ≤ 1 then some 0
  else
    let km := find_mst_using_kruskal g
    match km.2 with
    | none => none
    | some mw =>
      let adj := buildMstAdj km.1
      let mstSet := km.1.map (fun e => canonPair e.1 e.2.1)
      ve.2.foldl (secondMstStep adj mstSet mw ((ve.1.length + 1) * (ve.1.length + 1))) none

/-- `find_second_mst_weight(graph)`: maps the `inf` sentinel to `-1`; finite
results (including the trivial `0`) are returned as computed. -/
def find_second_mst_weight (g : Graph) : ℤ :=
  match find_second_mst_weight_optimized g with
  | none => -1
  | some w =>
    if w = 0 ∧ (g = [] ∨ g.length ≤ 1) then 0
    else if w = 0 then 0
    else w

/-- The number of successful union-find merges performed by the Kruskal loop
(the length of the accumulated MST edge list). -/
def mstMergeCount (g : Graph) : ℕ := (kruskalLoop g).mst.length

/-! ### `eulerian.py` -/

/-- Increment one entry of a Python `defaultdict(int)`. -/
def bump (f : ℤ → ℤ) (x : ℤ) : ℤ → ℤ :=
  Function.update f x (f x + 1)

/-- The state threaded through `has_eulerian_path`'s edge-scanning loop:
the symmetrized adjacency `adj`, the `degrees` counter, the insertion-ordered
`nodes_with_edges` set and the processed canonical edge set.  (The Python
`all_nodes` set is also populated but never read afterwards.) -/
structure EulerState where
  adj : ℤ → List ℤ
  degrees : ℤ → ℤ
  nwe : List ℤ
  processed : List (ℤ × ℤ)

/-- One neighbor-descriptor step of `has_eulerian_path`'s first loop:
symmetrize the adjacency (adding the self-loop entry only once), record the
endpoints as edge-bearing, and — only for a not-yet-processed canonical pair —
bump both endpoint degrees (so a self-loop adds 2 at once, but a parallel
edge repeating an already processed pair adds nothing). -/
def eulerStep (u : ℤ) (st : EulerState) (info : NeighborInfo) : EulerState :=
  let v := info.target
  let adj1 := Function.update st.adj u (st.adj u ++ [v])
  let adj2 := if u ≠ v then Function.update adj1 v (adj1 v ++ [u]) else adj1
  let nwe := insertNew (insertNew st.nwe u) v
  let e := canonPair u v
  if e ∈ st.processed then
    { adj := adj2, degrees := st.degrees, nwe := nwe, processed := st.processed }
  else
    { adj := adj2
      degrees := bump (bump st.degrees u) v
      nwe := nwe
      processed := st.processed ++ [e] }

/-- The stack-based DFS of `has_eulerian_path`'s connectivity check.  The
stack is kept top-at-head (Python pushes and pops at the list end — the same
LIFO discipline); the resulting visited set is identical.  Fuel bounds the
number of pops; each push adds a fresh visited vertex, so the caller's fuel
dominates. -/
def eulerDfs (adj : ℤ → List ℤ) (nwe : List ℤ) :
    ℕ → List ℤ → List ℤ → List ℤ
  | 0, _, visited => visited
  | _ + 1, [], visited => visited
  | fuel + 1, u :: rest, visited =>
    let p := (adj u).foldl
      (fun (p : List ℤ × List ℤ) v =>
        if v ∈ nwe ∧ v ∉ p.2 then (v :: p.1, p.2 ++ [v]) else p)
      (rest, visited)
    eulerDfs adj nwe fuel p.1 p.2

/-- `has_eulerian_path(graph)`: degree condition (0 or 2 odd-degree vertices,
degrees deduplicated per canonical edge) plus connectivity of the
edge-bearing vertices. -/
def has_eulerian_path (g : Graph) : Bool :=
  if g = [] then true
  else
    let st := g.foldl (fun st p => p.2.foldl (eulerStep p.1) st)
      { adj := fun _ => [], degrees := fun _ => 0, nwe := [], processed := [] }
    if st.nwe = [] then true
    else
      let odd := (st.nwe.filter (fun v => ¬ st.degrees v % 2 = 0)).length
      if odd > 2 then false
      else
        let start := st.nwe.headI
        let visited := eulerDfs st.adj st.nwe (st.nwe.length + 2) [start] [start]
        visited.length = st.nwe.length

/-- The BFS of `has_eulerian_circuit`'s connectivity check (FIFO queue,
neighbors straight from the raw `graph.get(u, [])` lists). -/
def circuitBfs (g : Graph) : ℕ → List ℤ → List ℤ → List ℤ
  | 0, _, visited => visited
  | _ + 1, [], visited => visited
  | fuel + 1, u :: rest, visited =>
    let p := (lookupD g u).foldl
      (fun (p : List ℤ × List ℤ) info =>
        if info.target ∉ p.2 then (p.1 ++ [info.target], p.2 ++ [info.target]) else p)
      (rest, visited)
    circuitBfs g fuel p.1 p.2

/-- Total descriptor count plus key count of a graph: a bound on the number
of distinct vertices, used as BFS fuel. -/
def gSize (g : Graph) : ℕ :=
  g.foldl (fun a p => a + p.2.length + 1) 0

/-- `has_eulerian_circuit(graph)`: every vertex's degree is the raw length of
its own adjacency list (`len(graph.get(node, []))` — so a self-loop listed
once counts 1, and a vertex appearing only as a neighbor has degree 0); all
degrees must be even and the edge-bearing vertices connected. -/
def has_eulerian_circuit (g : Graph) : Bool :=
  if g = [] then true
  else
    let keys := g.foldl (fun acc p => insertNew acc p.1) []
    let temp := g.foldl (fun acc p => p.2.foldl (fun a i => insertNew a i.target) acc) keys
    if temp.any (fun v => ¬ ((lookupD g v).length : ℤ) % 2 = 0) then false
    else
      let nwe := temp.filter (fun v => 0 < (lookupD g v).length)
      if nwe = [] then true
      else
        let start := nwe.headI
        let visited := circuitBfs g (gSize g + 2) [start] [start]
        nwe.all (fun v => v ∈ visited)

/-! ### `shortest_path.py` -/

/-- Whether a descriptor is a weighted tuple carrying a negative weight in
its second slot (the condition `weight < 0` guarded by
`isinstance(neighbor_info, tuple) and len(neighbor_info) >= 2`). -/
def NeighborInfo.negWeighted : NeighborInfo → Bool
  | .bare _ => false
  | .pair _ w => decide (w < 0)
  | .triple _ w _ => decide (w < 0)

/-- Whether some descriptor of the graph carries a negative weight. -/
def hasNegWeight (g : Graph) : Bool :=
  g.any (fun p => p.2.any NeighborInfo.negWeighted)

/-- One descriptor step of `find_shortest_path_length`'s build loop: weighted
tuples with negative weight raise `ValueError`; otherwise the weighted
adjacency gains the `(neighbor, weight)` entry (default weight 1) and the
neighbor joins `all_nodes`. -/
def spStep (u : ℤ) (st : (ℤ → List (ℤ × ℤ)) × List ℤ) (info : NeighborInfo) :
    Except PyErr ((ℤ → List (ℤ × ℤ)) × List ℤ) :=
  match info with
  | .bare v =>
    .ok (Function.update st.1 u (st.1 u ++ [(v, 1)]), insertNew st.2 v)
  | .pair v w =>
    if w < 0 then .error .valueError
    else .ok (Function.update st.1 u (st.1 u ++ [(v, w)]), insertNew st.2 v)
  | .triple v w _ =>
    if w < 0 then .error .valueError
    else .ok (Function.update st.1 u (st.1 u ++ [(v, w)]), insertNew st.2 v)

/-- The build loop of `find_shortest_path_length`: the weighted adjacency and
`all_nodes` (keys plus every neighbor), or `ValueError` on the first negative
weight. -/
def spBuild (g : Graph) : Except PyErr ((ℤ → List (ℤ × ℤ)) × List ℤ) :=
  g.foldlM (fun st p => p.2.foldlM (spStep p.1) st)
    ((fun _ => []), g.foldl (fun acc p => insertNew acc p.1) [])

/-- Lexicographic order on `(distance, node)` heap entries: Python's `heapq`
always pops the smallest tuple. -/
def lexLt (a b : ℤ × ℤ) : Bool :=
  decide (a.1 < b.1) || (decide (a.1 = b.1) && decide (a.2 < b.2))

/-- Pop the minimum `(distance, node)` entry of the priority queue (the heap's
contents as a multiset; `heappop` returns its minimum). -/
def popMin (l : List (ℤ × ℤ)) : Option ((ℤ × ℤ) × List (ℤ × ℤ)) :=
  match l with
  | [] => none
  | x :: xs =>
    let m := xs.foldl (fun m y => if lexLt y m then y else m) x
    some (m, l.erase m)

/-- The result mapping at Dijkstra's two exit points: a finite distance is
returned as is, the `inf` default maps to `-1`. -/
def spResult (dist : ℤ → Option ℤ) (endv : ℤ) : ℤ :=
  match dist endv with
  | some d => d
  | none => -1

/-- Dijkstra's main loop: pop the closest node, skip stale entries, return
upon popping `end`, otherwise relax all outgoing edges (recording improved
tentative distances and pushing them).  Fuel bounds the number of pops;
exhaustion (unreachable at the chosen call-site fuel) falls back to the
post-loop result. -/
def dijkstraLoop (wg : ℤ → List (ℤ × ℤ)) (endv : ℤ) :
    ℕ → List (ℤ × ℤ) → (ℤ → Option ℤ) → ℤ
  | 0, _, dist => spResult dist endv
  | fuel + 1, pq, dist =>
    match popMin pq with
    | none => spResult dist endv
    | some ((d, u), rest) =>
      if (match dist u with | some du => decide (du < d) | none => false) then
        dijkstraLoop wg endv fuel rest dist
      else if u = endv then d
      else
        let p := (wg u).foldl
          (fun (p : List (ℤ × ℤ) × (ℤ → Option ℤ)) vw =>
            let nd := d + vw.2
            match p.2 vw.1 with
            | some dv =>
              if nd < dv then (p.1 ++ [(nd, vw.1)], Function.update p.2 vw.1 (some nd))
              else p
            | none => (p.1 ++ [(nd, vw.1)], Function.update p.2 vw.1 (some nd)))
          (rest, dist)
        dijkstraLoop wg endv fuel p.1 p.2

/-- Fuel budget used by the fuelled loops: total descriptor count plus key count
plus capacities, squared — comfortably dominating pop counts. -/
def spFuel (g : Graph) : ℕ :=
  (gSize g + 2) * (gSize g + 2) * (gSize g + 2)

/-- `find_shortest_path_length(graph, start, end)`: `ValueError` on a negative
weight, `-1` when either endpoint is absent from `all_nodes`, otherwise
Dijkstra's distance (`-1` when unreachable). -/
def find_shortest_path_length (g : Graph) (start endv : ℤ) : Except PyErr ℤ :=
  match spBuild g with
  | .error e => .error e
  | .ok st =>
    if start ∉ st.2 ∨ endv ∉ st.2 then .ok (-1)
    else
      .ok (dijkstraLoop st.1 endv (spFuel g) [(0, start)]
        (Function.update (fun _ => none) start (some 0)))

/-! ### Residual networks (`flow.py` and `min_cost_flow.py`)

Both flow modules keep, for every node, a Python list of residual arcs
`[neighbor, residual_capacity, (cost,) index_of_reverse_arc]`.  The arc
record is generic in the extra payload `χ` (`Unit` for `flow.py`, the cost
`ℤ` for `min_cost_flow.py`); only the `cap` field is ever mutated. -/

/-- A residual arc: target node, residual capacity, extra payload (cost for
the min-cost module) and the index of the paired reverse arc inside the
target's arc list. -/
structure REdge (χ : Type) where
  tgt : ℤ
  cap : ℤ
  extra : χ
  rev : ℕ
deriving DecidableEq

/-- The mutable part of a residual network: node to arc list (a Python
`defaultdict(list)`). -/
abbrev RAdj (χ : Type) := ℤ → List (REdge χ)

/-- Append an arc to a node's list. -/
def rAdd {χ : Type} (adj : RAdj χ) (u : ℤ) (e : REdge χ) : RAdj χ :=
  Function.update adj u (adj u ++ [e])

/-- The immutable shape of the arc at position `(u, i)`: target and
reverse-arc index.  Augmentations only change capacities, never shapes. -/
def shapeAt {χ : Type} (adj : RAdj χ) (u : ℤ) (i : ℕ) : Option (ℤ × ℕ) :=
  ((adj u).get? i).map (fun e => (e.tgt, e.rev))

/-- The residual capacity stored at position `(u, i)`. -/
def capAt {χ : Type} (adj : RAdj χ) (u : ℤ) (i : ℕ) : Option ℤ :=
  ((adj u).get? i).map (fun e => e.cap)

/-- The sum of the residual capacities of the arc at `(u, i)` and of its
paired reverse arc — the quantity the augmentation invariant preserves. -/
def pairCapSum {χ : Type} (adj : RAdj χ) (u : ℤ) (i : ℕ) : Option ℤ :=
  (shapeAt adj u i).bind fun p =>
    (capAt adj u i).bind fun c =>
      (capAt adj p.1 p.2).map fun c2 => c + c2

/-- Every arc's reverse pointer leads to an arc pointing straight back:
the mutual pairing the constructions establish (for graphs without self-loop
descriptors). -/
def MutualPaired {χ : Type} (adj : RAdj χ) : Prop :=
  ∀ u i t r, shapeAt adj u i = some (t, r) → shapeAt adj t r = some (u, i)

/-- The construction invariant: every arc is mutually paired with the arc its
reverse index designates, and at least one side of each pair still has its
initial capacity `0` — so the pair's capacity sum is the constructed arc's
original capacity. -/
def ZeroPaired {χ : Type} (adj : RAdj χ) : Prop :=
  ∀ u i e, (adj u).get? i = some e →
    ∃ e2, (adj e.tgt).get? e.rev = some e2 ∧ e2.tgt = u ∧ e2.rev = i ∧
      (e.cap = 0 ∨ e2.cap = 0)

/-- The parent maps produced by the augmenting-path searches only point to
arcs that lead to the child vertex. -/
def ParentOK {χ : Type} (parent : ℤ → Option (ℤ × ℕ)) (adj : RAdj χ) : Prop :=
  ∀ v u i, parent v = some (u, i) → ∃ r, shapeAt adj u i = some (v, r)

/-- Two residual networks with identical shapes everywhere. -/
def ShapeEq {χ : Type} (a b : RAdj χ) : Prop :=
  ∀ u i, shapeAt a u i = shapeAt b u i

/-- Overwrite the residual capacity stored at `(u, i)` (no-op when the index
does not exist, which the Python code never does). -/
def setCapAt {χ : Type} (adj : RAdj χ) (u : ℤ) (i : ℕ) (c : ℤ) : RAdj χ :=
  match (adj u).get? i with
  | none => adj
  | some e => Function.update adj u ((adj u).set i { e with cap := c })

/-- One augmentation assignment pair along a path: decrement the forward arc
`(u, i)` and increment the arc at `(v, rev-index-of-(u,i))` — in the Python
walks `v` is the path node the arc leads to — by the same bottleneck `f`. -/
def applyAug {χ : Type} (adj : RAdj χ) (u : ℤ) (i : ℕ) (v : ℤ) (f : ℤ) : RAdj χ :=
  match (adj u).get? i with
  | none => adj
  | some e =>
    let adj1 := setCapAt adj u i (e.cap - f)
    match (adj1 v).get? e.rev with
    | none => adj1
    | some e2 => setCapAt adj1 v e.rev (e2.cap + f)

/-- The sink-to-source augmentation walk shared by both flow modules: follow
the `parent` pointers, applying the paired capacity updates at each step.
Missing parents or invalid indices stop the walk (unreachable for the parent
maps the searches produce); fuel bounds the walk length. -/
def augmentWalk {χ : Type} (parent : ℤ → Option (ℤ × ℕ)) (f : ℤ) (source : ℤ) :
    ℕ → ℤ → RAdj χ → RAdj χ
  | 0, _, adj => adj
  | fuel + 1, v, adj =>
    if v = source then adj
    else
      match parent v with
      | none => adj
      | some ui => augmentWalk parent f source fuel ui.1 (applyAug adj ui.1 ui.2 v f)

/-- The bottleneck computation walk: minimum residual capacity along the
parent path from the sink back to the source (`none` plays `inf`). -/
def bottleneckWalk {χ : Type} (adj : RAdj χ) (parent : ℤ → Option (ℤ × ℕ))
    (source : ℤ) : ℕ → ℤ → Option ℤ → Option ℤ
  | 0, _, acc => acc
  | fuel + 1, curr, acc =>
    if curr = source then acc
    else
      match parent curr with
      | none => acc
      | some ui =>
        match capAt adj ui.1 ui.2 with
        | none => acc
        | some c => bottleneckWalk adj parent source fuel ui.1 (optMin acc c)

/-! ### `flow.py` -/

/-- A `flow.py` residual arc `[v, residual_capacity, rev_index]`. -/
abbrev FEdge := REdge Unit

/-- One descriptor step of `find_maximum_flow`'s residual construction:
capacity from the tuple's second slot (default 1), reverse-arc indices read
off the list lengths before the two appends. -/
def flowBuildStep (u : ℤ) (st : RAdj Unit × List ℤ) (info : NeighborInfo) :
    RAdj Unit × List ℤ :=
  let v := info.target
  let cap := info.weight2
  let nodes := insertNew st.2 v
  let idxRev := (st.1 v).length
  let idxFwd := (st.1 u).length
  let adj1 := rAdd st.1 u ⟨v, cap, (), idxRev⟩
  let adj2 := rAdd adj1 v ⟨u, 0, (), idxFwd⟩
  (adj2, nodes)

/-- `find_maximum_flow`'s residual construction over the whole graph; the
node set starts from the keys. -/
def flowBuild (g : Graph) : RAdj Unit × List ℤ :=
  g.foldl (fun st p => p.2.foldl (flowBuildStep p.1) st)
    ((fun _ => []), g.foldl (fun a p => insertNew a p.1) [])

/-- The inner neighbor scan of `find_maximum_flow`'s BFS over one popped
node: mark unvisited positive-residual targets with their `(parent, edge)`
pointer, clearing the queue on reaching the sink. -/
def bfsScan (u sink : ℤ) :
    List (ℕ × FEdge) → (ℤ → Option (ℤ × ℕ)) → List ℤ →
      (ℤ → Option (ℤ × ℕ)) × List ℤ × Bool
  | [], parent, queue => (parent, queue, false)
  | (i, e) :: rest, parent, queue =>
    if parent e.tgt = none ∧ 0 < e.cap then
      let parent2 := Function.update parent e.tgt (some (u, i))
      if e.tgt = sink then (parent2, [], true)
      else bfsScan u sink rest parent2 (queue ++ [e.tgt])
    else bfsScan u sink rest parent queue

/-- `find_maximum_flow`'s BFS for an augmenting path: FIFO queue, `parent`
initialized all-`None`; returns the parent map and the `path_found` flag. -/
def flowBfs (adj : RAdj Unit) (sink : ℤ) :
    ℕ → List ℤ → (ℤ → Option (ℤ × ℕ)) → (ℤ → Option (ℤ × ℕ)) × Bool
  | 0, _, parent => (parent, false)
  | _ + 1, [], parent => (parent, false)
  | fuel + 1, u :: rest, parent =>
    if u = sink then (parent, true)
    else
      let s := bfsScan u sink (adj u).enum parent rest
      if s.2.2 then (s.1, true)
      else flowBfs adj sink fuel s.2.1 s.1

/-- One iteration of Edmonds–Karp: BFS; stop if the sink is unreached (or has
no parent, as when `source == sink`); otherwise compute the bottleneck and
augment along the path. -/
def emStep (source sink : ℤ) (nodes : List ℤ) (adj : RAdj Unit) :
    Option (RAdj Unit × ℤ) :=
  let b := flowBfs adj sink (nodes.length + 2) [source] (fun _ => none)
  if b.2 = false ∨ b.1 sink = none then none
  else
    match bottleneckWalk adj b.1 source (nodes.length + 2) sink none with
    | none => none
    | some f => some (augmentWalk b.1 f source (nodes.length + 2) sink adj, f)

/-- The Edmonds–Karp main loop, accumulating the flow value. -/
def emLoop (source sink : ℤ) (nodes : List ℤ) :
    ℕ → RAdj Unit → ℤ → RAdj Unit × ℤ
  | 0, adj, acc => (adj, acc)
  | fuel + 1, adj, acc =>
    match emStep source sink nodes adj with
    | none => (adj, acc)
    | some st => emLoop source sink nodes fuel st.1 (acc + st.2)

/-- Loop fuel for the flow modules: one unit per descriptor capacity (each
augmentation moves at least one integer unit of flow). -/
def flowFuel (g : Graph) : ℕ :=
  g.foldl (fun a p => p.2.foldl (fun a i => a + (i.weight2.natAbs + 1)) a) 0 + 2

/-- `find_maximum_flow(graph, source, sink)`: Edmonds–Karp over the residual
network.  The function performs no input validation — negative capacities
are accepted silently (such arcs simply never carry flow). -/
def find_maximum_flow (g : Graph) (source sink : ℤ) : ℤ :=
  let b := flowBuild g
  (emLoop source sink b.2 (flowFuel g) b.1 0).2

/-- `find_minimum_cut(graph, source, sink)`: delegates to `find_maximum_flow`
(max-flow/min-cut duality). -/
def find_minimum_cut (g : Graph) (source sink : ℤ) : ℤ :=
  find_maximum_flow g source sink

/-- The residual network after `k` Edmonds–Karp augmentations (every state
the run traverses is `flowStateAfter g source sink k` for some `k`). -/
def flowStateAfter (g : Graph) (source sink : ℤ) : ℕ → RAdj Unit
  | 0 => (flowBuild g).1
  | k + 1 =>
    match emStep source sink (flowBuild g).2 (flowStateAfter g source sink k) with
    | none => flowStateAfter g source sink k
    | some st => st.1

/-- A graph none of whose descriptors is a self-loop (an arc from a key
to itself); self-loop descriptors degenerate the reverse-arc pairing. -/
def NoSelfLoops (g : Graph) : Prop :=
  ∀ p ∈ g, ∀ info ∈ p.2, NeighborInfo.target info ≠ p.1

instance : DecidablePred NoSelfLoops := fun g =>
  inferInstanceAs (Decidable (∀ p ∈ g, ∀ info ∈ p.2, NeighborInfo.target info ≠ p.1))

/-! ### `min_cost_flow.py` -/

/-- The cost slot of a descriptor for the min-cost module: triples carry it
third, pairs and bare identifiers default to `0`. -/
def NeighborInfo.cost3 : NeighborInfo → ℤ
  | .bare _ => 0
  | .pair _ _ => 0
  | .triple _ _ c => c

/-- Whether a descriptor carries a negative capacity under the min-cost
module's parse (`capacity < 0` after defaulting). -/
def NeighborInfo.negCapacity : NeighborInfo → Bool
  | .bare _ => false
  | .pair _ w => decide (w < 0)
  | .triple _ w _ => decide (w < 0)

/-- Whether some descriptor of the graph carries a negative capacity. -/
def hasNegCapacity (g : Graph) : Bool :=
  g.any (fun p => p.2.any NeighborInfo.negCapacity)

/-- One descriptor step of `find_min_cost_max_flow`'s residual construction:
`ValueError` on negative capacity, otherwise append the forward arc
`[v, cap, cost, idx_vu]` and the reverse arc `[u, 0, -cost, idx_uv]`. -/
def mcfStep (u : ℤ) (st : RAdj ℤ × List ℤ) (info : NeighborInfo) :
    Except PyErr (RAdj ℤ × List ℤ) :=
  let v := info.target
  let cap := info.weight2
  let cost := info.cost3
  if cap < 0 then .error .valueError
  else
    let nodes := insertNew st.2 v
    let idxUV := (st.1 u).length
    let idxVU := (st.1 v).length
    let adj1 := rAdd st.1 u ⟨v, cap, cost, idxVU⟩
    let adj2 := rAdd adj1 v ⟨u, 0, -cost, idxUV⟩
    .ok (adj2, nodes)

/-- `find_min_cost_max_flow`'s residual construction: the arc lists and the
node set (keys plus targets), or `ValueError` on the first negative
capacity. -/
def mcfBuild (g : Graph) : Except PyErr (RAdj ℤ × List ℤ) :=
  g.foldlM (fun st p => p.2.foldlM (mcfStep p.1) st)
    ((fun _ => []), g.foldl (fun a p => insertNew a p.1) [])

/-- The mutable state of one SPFA run: tentative costs (`none` = `inf`),
the combined `parent_node`/`parent_edge` map (always assigned together;
`none` models the `-1` sentinel), the `in_queue` flags and the FIFO queue. -/
structure SpfaState where
  dist : ℤ → Option ℤ
  parent : ℤ → Option (ℤ × ℕ)
  inQ : ℤ → Bool
  queue : List ℤ

/-- The state change of one successful SPFA relaxation of arc `(u, i) = e`
from tentative cost `du`: record the improved cost and parent pointer, and
enqueue the target unless it is already in the queue. -/
def spfaRelax (st : SpfaState) (u : ℤ) (i : ℕ) (e : REdge ℤ) (du : ℤ) : SpfaState :=
  let st2 : SpfaState :=
    { dist := Function.update st.dist e.tgt (some (du + e.extra))
      parent := Function.update st.parent e.tgt (some (u, i))
      inQ := st.inQ
      queue := st.queue }
  if st2.inQ e.tgt then st2
  else { st2 with
          queue := st2.queue ++ [e.tgt]
          inQ := Function.update st2.inQ e.tgt true }

/-- The relaxation scan of one popped node `u` over its arc list: relax
`v ∈ dist` with positive residual and improved cost, enqueueing `v` unless
already queued.  `dist u` is re-read at every arc, as in Python. -/
def spfaScan (nodes : List ℤ) (u : ℤ) :
    List (ℕ × REdge ℤ) → SpfaState → SpfaState
  | [], st => st
  | (i, e) :: rest, st =>
    match st.dist u with
    | none => spfaScan nodes u rest st
    | some du =>
      if decide (e.tgt ∈ nodes) && decide (0 < e.cap) &&
          (match st.dist e.tgt with
           | none => true
           | some dv => decide (du + e.extra < dv)) then
        spfaScan nodes u rest (spfaRelax st u i e du)
      else spfaScan nodes u rest st

/-- The SPFA queue loop: pop, clear the in-queue flag, scan the node's arcs.
Fuel bounds the pop count (SPFA re-enqueues, so the call site passes a
generous budget; exhaustion stops relaxation early, which no theorem's input
reaches). -/
def spfaLoop (adj : RAdj ℤ) (nodes : List ℤ) : ℕ → SpfaState → SpfaState
  | 0, st => st
  | fuel + 1, st =>
    match st.queue with
    | [] => st
    | u :: rest =>
      let st1 := { st with queue := rest, inQ := Function.update st.inQ u false }
      spfaLoop adj nodes fuel (spfaScan nodes u (adj u).enum st1)

/-- The path-reconstruction walk inside `find_shortest_path_spfa`: minimum
residual capacity along the parent path; `none` (outer) models the
`return None` on a broken parent chain or invalid index, the inner `Option`
is the `inf` accumulator. -/
def mcfWalk (adj : RAdj ℤ) (parent : ℤ → Option (ℤ × ℕ)) (source : ℤ) :
    ℕ → ℤ → Option ℤ → Option (Option ℤ)
  | 0, _, acc => some acc
  | fuel + 1, curr, acc =>
    if curr = source then some acc
    else
      match parent curr with
      | none => none
      | some ui =>
        match capAt adj ui.1 ui.2 with
        | none => none
        | some c => mcfWalk adj parent source fuel ui.1 (optMin acc c)

/-- `find_shortest_path_spfa()`: run SPFA from `source`, reconstruct the
cheapest augmenting path, and return `(path_flow, dist[sink], parent)`;
`none` when the sink is unreachable or reconstruction fails;
`(0, 0, parent)` in the degenerate `sink == source` case. -/
def spfaSearch (adj : RAdj ℤ) (nodes : List ℤ) (source sink : ℤ) (fuel : ℕ) :
    Option (ℤ × ℤ × (ℤ → Option (ℤ × ℕ))) :=
  if source ∉ nodes then none
  else
    let st0 : SpfaState :=
      { dist := Function.update (fun _ => none) source (some 0)
        parent := fun _ => none
        inQ := Function.update (fun _ => false) source true
        queue := [source] }
    let stF := spfaLoop adj nodes fuel st0
    if sink ∉ nodes then none
    else
      match stF.dist sink with
      | none => none
      | some dsink =>
        match mcfWalk adj stF.parent source (nodes.length + 2) sink none with
        | none => none
        | some pf =>
          match pf with
          | none => if sink = source then some (0, 0, stF.parent) else none
          | some f =>
            if f ≤ 0 then (if sink = source then some (0, 0, stF.parent) else none)
            else some (f, dsink, stF.parent)

/-- The residual-update walk of `find_min_cost_max_flow`'s main loop: both
validity guards are checked before the paired update of each step (a failed
guard `break`s, leaving the network as is). -/
def mcfAugWalk (parent : ℤ → Option (ℤ × ℕ)) (f : ℤ) (source : ℤ) :
    ℕ → ℤ → RAdj ℤ → RAdj ℤ
  | 0, _, adj => adj
  | fuel + 1, v, adj =>
    if v = source then adj
    else
      match parent v with
      | none => adj
      | some ui =>
        match (adj ui.1).get? ui.2 with
        | none => adj
        | some e =>
          match (adj v).get? e.rev with
          | none => adj
          | some _ => mcfAugWalk parent f source fuel ui.1 (applyAug adj ui.1 ui.2 v f)

/-- One iteration of the successive-shortest-path main loop: run SPFA, stop
on `None` or non-positive path flow, otherwise augment. -/
def mcfIterStep (nodes : List ℤ) (source sink : ℤ) (sfuel : ℕ)
    (adj : RAdj ℤ) : Option (RAdj ℤ × ℤ × ℤ) :=
  match spfaSearch adj nodes source sink sfuel with
  | none => none
  | some r =>
    if r.1 ≤ 0 then none
    else some (mcfAugWalk r.2.2 r.1 source (nodes.length + 2) sink adj, r.1, r.2.1)

/-- The successive-shortest-path main loop, accumulating flow and cost. -/
def mcfLoop (nodes : List ℤ) (source sink : ℤ) (sfuel : ℕ) :
    ℕ → RAdj ℤ → ℤ → ℤ → RAdj ℤ × ℤ × ℤ
  | 0, adj, fl, cost => (adj, fl, cost)
  | fuel + 1, adj, fl, cost =>
    match mcfIterStep nodes source sink sfuel adj with
    | none => (adj, fl, cost)
    | some st => mcfLoop nodes source sink sfuel fuel st.1 (fl + st.2.1) (cost + st.2.1 * st.2.2)

/-- `find_min_cost_max_flow(graph, source, sink)`: `ValueError` on a negative
capacity during construction; `(0, 0)` when `source` or `sink` is absent
from the node set; otherwise the accumulated `(max_flow, min_cost)`. -/
def find_min_cost_max_flow (g : Graph) (source sink : ℤ) : Except PyErr (ℤ × ℤ) :=
  match mcfBuild g with
  | .error e => .error e
  | .ok st =>
    if source ∉ st.2 ∨ sink ∉ st.2 then .ok (0, 0)
    else
      let r := mcfLoop st.2 source sink (spFuel g) (flowFuel g) st.1 0 0
      .ok (r.2.1, r.2.2)

/-- The residual network after `k` iterations of `find_min_cost_max_flow`'s
main loop (on graphs whose construction succeeds). -/
def mcfStateAfter (g : Graph) (source sink : ℤ) : ℕ → RAdj ℤ
  | 0 =>
    match mcfBuild g with
    | .error _ => fun _ => []
    | .ok st => st.1
  | k + 1 =>
    match mcfBuild g with
    | .error _ => fun _ => []
    | .ok st =>
      match mcfIterStep st.2 source sink (spFuel g) (mcfStateAfter g source sink k) with
      | none => mcfStateAfter g source sink k
      | some r => r.1

/-! ### `bridge_count.py` -/

/-- The mutable state of `count_bridges`: the visited set, the
discovery-time and low-link tables, the time counter and the collected
bridge list.  `disc` and `low` start at `inf` but are only ever read at
visited vertices, where they are finite — so they are modelled as plain
integer tables. -/
structure BrState where
  visited : List ℤ
  disc : ℤ → ℤ
  low : ℤ → ℤ
  time : ℤ
  bridges : List (ℤ × ℤ)

/-- The body of `count_bridges`'s recursive `dfs`, fuelled and flattened:
scanning the remaining neighbor list of `node` (whose entry bookkeeping has
already run).  Looking up `visited[neighbor_id]` for a vertex that is not a
dictionary key raises `KeyError`.  Entering an unvisited neighbor performs
the Python `dfs` preamble (mark visited, set `disc`/`low` to `time`,
increment `time`) and scans that neighbor's own list before continuing. -/
def bridgeGo (g : Graph) (keys : List ℤ) :
    ℕ → ℤ → ℤ → List NeighborInfo → BrState → Except PyErr BrState
  | 0, _, _, _, st => .ok st
  | _ + 1, _, _, [], st => .ok st
  | fuel + 1, node, parent, info :: rest, st =>
    let nid := info.target
    if nid ∉ keys then .error .keyError
    else if nid ∉ st.visited then
      let stE : BrState :=
        { st with
            visited := insertNew st.visited nid
            disc := Function.update st.disc nid st.time
            low := Function.update st.low nid st.time
            time := st.time + 1 }
      match bridgeGo g keys fuel nid node (lookupD g nid) stE with
      | .error e => .error e
      | .ok st2 =>
        let st3 : BrState :=
          { st2 with low := Function.update st2.low node (min (st2.low node) (st2.low nid)) }
        let st4 : BrState :=
          if st3.disc node < st3.low nid then
            { st3 with bridges := st3.bridges ++ [(node, nid)] }
          else st3
        bridgeGo g keys fuel node parent rest st4
    else if nid ≠ parent then
      bridgeGo g keys fuel node parent rest
        { st with low := Function.update st.low node (min (st.low node) (st.disc nid)) }
    else bridgeGo g keys fuel node parent rest st

/-- The `dfs` entry bookkeeping of `count_bridges` for a newly visited
vertex: mark visited, set `disc` and `low` to `time`, increment `time`. -/
def brEnter (nid : ℤ) (st : BrState) : BrState :=
  { st with
      visited := insertNew st.visited nid
      disc := Function.update st.disc nid st.time
      low := Function.update st.low nid st.time
      time := st.time + 1 }

/-- The `dfs` post-child bookkeeping of `count_bridges`: fold the child's
low link into `node`'s and record the bridge when the child cannot reach
above `node`. -/
def brAfter (node nid : ℤ) (st2 : BrState) : BrState :=
  let st3 : BrState :=
    { st2 with low := Function.update st2.low node (min (st2.low node) (st2.low nid)) }
  if st3.disc node < st3.low nid then
    { st3 with bridges := st3.bridges ++ [(node, nid)] }
  else st3

/-- The fuel weight of the not-yet-visited keys: each may still cost its
adjacency-list length plus one entry step. -/
def brWeight (g : Graph) (keys vis : List ℤ) : ℕ :=
  (keys.map fun v => if v ∈ vis then 0 else (lookupD g v).length + 1).sum

/-- One top-level `dfs(v, -1, ...)` launch of `count_bridges`. -/
def bridgeDfsTop (g : Graph) (keys : List ℤ) (fuel : ℕ) (v : ℤ)
    (st : BrState) : Except PyErr BrState :=
  bridgeGo g keys fuel v (-1) (lookupD g v)
    { st with
        visited := insertNew st.visited v
        disc := Function.update st.disc v st.time
        low := Function.update st.low v st.time
        time := st.time + 1 }

/-- `count_bridges(graph)`: Tarjan bridge counting over the dictionary keys;
raises `KeyError` when a neighbor is not a key. -/
def count_bridges (g : Graph) : Except PyErr ℕ :=
  if g = [] then .ok 0
  else
    let keys := g.foldl (fun a p => insertNew a p.1) []
    let fuel := (gSize g + 2) * (gSize g + 2)
    match keys.foldlM
        (fun st v => if v ∉ st.visited then bridgeDfsTop g keys fuel v st else .ok st)
        { visited := []
          disc := fun _ => 0
          low := fun _ => 0
          time := 0
          bridges := [] } with
    | .error e => .error e
    | .ok st => .ok st.bridges.length

/-! ### `minimum_cycle.py` -/

/-- The per-start BFS state of `find_minimum_cycle`: the FIFO queue, the
distance table (`none` = `inf`), the BFS parent table (`none` = `None`) and
the running minimum cycle length (`none` = `inf`). -/
structure McState where
  queue : List ℤ
  dist : ℤ → Option ℤ
  parent : ℤ → Option ℤ
  best : Option ℤ

/-- The neighbor scan of one popped vertex `current`: first-time neighbors
get distance and parent and are enqueued; already-discovered neighbors that
are not the BFS parent close a candidate cycle of length
`distance[current] + distance[neighbor] + 1`.  Reading `distance[neighbor]`
of a vertex that is not a key raises `KeyError`. -/
def minCycScan (keys : List ℤ) (current : ℤ) :
    List NeighborInfo → McState → Except PyErr McState
  | [], st => .ok st
  | info :: rest, st =>
    let nb := info.target
    if nb ∉ keys then .error .keyError
    else
      match st.dist nb with
      | none =>
        minCycScan keys current rest
          { st with
              queue := st.queue ++ [nb]
              dist := Function.update st.dist nb ((st.dist current).map (· + 1))
              parent := Function.update st.parent nb (some current) }
      | some dnb =>
        if st.parent current ≠ some nb then
          minCycScan keys current rest
            { st with
                best :=
                  match (st.dist current).map (· + dnb + 1) with
                  | none => st.best
                  | some c => optMin st.best c }
        else minCycScan keys current rest st

/-- The BFS loop of `find_minimum_cycle` for one start vertex. -/
def minCycBfs (g : Graph) (keys : List ℤ) :
    ℕ → McState → Except PyErr McState
  | 0, st => .ok st
  | fuel + 1, st =>
    match st.queue with
    | [] => .ok st
    | current :: rest =>
      match minCycScan keys current (lookupD g current) { st with queue := rest } with
      | .error e => .error e
      | .ok st2 => minCycBfs g keys fuel st2

/-- `find_minimum_cycle(graph)`: BFS from every key, collecting the minimum
candidate cycle length over all non-parent back edges; `-1` when none is
found.  Raises `KeyError` on inputs mentioning a non-key neighbor. -/
def find_minimum_cycle (g : Graph) : Except PyErr ℤ :=
  let keys := g.foldl (fun a p => insertNew a p.1) []
  match keys.foldlM
      (fun (best : Option ℤ) (start : ℤ) =>
        match minCycBfs g keys (keys.length + 2)
            { queue := [start]
              dist := Function.update (fun _ => none) start (some 0)
              parent := fun _ => none
              best := best } with
        | .error e => Except.error e
        | .ok st => Except.ok st.best)
      none with
  | .error e => .error e
  | .ok best =>
    match best with
    | none => .ok (-1)
    | some m => .ok m

/-! ### `spanning_tree_count.py` -/

/-- Ascending insertion of an integer into a sorted list. -/
def insertSortedInt (x : ℤ) : List ℤ → List ℤ
  | [] => [x]
  | y :: rest => if x ≤ y then x :: y :: rest else y :: insertSortedInt x rest

/-- Python `sorted(list(nodes))`. -/
def sortInts (l : List ℤ) : List ℤ :=
  l.foldr insertSortedInt []

/-- All vertices of the graph: keys first, then every neighbor target. -/
def stcNodes (g : Graph) : List ℤ :=
  g.foldl (fun acc p => p.2.foldl (fun a i => insertNew a i.target) acc)
    (g.foldl (fun a p => insertNew a p.1) [])

/-- Point update of a matrix represented as a function. -/
def upd2 (f : ℕ → ℕ → ℚ) (i j : ℕ) (q : ℚ) : ℕ → ℕ → ℚ :=
  fun a b => if a = i ∧ b = j then q else f a b

/-- The Laplacian construction of `count_spanning_trees`: the diagonal entry
of each key row is assigned the raw neighbor-list length (multi-edges
included), and for each distinct neighbor (`collections.Counter`) the
off-diagonal entry is decremented by the multiplicity — self-loops are
skipped.  (The `in vertex_to_idx` membership guards always hold, since the
node set collects every key and target.) -/
def buildLaplacian (g : Graph) (sorted : List ℤ) : ℕ → ℕ → ℚ :=
  g.foldl
    (fun L p =>
      let uIdx := sorted.indexOf p.1
      let tgts := p.2.map NeighborInfo.target
      (tgts.foldl (fun acc v => insertNew acc v) []).foldl
        (fun L2 v =>
          let vIdx := sorted.indexOf v
          if uIdx ≠ vIdx then upd2 L2 uIdx vIdx (L2 uIdx vIdx - (tgts.count v : ℚ))
          else L2)
        (upd2 L uIdx uIdx (p.2.length : ℚ)))
    (fun _ _ => 0)

/-- Absolute value of a rational (kernel-computable formulation). -/
def ratAbs (q : ℚ) : ℚ :=
  if q < 0 then -q else q

/-- Python `round` on the rational model of the determinant: round half to
even.  Writing `q = num/den` with `den > 0`, the floor is `f = num fdiv den`
and the fractional part is `r/den` with `r = num - f*den`, so the half
comparisons become integer comparisons of `2*r` against `den`. -/
def pyRound (q : ℚ) : ℤ :=
  let f := Int.fdiv q.num q.den
  let r := q.num - f * (q.den : ℤ)
  if 2 * r < (q.den : ℤ) then f
  else if (q.den : ℤ) < 2 * r then f + 1
  else if f % 2 = 0 then f else f + 1

/-- `count_spanning_trees(graph)`, parameterized over the external
`np.linalg.det` routine (modelled as an oracle `detf` taking the reduced
matrix as a function plus its dimension; on finite square inputs
`np.linalg.det` returns a float and does not raise, so the `LinAlgError`
handler is dead).  Zero vertices give `0`, one vertex gives `1`, and
otherwise the absolute determinant of the reduced Laplacian is rounded and
returned — the `np.isclose` comparison in the source only prints a warning
and never changes the returned value. -/
def count_spanning_trees (detf : (ℕ → ℕ → ℚ) → ℕ → ℚ) (g : Graph) : ℤ :=
  let nodes := stcNodes g
  if nodes = [] then 0
  else
    let sorted := sortInts nodes
    let n := sorted.length
    if n = 1 then 1
    else
      let L := buildLaplacian g sorted
      pyRound (ratAbs (detf (fun a b => L (a + 1) (b + 1)) (n - 1)))

/-! ## Theorems -/

/-- Counterexample to claim C6 as stated: on the adjacency mapping
`{1: [2]}`, whose vertex `2` appears only as a neighbor, `count_bridges`
and `find_minimum_cycle` both raise `KeyError` (they index per-key
dictionaries with the neighbor) instead of completing normally. -/
theorem neighbor_only_vertices_raise :
    count_bridges [(1, [.bare 2])] = .error .keyError ∧
    find_minimum_cycle [(1, [.bare 2])] = .error .keyError := by
  constructor
  · rfl
  · rfl

/-- A `foldlM` over `Except` propagates a first-step error. -/
lemma foldlM_cons_error {σ α : Type} (f : σ → α → Except PyErr σ) (a : α)
    (l : List α) (st : σ) (e : PyErr) (h : f st a = .error e) :
    (a :: l).foldlM f st = .error e := by
  rw [List.foldlM_cons, h]
  rfl

/-- A `foldlM` over `Except` continues after an `ok` first step. -/
lemma foldlM_cons_ok {σ α : Type} (f : σ → α → Except PyErr σ) (a : α)
    (l : List α) (st st2 : σ) (h : f st a = .ok st2) :
    (a :: l).foldlM f st = l.foldlM f st2 := by
  rw [List.foldlM_cons, h]
  rfl

/-- A `foldlM` all of whose steps succeed succeeds. -/
lemma foldlM_ok_of_all {σ α : Type} (f : σ → α → Except PyErr σ) :
    ∀ l : List α, (∀ st a, a ∈ l → ∃ st2, f st a = .ok st2) →
      ∀ st, ∃ st2, l.foldlM f st = .ok st2 := by
  intro l
  induction l with
  | nil => exact fun _ st => ⟨st, rfl⟩
  | cons a rest ih =>
    intro h st
    obtain ⟨st2, hst2⟩ := h st a (List.mem_cons_self a rest)
    obtain ⟨st3, hst3⟩ := ih (fun st b hb => h st b (List.mem_cons_of_mem a hb)) st2
    exact ⟨st3, by rw [foldlM_cons_ok f a rest st st2 hst2]; exact hst3⟩

/-- Membership in `insertNew`. -/
lemma mem_insertNew (l : List ℤ) (v x : ℤ) :
    x ∈ insertNew l v ↔ x ∈ l ∨ x = v := by
  unfold insertNew
  by_cases h : v ∈ l
  · rw [if_pos h]
    constructor
    · exact Or.inl
    · rintro (hx | rfl)
      · exact hx
      · exact h
  · rw [if_neg h]
    simp

/-- Membership in a key fold. -/
lemma mem_foldl_insertKeys :
    ∀ (entries : Graph) (acc : List ℤ) (x : ℤ),
      x ∈ entries.foldl (fun a p => insertNew a p.1) acc ↔
        x ∈ acc ∨ ∃ p ∈ entries, p.1 = x := by
  intro entries
  induction entries with
  | nil => simp
  | cons q rest ih =>
    intro acc x
    rw [List.foldl_cons, ih (insertNew acc q.1) x, mem_insertNew]
    constructor
    · rintro ((hx | rfl) | ⟨p, hp, rfl⟩)
      · exact Or.inl hx
      · exact Or.inr ⟨q, List.mem_cons_self q rest, rfl⟩
      · exact Or.inr ⟨p, List.mem_cons_of_mem q hp, rfl⟩
    · rintro (hx | ⟨p, hp, rfl⟩)
      · exact Or.inl (Or.inl hx)
      · rcases List.mem_cons.1 hp with rfl | hp2
        · exact Or.inl (Or.inr rfl)
        · exact Or.inr ⟨p, hp2, rfl⟩

/-- Key-list membership. -/
lemma mem_gKeys (g : Graph) (x : ℤ) :
    x ∈ gKeys g ↔ ∃ p ∈ g, p.1 = x := by
  unfold gKeys
  rw [mem_foldl_insertKeys]
  simp

/-- `lookupD` unfolded over a cons cell. -/
lemma lookupD_cons (k : ℤ) (l : List NeighborInfo) (rest : Graph) (a : ℤ) :
    lookupD ((k, l) :: rest) a = if a = k then l else lookupD rest a := by
  unfold lookupD
  by_cases h : a = k
  · have hb : (a == k) = true := beq_iff_eq.2 h
    rw [if_pos h]
    show (match (match a == k with
          | true => some l
          | false => rest.lookup a) with
        | some l2 => l2
        | none => []) = l
    rw [hb]
  · have hb : (a == k) = false := by
      rw [beq_eq_false_iff_ne]
      exact h
    rw [if_neg h]
    show (match (match a == k with
          | true => some l
          | false => rest.lookup a) with
        | some l2 => l2
        | none => []) = _
    rw [hb]

/-- With duplicate-free keys, `lookupD` returns each entry's own list. -/
lemma lookupD_eq_of_mem :
    ∀ g : Graph, (g.map Prod.fst).Nodup → ∀ p ∈ g, lookupD g p.1 = p.2 := by
  intro g
  induction g with
  | nil =>
    intro _ p hp
    exact absurd hp (List.not_mem_nil p)
  | cons q rest ih =>
    obtain ⟨qk, ql⟩ := q
    intro hnd p hp
    obtain ⟨pk, pl⟩ := p
    rcases List.mem_cons.1 hp with heq | hp2
    · injection heq with h1 h2
      subst h1
      subst h2
      rw [lookupD_cons, if_pos rfl]
    · have hnd2 : qk ∉ rest.map Prod.fst ∧ (rest.map Prod.fst).Nodup := by
        have : ((qk, ql) :: rest).map Prod.fst = qk :: rest.map Prod.fst := rfl
        rw [this] at hnd
        exact List.nodup_cons.1 hnd
      have hkne : pk ≠ qk := by
        intro h
        apply hnd2.1
        rw [← h]
        exact List.mem_map.2 ⟨(pk, pl), hp2, rfl⟩
      rw [lookupD_cons, if_neg hkne]
      exact ih hnd2.2 (pk, pl) hp2

/-- Every `lookupD` member comes from a graph entry. -/
lemma lookupD_mem :
    ∀ (g : Graph) (v : ℤ) (info : NeighborInfo),
      info ∈ lookupD g v → ∃ p ∈ g, p.1 = v ∧ info ∈ p.2 := by
  intro g
  induction g with
  | nil =>
    intro v info h
    exact absurd h (List.not_mem_nil info)
  | cons q rest ih =>
    obtain ⟨qk, ql⟩ := q
    intro v info h
    rw [lookupD_cons] at h
    by_cases hv : v = qk
    · rw [if_pos hv] at h
      exact ⟨(qk, ql), List.mem_cons_self _ _, hv.symm, h⟩
    · rw [if_neg hv] at h
      obtain ⟨p, hp, hpv, hpi⟩ := ih v info h
      exact ⟨p, List.mem_cons_of_mem _ hp, hpv, hpi⟩

/-- Pointwise bounds lift to mapped sums. -/
lemma sum_map_mono :
    ∀ (l : List ℤ) (f f2 : ℤ → ℕ), (∀ x ∈ l, f2 x ≤ f x) →
      (l.map f2).sum ≤ (l.map f).sum := by
  intro l f f2
  induction l with
  | nil => exact fun _ => Nat.le_refl 0
  | cons a rest ih =>
    intro h
    simp only [List.map_cons, List.sum_cons]
    exact Nat.add_le_add (h a (List.mem_cons_self a rest))
      (ih fun x hx => h x (List.mem_cons_of_mem a hx))

/-- Growing the visited set shrinks the fuel weight. -/
lemma brWeight_mono (g : Graph) (keys vis vis2 : List ℤ)
    (h : ∀ x ∈ vis, x ∈ vis2) : brWeight g keys vis2 ≤ brWeight g keys vis := by
  unfold brWeight
  apply sum_map_mono
  intro x _
  by_cases hx : x ∈ vis
  · rw [if_pos hx, if_pos (h x hx)]
  · rw [if_neg hx]
    by_cases hx2 : x ∈ vis2
    · rw [if_pos hx2]
      exact Nat.zero_le _
    · rw [if_neg hx2]

/-- An unvisited key's own cost is part of the fuel weight. -/
lemma brWeight_mem_le (g : Graph) (vis : List ℤ) (v : ℤ) (hnv : v ∉ vis) :
    ∀ keys : List ℤ, v ∈ keys →
      (lookupD g v).length + 1 ≤ brWeight g keys vis := by
  intro keys
  induction keys with
  | nil =>
    intro hv
    exact absurd hv (List.not_mem_nil v)
  | cons a rest ih =>
    intro hv
    unfold brWeight
    simp only [List.map_cons, List.sum_cons]
    rcases List.mem_cons.1 hv with rfl | hv2
    · rw [if_neg hnv]
      omega
    · have h2 := ih hv2
      unfold brWeight at h2
      omega

/-- Visiting an unvisited key pays for its own cost out of the weight. -/
lemma brWeight_drop (g : Graph) (vis vis2 : List ℤ) (v : ℤ)
    (hnv : v ∉ vis) (hsub : ∀ x ∈ vis, x ∈ vis2) (hv2 : v ∈ vis2) :
    ∀ keys : List ℤ, v ∈ keys →
      brWeight g keys vis2 + ((lookupD g v).length + 1) ≤ brWeight g keys vis := by
  intro keys
  induction keys with
  | nil =>
    intro hv
    exact absurd hv (List.not_mem_nil v)
  | cons a rest ih =>
    intro hv
    unfold brWeight
    simp only [List.map_cons, List.sum_cons]
    have htail :
        (rest.map fun x => if x ∈ vis2 then 0 else (lookupD g x).length + 1).sum
          ≤ (rest.map fun x => if x ∈ vis then 0 else (lookupD g x).length + 1).sum := by
      apply sum_map_mono
      intro x _
      by_cases hx : x ∈ vis
      · rw [if_pos hx, if_pos (hsub x hx)]
      · rw [if_neg hx]
        by_cases hx2 : x ∈ vis2
        · rw [if_pos hx2]
          exact Nat.zero_le _
        · rw [if_neg hx2]
    rcases List.mem_cons.1 hv with rfl | hvr
    · rw [if_neg hnv, if_pos hv2]
      omega
    · have hhead : (if a ∈ vis2 then 0 else (lookupD g a).length + 1)
          ≤ if a ∈ vis then 0 else (lookupD g a).length + 1 := by
        by_cases hx : a ∈ vis
        · rw [if_pos hx, if_pos (hsub a hx)]
        · rw [if_neg hx]
          by_cases hx2 : a ∈ vis2
          · rw [if_pos hx2]
            exact Nat.zero_le _
          · rw [if_neg hx2]
      have h2 := ih hvr
      unfold brWeight at h2
      omega

/-- A key fold's mapped sum is bounded by the entry sum. -/
lemma sum_map_foldl_insertKeys (w : ℤ → ℕ) :
    ∀ (entries : Graph) (acc : List ℤ),
      ((entries.foldl (fun a p => insertNew a p.1) acc).map w).sum ≤
        (acc.map w).sum + (entries.map fun p => w p.1).sum := by
  intro entries
  induction entries with
  | nil =>
    intro acc
    simp
  | cons q rest ih =>
    intro acc
    rw [List.foldl_cons]
    have h1 := ih (insertNew acc q.1)
    have h2 : ((insertNew acc q.1).map w).sum ≤ (acc.map w).sum + w q.1 := by
      unfold insertNew
      by_cases h : q.1 ∈ acc
      · rw [if_pos h]
        omega
      · rw [if_neg h]
        rw [List.map_append, List.sum_append]
        simp
    simp only [List.map_cons, List.sum_cons]
    omega

/-- `gSize` as a mapped sum. -/
lemma gSize_foldl :
    ∀ (g : Graph) (n : ℕ),
      g.foldl (fun a p => a + p.2.length + 1) n
        = n + (g.map fun p => p.2.length + 1).sum := by
  intro g
  induction g with
  | nil =>
    intro n
    simp
  | cons q rest ih =>
    intro n
    rw [List.foldl_cons, ih]
    simp only [List.map_cons, List.sum_cons]
    omega

/-- The full fuel weight of a duplicate-free graph is at most `gSize`. -/
lemma brWeight_nil_le_gSize (g : Graph) (hnd : (g.map Prod.fst).Nodup) :
    brWeight g (gKeys g) [] ≤ gSize g := by
  have hmap : ((gKeys g).map fun v =>
        if v ∈ ([] : List ℤ) then 0 else (lookupD g v).length + 1)
      = (gKeys g).map fun v => (lookupD g v).length + 1 := by
    apply List.map_congr_left
    intro x _
    rw [if_neg (List.not_mem_nil x)]
  have h1 :
      (((gKeys g)).map fun v => (lookupD g v).length + 1).sum
        ≤ (g.map fun p => (lookupD g p.1).length + 1).sum := by
    have := sum_map_foldl_insertKeys (fun v => (lookupD g v).length + 1) g []
    simpa [gKeys] using this
  have h2 : (g.map fun p => (lookupD g p.1).length + 1)
      = g.map fun p => p.2.length + 1 := by
    apply List.map_congr_left
    intro p hp
    rw [lookupD_eq_of_mem g hnd p hp]
  have h3 : gSize g = (g.map fun p => p.2.length + 1).sum := by
    unfold gSize
    rw [gSize_foldl]
    omega
  unfold brWeight
  rw [hmap, h3]
  rw [h2] at h1
  exact h1

/-- One-step unfolding of `bridgeGo` on a non-empty scan list. -/
lemma bridgeGo_cons (g : Graph) (keys : List ℤ) (fuel : ℕ) (node parent : ℤ)
    (info : NeighborInfo) (rest : List NeighborInfo) (st : BrState) :
    bridgeGo g keys (fuel + 1) node parent (info :: rest) st =
      if info.target ∉ keys then .error .keyError
      else if info.target ∉ st.visited then
        match bridgeGo g keys fuel info.target node (lookupD g info.target)
            (brEnter info.target st) with
        | .error e => .error e
        | .ok st2 =>
          bridgeGo g keys fuel node parent rest (brAfter node info.target st2)
      else if info.target ≠ parent then
        bridgeGo g keys fuel node parent rest
          { st with
              low := Function.update st.low node (min (st.low node) (st.disc info.target)) }
      else bridgeGo g keys fuel node parent rest st := rfl

/-- The post-child bookkeeping never touches the visited set. -/
lemma brAfter_visited (node nid : ℤ) (st2 : BrState) :
    (brAfter node nid st2).visited = st2.visited := by
  simp only [brAfter]
  split <;> rfl

/-- The only error `bridgeGo` ever raises is `KeyError`. -/
lemma bridgeGo_error_keyError (g : Graph) (keys : List ℤ) :
    ∀ (fuel : ℕ) (node parent : ℤ) (l : List NeighborInfo) (st : BrState)
      (e : PyErr), bridgeGo g keys fuel node parent l st = .error e →
      e = .keyError := by
  intro fuel
  induction fuel with
  | zero =>
    intro node parent l st e h
    exact Except.noConfusion h
  | succ fuel ih =>
    intro node parent l st e h
    cases l with
    | nil => exact Except.noConfusion h
    | cons info rest =>
      rw [bridgeGo_cons] at h
      by_cases h1 : info.target ∈ keys
      · rw [if_neg (not_not_intro h1)] at h
        by_cases h2 : info.target ∈ st.visited
        · by_cases h3 : info.target = parent
          · rw [if_neg (not_not_intro h2), if_neg (not_not_intro h3)] at h
            exact ih node parent rest st e h
          · rw [if_neg (not_not_intro h2), if_pos h3] at h
            exact ih node parent rest _ e h
        · rw [if_pos h2] at h
          cases hchild : bridgeGo g keys fuel info.target node
              (lookupD g info.target) (brEnter info.target st) with
          | error e2 =>
            have h5 := ih info.target node (lookupD g info.target)
              (brEnter info.target st) e2 hchild
            rw [hchild] at h
            injection h with h6
            rw [← h6]
            exact h5
          | ok stc =>
            rw [hchild] at h
            exact ih node parent rest (brAfter node info.target stc) e h
      · rw [if_pos h1] at h
        injection h with h4
        exact h4.symm

/-- A scan list holding a non-key target within the fuel horizon raises
`KeyError`. -/
lemma bridgeGo_bad_index (g : Graph) (keys : List ℤ) :
    ∀ (fuel : ℕ) (node parent : ℤ) (l : List NeighborInfo) (st : BrState)
      (i : ℕ) (info : NeighborInfo),
      l.get? i = some info → info.target ∉ keys → i < fuel →
      bridgeGo g keys fuel node parent l st = .error .keyError := by
  intro fuel
  induction fuel with
  | zero =>
    intro _ _ _ _ i _ _ _ hi
    exact absurd hi (Nat.not_lt_zero i)
  | succ fuel ih =>
    intro node parent l st i info hget hbad hlt
    cases l with
    | nil =>
      rw [List.get?_nil] at hget
      exact Option.noConfusion hget
    | cons head rest =>
      rw [bridgeGo_cons]
      by_cases h1 : head.target ∈ keys
      · rw [if_neg (not_not_intro h1)]
        have hi0 : i ≠ 0 := by
          intro h
          subst h
          rw [List.get?_cons_zero] at hget
          injection hget with h2
          rw [← h2] at hbad
          exact hbad h1
        obtain ⟨j, rfl⟩ : ∃ j, i = j + 1 := ⟨i - 1, by omega⟩
        have hgetr : rest.get? j = some info := by
          rw [List.get?_cons_succ] at hget
          exact hget
        by_cases h2 : head.target ∈ st.visited
        · by_cases h3 : head.target = parent
          · rw [if_neg (not_not_intro h2), if_neg (not_not_intro h3)]
            exact ih node parent rest st j info hgetr hbad (by omega)
          · rw [if_neg (not_not_intro h2), if_pos h3]
            exact ih node parent rest _ j info hgetr hbad (by omega)
        · rw [if_pos h2]
          cases hchild : bridgeGo g keys fuel head.target node
              (lookupD g head.target) (brEnter head.target st) with
          | error e2 =>
            have h5 := bridgeGo_error_keyError g keys fuel head.target node
              (lookupD g head.target) (brEnter head.target st) e2 hchild
            rw [h5]
          | ok stc =>
            exact ih node parent rest (brAfter node head.target stc) j info
              hgetr hbad (by omega)
      · rw [if_pos h1]

/-- With fuel at least the scan length plus the weight of the unvisited
keys, a successful `bridgeGo` run grows the visited set monotonically
inside the key set and fully scans every newly visited vertex's list —
so every newly visited vertex has only keyed neighbors. -/
lemma bridgeGo_adeq (g : Graph) (keys : List ℤ) :
    ∀ (fuel : ℕ) (node parent : ℤ) (l : List NeighborInfo) (st st2 : BrState),
      (∀ x ∈ st.visited, x ∈ keys) →
      l.length + brWeight g keys st.visited ≤ fuel →
      bridgeGo g keys fuel node parent l st = .ok st2 →
      (∀ x ∈ st.visited, x ∈ st2.visited) ∧
      (∀ x ∈ st2.visited, x ∈ keys) ∧
      (∀ v, v ∈ st2.visited → v ∉ st.visited →
        ∀ info2 ∈ lookupD g v, info2.target ∈ keys) := by
  intro fuel
  induction fuel with
  | zero =>
    intro node parent l st st2 hsub hfuel hok
    have hst : st = st2 := by injection hok
    subst hst
    exact ⟨fun x hx => hx, hsub, fun v hv hnv => absurd hv hnv⟩
  | succ fuel ih =>
    intro node parent l st st2 hsub hfuel hok
    cases l with
    | nil =>
      have hst : st = st2 := by injection hok
      subst hst
      exact ⟨fun x hx => hx, hsub, fun v hv hnv => absurd hv hnv⟩
    | cons info rest =>
      rw [bridgeGo_cons] at hok
      simp only [List.length_cons] at hfuel
      by_cases h1 : info.target ∈ keys
      · rw [if_neg (not_not_intro h1)] at hok
        by_cases h2 : info.target ∈ st.visited
        · by_cases h3 : info.target = parent
          · rw [if_neg (not_not_intro h2), if_neg (not_not_intro h3)] at hok
            exact ih node parent rest st st2 hsub (by omega) hok
          · rw [if_neg (not_not_intro h2), if_pos h3] at hok
            exact ih node parent rest
              { st with
                  low := Function.update st.low node
                    (min (st.low node) (st.disc info.target)) }
              st2 hsub
              (by
                show rest.length + brWeight g keys st.visited ≤ fuel
                omega)
              hok
        · rw [if_pos h2] at hok
          cases hchild : bridgeGo g keys fuel info.target node
              (lookupD g info.target) (brEnter info.target st) with
          | error e =>
            rw [hchild] at hok
            exact Except.noConfusion hok
          | ok stc =>
            rw [hchild] at hok
            have hok2 : bridgeGo g keys fuel node parent rest
                (brAfter node info.target stc) = .ok st2 := hok
            have hEsub : ∀ x ∈ (brEnter info.target st).visited, x ∈ keys := by
              intro x hx
              rcases (mem_insertNew st.visited info.target x).1 hx with hx2 | rfl
              · exact hsub x hx2
              · exact h1
            have hwdrop := brWeight_drop g st.visited
              (insertNew st.visited info.target) info.target h2
              (fun x hx => (mem_insertNew st.visited info.target x).2 (Or.inl hx))
              ((mem_insertNew st.visited info.target info.target).2 (Or.inr rfl))
              keys h1
            have hfc : (lookupD g info.target).length
                + brWeight g keys (brEnter info.target st).visited ≤ fuel := by
              show (lookupD g info.target).length
                + brWeight g keys (insertNew st.visited info.target) ≤ fuel
              omega
            obtain ⟨hm1, hk1, hc1⟩ := ih info.target node (lookupD g info.target)
              (brEnter info.target st) stc hEsub hfc hchild
            have hAv : (brAfter node info.target stc).visited = stc.visited :=
              brAfter_visited node info.target stc
            have hsubA : ∀ x ∈ (brAfter node info.target stc).visited, x ∈ keys := by
              rw [hAv]
              exact hk1
            have hwc : brWeight g keys stc.visited
                ≤ brWeight g keys (insertNew st.visited info.target) :=
              brWeight_mono g keys (insertNew st.visited info.target) stc.visited hm1
            have hfr : rest.length
                + brWeight g keys (brAfter node info.target stc).visited ≤ fuel := by
              rw [hAv]
              omega
            obtain ⟨hm2, hk2, hc2⟩ := ih node parent rest
              (brAfter node info.target stc) st2 hsubA hfr hok2
            refine ⟨?_, hk2, ?_⟩
            · intro x hx
              apply hm2
              rw [hAv]
              apply hm1
              show x ∈ insertNew st.visited info.target
              exact (mem_insertNew st.visited info.target x).2 (Or.inl hx)
            · intro v hv hnv info2 hinfo2
              by_cases hvA : v ∈ (brAfter node info.target stc).visited
              · rw [hAv] at hvA
                by_cases hvE : v ∈ (brEnter info.target st).visited
                · rcases (mem_insertNew st.visited info.target v).1 hvE with hv2 | rfl
                  · exact absurd hv2 hnv
                  · by_contra hbadt
                    obtain ⟨j, hj⟩ := List.mem_iff_get?.1 hinfo2
                    have hjl : j < (lookupD g info.target).length := by
                      by_contra hge
                      push_neg at hge
                      rw [List.get?_eq_none.2 hge] at hj
                      exact Option.noConfusion hj
                    have hbadrun := bridgeGo_bad_index g keys fuel info.target node
                      (lookupD g info.target) (brEnter info.target st) j info2 hj
                      hbadt (by omega)
                    rw [hbadrun] at hchild
                    exact Except.noConfusion hchild
                · exact hc1 v hvA hvE info2 hinfo2
              · exact hc2 v hv hvA info2 hinfo2
      · rw [if_pos h1] at hok
        exact Except.noConfusion hok

/-- All-keyed scans of `bridgeGo` cannot raise. -/
lemma bridgeGo_ok_of_allKeyed (g : Graph) (keys : List ℤ)
    (hall : ∀ v : ℤ, ∀ info ∈ lookupD g v, NeighborInfo.target info ∈ keys) :
    ∀ (fuel : ℕ) (node parent : ℤ) (l : List NeighborInfo) (st : BrState),
      (∀ info ∈ l, NeighborInfo.target info ∈ keys) →
      ∃ st2, bridgeGo g keys fuel node parent l st = .ok st2 := by
  intro fuel
  induction fuel with
  | zero => exact fun node parent l st _ => ⟨st, rfl⟩
  | succ fuel ih =>
    intro node parent l st hl
    cases l with
    | nil => exact ⟨st, rfl⟩
    | cons info rest =>
      rw [bridgeGo_cons]
      have h1 : info.target ∈ keys := hl info (List.mem_cons_self info rest)
      rw [if_neg (not_not_intro h1)]
      have hrest : ∀ i ∈ rest, NeighborInfo.target i ∈ keys :=
        fun i hi => hl i (List.mem_cons_of_mem info hi)
      by_cases h2 : info.target ∈ st.visited
      · by_cases h3 : info.target = parent
        · rw [if_neg (not_not_intro h2), if_neg (not_not_intro h3)]
          exact ih node parent rest st hrest
        · rw [if_neg (not_not_intro h2), if_pos h3]
          exact ih node parent rest
            { st with
                low := Function.update st.low node
                  (min (st.low node) (st.disc info.target)) }
            hrest
      · rw [if_pos h2]
        obtain ⟨stc, hstc⟩ := ih info.target node (lookupD g info.target)
          (brEnter info.target st) (hall info.target)
        rw [hstc]
        exact ih node parent rest (brAfter node info.target stc) hrest

/-- The outer key loop of `count_bridges` raises `KeyError` as soon as the
graph holds a non-key neighbor: visited keys stay fully scanned (hence
clean), so the bad key is still unvisited when its turn comes and its
launch hits the bad neighbor with fresh fuel. -/
lemma bridges_fold_error (g : Graph) (keys : List ℤ) (F : ℕ)
    (hWF : brWeight g keys [] + brWeight g keys [] ≤ F) :
    ∀ (ks : List ℤ) (st : BrState),
      (∀ x ∈ st.visited, x ∈ keys) →
      (∀ v ∈ st.visited, ∀ info ∈ lookupD g v, NeighborInfo.target info ∈ keys) →
      (∀ v ∈ ks, v ∈ keys) →
      (∃ u ∈ ks, ∃ info ∈ lookupD g u, NeighborInfo.target info ∉ keys) →
      ks.foldlM
        (fun st v => if v ∉ st.visited then bridgeDfsTop g keys F v st else .ok st)
        st = .error .keyError := by
  intro ks
  induction ks with
  | nil =>
    intro st _ _ _ hbad
    obtain ⟨u, hu, _⟩ := hbad
    exact absurd hu (List.not_mem_nil u)
  | cons v ks2 ih =>
    intro st hsub hclean hks hbad
    have hvk : v ∈ keys := hks v (List.mem_cons_self v ks2)
    by_cases hvst : v ∈ st.visited
    · have hstep : (if v ∉ st.visited then bridgeDfsTop g keys F v st
          else .ok st) = .ok st := by
        rw [if_neg (not_not_intro hvst)]
      rw [foldlM_cons_ok _ v ks2 st st hstep]
      apply ih st hsub hclean (fun x hx => hks x (List.mem_cons_of_mem v hx))
      obtain ⟨u, hu, info, hinfo, hbadi⟩ := hbad
      rcases List.mem_cons.1 hu with rfl | hu2
      · exact absurd (hclean u hvst info hinfo) hbadi
      · exact ⟨u, hu2, info, hinfo, hbadi⟩
    · have hWst : brWeight g keys st.visited ≤ brWeight g keys [] :=
        brWeight_mono g keys [] st.visited
          (fun x hx => absurd hx (List.not_mem_nil x))
      by_cases hvbad : ∃ info ∈ lookupD g v, NeighborInfo.target info ∉ keys
      · obtain ⟨info, hinfo, hbadi⟩ := hvbad
        obtain ⟨j, hj⟩ := List.mem_iff_get?.1 hinfo
        have hjl : j < (lookupD g v).length := by
          by_contra hge
          push_neg at hge
          rw [List.get?_eq_none.2 hge] at hj
          exact Option.noConfusion hj
        have hlen1 := brWeight_mem_le g st.visited v hvst keys hvk
        have hlaunch : bridgeDfsTop g keys F v st = .error .keyError := by
          show bridgeGo g keys F v (-1) (lookupD g v) (brEnter v st)
            = .error .keyError
          exact bridgeGo_bad_index g keys F v (-1) (lookupD g v) (brEnter v st)
            j info hj hbadi (by omega)
        have hstep : (if v ∉ st.visited then bridgeDfsTop g keys F v st
            else .ok st) = .error .keyError := by
          rw [if_pos hvst, hlaunch]
        exact foldlM_cons_error _ v ks2 st .keyError hstep
      · push_neg at hvbad
        cases hlaunch : bridgeDfsTop g keys F v st with
        | error e =>
          have he : e = .keyError :=
            bridgeGo_error_keyError g keys F v (-1) (lookupD g v) (brEnter v st)
              e hlaunch
          have hstep : (if v ∉ st.visited then bridgeDfsTop g keys F v st
              else .ok st) = .error .keyError := by
            rw [if_pos hvst, hlaunch, he]
          exact foldlM_cons_error _ v ks2 st .keyError hstep
        | ok stc =>
          have hstep : (if v ∉ st.visited then bridgeDfsTop g keys F v st
              else .ok st) = .ok stc := by
            rw [if_pos hvst, hlaunch]
          rw [foldlM_cons_ok _ v ks2 st stc hstep]
          have hEsub : ∀ x ∈ (brEnter v st).visited, x ∈ keys := by
            intro x hx
            rcases (mem_insertNew st.visited v x).1 hx with hx2 | rfl
            · exact hsub x hx2
            · exact hvk
          have hwdrop := brWeight_drop g st.visited (insertNew st.visited v) v
            hvst (fun x hx => (mem_insertNew st.visited v x).2 (Or.inl hx))
            ((mem_insertNew st.visited v v).2 (Or.inr rfl)) keys hvk
          obtain ⟨hm1, hk1, hc1⟩ := bridgeGo_adeq g keys F v (-1) (lookupD g v)
            (brEnter v st) stc hEsub
            (by
              show (lookupD g v).length
                + brWeight g keys (insertNew st.visited v) ≤ F
              omega)
            hlaunch
          apply ih stc hk1
          · intro w hw info hinfo
            by_cases hwE : w ∈ (brEnter v st).visited
            · rcases (mem_insertNew st.visited v w).1 hwE with hw2 | rfl
              · exact hclean w hw2 info hinfo
              · exact hvbad info hinfo
            · exact hc1 w hw hwE info hinfo
          · exact fun x hx => hks x (List.mem_cons_of_mem v hx)
          · obtain ⟨u, hu, info, hinfo, hbadi⟩ := hbad
            rcases List.mem_cons.1 hu with rfl | hu2
            · exact absurd (hvbad info hinfo) hbadi
            · exact ⟨u, hu2, info, hinfo, hbadi⟩

/-- All-keyed graphs let the outer key loop of `count_bridges` finish. -/
lemma bridges_fold_ok (g : Graph) (keys : List ℤ) (F : ℕ)
    (hall : ∀ v : ℤ, ∀ info ∈ lookupD g v, NeighborInfo.target info ∈ keys)
    (ks : List ℤ) (st : BrState) :
    ∃ st2, ks.foldlM
      (fun st v => if v ∉ st.visited then bridgeDfsTop g keys F v st else .ok st)
      st = .ok st2 := by
  apply foldlM_ok_of_all
  intro st v _
  by_cases hvst : v ∈ st.visited
  · exact ⟨st, by rw [if_neg (not_not_intro hvst)]⟩
  · obtain ⟨st2, hst2⟩ := bridgeGo_ok_of_allKeyed g keys hall F v (-1)
      (lookupD g v) (brEnter v st) (hall v)
    exact ⟨st2, by rw [if_pos hvst]; exact hst2⟩

/-- `count_bridges` raises `KeyError` on every dictionary with a non-key
neighbor. -/
lemma count_bridges_error (g : Graph) (hnd : (g.map Prod.fst).Nodup)
    (hbad : ∃ p ∈ g, ∃ info ∈ p.2, NeighborInfo.target info ∉ gKeys g) :
    count_bridges g = .error .keyError := by
  obtain ⟨p, hp, info, hinfo, hbadi⟩ := hbad
  have hne : g ≠ [] := by
    intro h
    rw [h] at hp
    exact List.not_mem_nil p hp
  have hWF : brWeight g (gKeys g) [] + brWeight g (gKeys g) []
      ≤ (gSize g + 2) * (gSize g + 2) := by
    have h1 := brWeight_nil_le_gSize g hnd
    have h2 : (gSize g + 2) * 2 ≤ (gSize g + 2) * (gSize g + 2) :=
      Nat.mul_le_mul_left _ (by omega)
    omega
  have hfe := bridges_fold_error g (gKeys g) ((gSize g + 2) * (gSize g + 2))
    hWF (gKeys g)
    { visited := [], disc := fun _ => 0, low := fun _ => 0, time := 0,
      bridges := [] }
    (fun x hx => absurd hx (List.not_mem_nil x))
    (fun v hv => absurd hv (List.not_mem_nil v))
    (fun v hv => hv)
    ⟨p.1, (mem_gKeys g p.1).2 ⟨p, hp, rfl⟩, info,
      by rw [lookupD_eq_of_mem g hnd p hp]; exact hinfo, hbadi⟩
  simp only [count_bridges]
  rw [if_neg hne,
    show g.foldl (fun a p => insertNew a p.1) [] = gKeys g from rfl, hfe]

/-- `count_bridges` completes normally on every all-keyed dictionary. -/
lemma count_bridges_ok (g : Graph)
    (hall : ∀ p ∈ g, ∀ info ∈ p.2, NeighborInfo.target info ∈ gKeys g) :
    ∃ n, count_bridges g = .ok n := by
  by_cases hne : g = []
  · exact ⟨0, by rw [hne]; rfl⟩
  · have hallv : ∀ v : ℤ, ∀ info ∈ lookupD g v,
        NeighborInfo.target info ∈ gKeys g := by
      intro v info hi
      obtain ⟨p, hp, hpv, hpi⟩ := lookupD_mem g v info hi
      exact hall p hp info hpi
    obtain ⟨st2, hst2⟩ := bridges_fold_ok g (gKeys g)
      ((gSize g + 2) * (gSize g + 2)) hallv (gKeys g)
      { visited := [], disc := fun _ => 0, low := fun _ => 0, time := 0,
        bridges := [] }
    refine ⟨st2.bridges.length, ?_⟩
    simp only [count_bridges]
    rw [if_neg hne,
      show g.foldl (fun a p => insertNew a p.1) [] = gKeys g from rfl, hst2]

/-- One-step unfolding of `minCycScan`. -/
lemma minCycScan_cons (keys : List ℤ) (current : ℤ) (info : NeighborInfo)
    (rest : List NeighborInfo) (st : McState) :
    minCycScan keys current (info :: rest) st =
      if info.target ∉ keys then .error .keyError
      else
        match st.dist info.target with
        | none =>
          minCycScan keys current rest
            { st with
                queue := st.queue ++ [info.target]
                dist := Function.update st.dist info.target
                  ((st.dist current).map (· + 1))
                parent := Function.update st.parent info.target (some current) }
        | some dnb =>
          if st.parent current ≠ some info.target then
            minCycScan keys current rest
              { st with
                  best :=
                    match (st.dist current).map (· + dnb + 1) with
                    | none => st.best
                    | some c => optMin st.best c }
          else minCycScan keys current rest st := rfl

/-- `minCycScan` on a non-key head raises. -/
lemma minCycScan_cons_bad (keys : List ℤ) (current : ℤ) (info : NeighborInfo)
    (rest : List NeighborInfo) (st : McState) (h1 : info.target ∉ keys) :
    minCycScan keys current (info :: rest) st = .error .keyError := by
  rw [minCycScan_cons, if_pos h1]

/-- `minCycScan` on an undiscovered keyed head enqueues it. -/
lemma minCycScan_cons_none (keys : List ℤ) (current : ℤ) (info : NeighborInfo)
    (rest : List NeighborInfo) (st : McState) (h1 : info.target ∈ keys)
    (hd : st.dist info.target = none) :
    minCycScan keys current (info :: rest) st =
      minCycScan keys current rest
        { st with
            queue := st.queue ++ [info.target]
            dist := Function.update st.dist info.target
              ((st.dist current).map (· + 1))
            parent := Function.update st.parent info.target (some current) } := by
  rw [minCycScan_cons, if_neg (not_not_intro h1), hd]

/-- `minCycScan` on a discovered keyed head checks the back-edge filter. -/
lemma minCycScan_cons_some (keys : List ℤ) (current : ℤ) (info : NeighborInfo)
    (rest : List NeighborInfo) (st : McState) (dnb : ℤ)
    (h1 : info.target ∈ keys) (hd : st.dist info.target = some dnb) :
    minCycScan keys current (info :: rest) st =
      if st.parent current ≠ some info.target then
        minCycScan keys current rest
          { st with
              best :=
                match (st.dist current).map (· + dnb + 1) with
                | none => st.best
                | some c => optMin st.best c }
      else minCycScan keys current rest st := by
  rw [minCycScan_cons, if_neg (not_not_intro h1), hd]

/-- The only error `minCycScan` ever raises is `KeyError`. -/
lemma minCycScan_error_keyError (keys : List ℤ) (current : ℤ) :
    ∀ (l : List NeighborInfo) (st : McState) (e : PyErr),
      minCycScan keys current l st = .error e → e = .keyError := by
  intro l
  induction l with
  | nil =>
    intro st e h
    exact Except.noConfusion h
  | cons info rest ih =>
    intro st e h
    by_cases h1 : info.target ∈ keys
    · cases hd : st.dist info.target with
      | none =>
        rw [minCycScan_cons_none keys current info rest st h1 hd] at h
        exact ih _ e h
      | some dnb =>
        rw [minCycScan_cons_some keys current info rest st dnb h1 hd] at h
        by_cases h2 : st.parent current = some info.target
        · rw [if_neg (not_not_intro h2)] at h
          exact ih st e h
        · rw [if_pos h2] at h
          exact ih _ e h
    · rw [minCycScan_cons_bad keys current info rest st h1] at h
      injection h with h4
      exact h4.symm

/-- A scan list holding a non-key target makes `minCycScan` raise. -/
lemma minCycScan_bad (keys : List ℤ) (current : ℤ) :
    ∀ (l : List NeighborInfo) (st : McState),
      (∃ info ∈ l, NeighborInfo.target info ∉ keys) →
      minCycScan keys current l st = .error .keyError := by
  intro l
  induction l with
  | nil =>
    intro st hbad
    obtain ⟨info, hi, _⟩ := hbad
    exact absurd hi (List.not_mem_nil info)
  | cons info rest ih =>
    intro st hbad
    by_cases h1 : info.target ∈ keys
    · have hbad2 : ∃ i ∈ rest, NeighborInfo.target i ∉ keys := by
        obtain ⟨i, hi, hbi⟩ := hbad
        rcases List.mem_cons.1 hi with rfl | hi2
        · exact absurd h1 hbi
        · exact ⟨i, hi2, hbi⟩
      cases hd : st.dist info.target with
      | none =>
        rw [minCycScan_cons_none keys current info rest st h1 hd]
        exact ih _ hbad2
      | some dnb =>
        rw [minCycScan_cons_some keys current info rest st dnb h1 hd]
        by_cases h2 : st.parent current = some info.target
        · rw [if_neg (not_not_intro h2)]
          exact ih st hbad2
        · rw [if_pos h2]
          exact ih _ hbad2
    · exact minCycScan_cons_bad keys current info rest st h1

/-- All-keyed scans of `minCycScan` cannot raise. -/
lemma minCycScan_ok (keys : List ℤ) (current : ℤ) :
    ∀ (l : List NeighborInfo) (st : McState),
      (∀ info ∈ l, NeighborInfo.target info ∈ keys) →
      ∃ st2, minCycScan keys current l st = .ok st2 := by
  intro l
  induction l with
  | nil => exact fun st _ => ⟨st, rfl⟩
  | cons info rest ih =>
    intro st hl
    have h1 := hl info (List.mem_cons_self info rest)
    have hrest : ∀ i ∈ rest, NeighborInfo.target i ∈ keys :=
      fun i hi => hl i (List.mem_cons_of_mem info hi)
    cases hd : st.dist info.target with
    | none =>
      rw [minCycScan_cons_none keys current info rest st h1 hd]
      exact ih _ hrest
    | some dnb =>
      rw [minCycScan_cons_some keys current info rest st dnb h1 hd]
      by_cases h2 : st.parent current = some info.target
      · rw [if_neg (not_not_intro h2)]
        exact ih st hrest
      · rw [if_pos h2]
        exact ih _ hrest

/-- One-step unfolding of `minCycBfs` at positive fuel. -/
lemma minCycBfs_succ (g : Graph) (keys : List ℤ) (fuel : ℕ) (st : McState) :
    minCycBfs g keys (fuel + 1) st =
      match st.queue with
      | [] => .ok st
      | current :: rest =>
        match minCycScan keys current (lookupD g current)
            { st with queue := rest } with
        | .error e => .error e
        | .ok st2 => minCycBfs g keys fuel st2 := rfl

/-- The only error `minCycBfs` ever raises is `KeyError`. -/
lemma minCycBfs_error_keyError (g : Graph) (keys : List ℤ) :
    ∀ (fuel : ℕ) (st : McState) (e : PyErr),
      minCycBfs g keys fuel st = .error e → e = .keyError := by
  intro fuel
  induction fuel with
  | zero =>
    intro st e h
    exact Except.noConfusion h
  | succ fuel ih =>
    intro st e h
    rw [minCycBfs_succ] at h
    cases hq : st.queue with
    | nil =>
      rw [hq] at h
      exact Except.noConfusion h
    | cons current rest =>
      rw [hq] at h
      have h2 : (match minCycScan keys current (lookupD g current)
            { st with queue := rest } with
          | .error e => Except.error e
          | .ok st2 => minCycBfs g keys fuel st2) = Except.error e := h
      cases hscan : minCycScan keys current (lookupD g current)
          { st with queue := rest } with
      | error e2 =>
        rw [hscan] at h2
        injection h2 with h4
        rw [← h4]
        exact minCycScan_error_keyError keys current (lookupD g current) _ e2 hscan
      | ok st2 =>
        rw [hscan] at h2
        exact ih st2 e h2

/-- All-keyed graphs let `minCycBfs` finish at any fuel. -/
lemma minCycBfs_ok (g : Graph) (keys : List ℤ)
    (hall : ∀ v : ℤ, ∀ info ∈ lookupD g v, NeighborInfo.target info ∈ keys) :
    ∀ (fuel : ℕ) (st : McState), ∃ st2, minCycBfs g keys fuel st = .ok st2 := by
  intro fuel
  induction fuel with
  | zero => exact fun st => ⟨st, rfl⟩
  | succ fuel ih =>
    intro st
    cases hq : st.queue with
    | nil => exact ⟨st, by rw [minCycBfs_succ, hq]⟩
    | cons current rest =>
      obtain ⟨st2, hst2⟩ := minCycScan_ok keys current (lookupD g current)
        { st with queue := rest } (hall current)
      obtain ⟨st3, hst3⟩ := ih st2
      refine ⟨st3, ?_⟩
      rw [minCycBfs_succ, hq]
      show (match minCycScan keys current (lookupD g current)
          { st with queue := rest } with
        | .error e => Except.error e
        | .ok st2 => minCycBfs g keys fuel st2) = Except.ok st3
      rw [hst2]
      exact hst3

/-- A BFS whose start vertex has a non-key neighbor raises on its first
pop. -/
lemma minCycBfs_bad_start (g : Graph) (keys : List ℤ) (fuel : ℕ)
    (st : McState) (current : ℤ) (rest : List ℤ)
    (hq : st.queue = current :: rest)
    (hbad : ∃ info ∈ lookupD g current, NeighborInfo.target info ∉ keys) :
    minCycBfs g keys (fuel + 1) st = .error .keyError := by
  rw [minCycBfs_succ, hq]
  show (match minCycScan keys current (lookupD g current)
      { st with queue := rest } with
    | .error e => Except.error e
    | .ok st2 => minCycBfs g keys fuel st2) = Except.error .keyError
  rw [minCycScan_bad keys current (lookupD g current) _ hbad]

/-- The start loop of `find_minimum_cycle` raises `KeyError` as soon as some
key has a non-key neighbor: that key's own BFS pops it first and scans its
full list. -/
lemma minCyc_fold_error (g : Graph) (keys : List ℤ) :
    ∀ (ks : List ℤ) (best : Option ℤ),
      (∃ u ∈ ks, ∃ info ∈ lookupD g u, NeighborInfo.target info ∉ keys) →
      ks.foldlM
        (fun (best : Option ℤ) (start : ℤ) =>
          match minCycBfs g keys (keys.length + 2)
              { queue := [start]
                dist := Function.update (fun _ => none) start (some 0)
                parent := fun _ => none
                best := best } with
          | .error e => Except.error e
          | .ok st => Except.ok st.best) best = .error .keyError := by
  intro ks
  induction ks with
  | nil =>
    intro best hbad
    obtain ⟨u, hu, _⟩ := hbad
    exact absurd hu (List.not_mem_nil u)
  | cons v ks2 ih =>
    intro best hbad
    by_cases hv : ∃ info ∈ lookupD g v, NeighborInfo.target info ∉ keys
    · have hbfs : minCycBfs g keys (keys.length + 2)
          { queue := [v], dist := Function.update (fun _ => none) v (some 0),
            parent := fun _ => none, best := best } = .error .keyError := by
        rw [show keys.length + 2 = (keys.length + 1) + 1 from rfl]
        exact minCycBfs_bad_start g keys (keys.length + 1) _ v [] rfl hv
      have hstep : (match minCycBfs g keys (keys.length + 2)
            { queue := [v], dist := Function.update (fun _ => none) v (some 0),
              parent := fun _ => none, best := best } with
          | .error e => Except.error e
          | .ok st => Except.ok st.best)
          = (Except.error .keyError : Except PyErr (Option ℤ)) := by
        rw [hbfs]
      exact foldlM_cons_error _ v ks2 best .keyError hstep
    · cases hbfs : minCycBfs g keys (keys.length + 2)
          { queue := [v], dist := Function.update (fun _ => none) v (some 0),
            parent := fun _ => none, best := best } with
      | error e =>
        have he : e = .keyError := minCycBfs_error_keyError g keys _ _ e hbfs
        have hstep : (match minCycBfs g keys (keys.length + 2)
              { queue := [v], dist := Function.update (fun _ => none) v (some 0),
                parent := fun _ => none, best := best } with
            | .error e => Except.error e
            | .ok st => Except.ok st.best)
            = (Except.error .keyError : Except PyErr (Option ℤ)) := by
          rw [hbfs, he]
        exact foldlM_cons_error _ v ks2 best .keyError hstep
      | ok st2 =>
        have hstep : (match minCycBfs g keys (keys.length + 2)
              { queue := [v], dist := Function.update (fun _ => none) v (some 0),
                parent := fun _ => none, best := best } with
            | .error e => Except.error e
            | .ok st => Except.ok st.best)
            = (Except.ok st2.best : Except PyErr (Option ℤ)) := by
          rw [hbfs]
        rw [foldlM_cons_ok _ v ks2 best st2.best hstep]
        apply ih st2.best
        obtain ⟨u, hu, info, hinfo, hbadi⟩ := hbad
        rcases List.mem_cons.1 hu with rfl | hu2
        · exact absurd ⟨info, hinfo, hbadi⟩ hv
        · exact ⟨u, hu2, info, hinfo, hbadi⟩

/-- All-keyed graphs let the start loop of `find_minimum_cycle` finish. -/
lemma minCyc_fold_ok (g : Graph) (keys : List ℤ)
    (hall : ∀ v : ℤ, ∀ info ∈ lookupD g v, NeighborInfo.target info ∈ keys)
    (ks : List ℤ) (best : Option ℤ) :
    ∃ b2, ks.foldlM
      (fun (best : Option ℤ) (start : ℤ) =>
        match minCycBfs g keys (keys.length + 2)
            { queue := [start]
              dist := Function.update (fun _ => none) start (some 0)
              parent := fun _ => none
              best := best } with
        | .error e => Except.error e
        | .ok st => Except.ok st.best) best = .ok b2 := by
  apply foldlM_ok_of_all
  intro best v _
  obtain ⟨st2, hst2⟩ := minCycBfs_ok g keys hall (keys.length + 2)
    { queue := [v], dist := Function.update (fun _ => none) v (some 0),
      parent := fun _ => none, best := best }
  refine ⟨st2.best, ?_⟩
  show (match minCycBfs g keys (keys.length + 2)
      { queue := [v], dist := Function.update (fun _ => none) v (some 0),
        parent := fun _ => none, best := best } with
    | .error e => Except.error e
    | .ok st => Except.ok st.best) = Except.ok st2.best
  rw [hst2]

/-- `find_minimum_cycle` raises `KeyError` on every dictionary with a
non-key neighbor. -/
lemma find_minimum_cycle_error (g : Graph) (hnd : (g.map Prod.fst).Nodup)
    (hbad : ∃ p ∈ g, ∃ info ∈ p.2, NeighborInfo.target info ∉ gKeys g) :
    find_minimum_cycle g = .error .keyError := by
  obtain ⟨p, hp, info, hinfo, hbadi⟩ := hbad
  have hfe := minCyc_fold_error g (gKeys g) (gKeys g) none
    ⟨p.1, (mem_gKeys g p.1).2 ⟨p, hp, rfl⟩, info,
      by rw [lookupD_eq_of_mem g hnd p hp]; exact hinfo, hbadi⟩
  simp only [find_minimum_cycle]
  rw [show g.foldl (fun a p => insertNew a p.1) [] = gKeys g from rfl, hfe]

/-- `find_minimum_cycle` completes normally on every all-keyed
dictionary. -/
lemma find_minimum_cycle_ok (g : Graph)
    (hall : ∀ p ∈ g, ∀ info ∈ p.2, NeighborInfo.target info ∈ gKeys g) :
    ∃ m, find_minimum_cycle g = .ok m := by
  have hallv : ∀ v : ℤ, ∀ info ∈ lookupD g v,
      NeighborInfo.target info ∈ gKeys g := by
    intro v info hi
    obtain ⟨q, hq, hqv, hqi⟩ := lookupD_mem g v info hi
    exact hall q hq info hqi
  obtain ⟨b2, hb2⟩ := minCyc_fold_ok g (gKeys g) hallv (gKeys g) none
  simp only [find_minimum_cycle]
  rw [show g.foldl (fun a p => insertNew a p.1) [] = gKeys g from rfl, hb2]
  cases b2 with
  | none => exact ⟨-1, rfl⟩
  | some m => exact ⟨m, rfl⟩

/-- Claim C6 (amended): `count_bridges` and `find_minimum_cycle` complete
normally, returning a value, on every adjacency mapping whose neighbors all
appear as keys; but on every adjacency mapping in which some vertex appears
only inside a neighbor list they raise `KeyError` instead of completing —
both build their per-vertex dictionaries over the keys only and then index
them with neighbor identifiers. -/
theorem bridges_min_cycle_require_keyed_vertices (g : Graph)
    (hnd : (g.map Prod.fst).Nodup) :
    ((∀ p ∈ g, ∀ info ∈ p.2, NeighborInfo.target info ∈ gKeys g) →
      (∃ n, count_bridges g = .ok n) ∧ (∃ m, find_minimum_cycle g = .ok m)) ∧
    ((∃ p ∈ g, ∃ info ∈ p.2, NeighborInfo.target info ∉ gKeys g) →
      count_bridges g = .error .keyError ∧
      find_minimum_cycle g = .error .keyError) := by
  constructor
  · intro hall
    exact ⟨count_bridges_ok g hall, find_minimum_cycle_ok g hall⟩
  · intro hbad
    exact ⟨count_bridges_error g hnd hbad, find_minimum_cycle_error g hnd hbad⟩

/-- Witness for claim C6's amended theorem: the keyed path `1-2-3`
completes in both analyzers, while `{1:[2]}` raises `KeyError` in both. -/
theorem bridges_min_cycle_require_keyed_vertices_witness :
    (([(1, [.bare 2]), (2, [.bare 1, .bare 3]), (3, [.bare 2])] : Graph).map
      Prod.fst).Nodup ∧
    (∃ n, count_bridges
      [(1, [.bare 2]), (2, [.bare 1, .bare 3]), (3, [.bare 2])] = .ok n) ∧
    (∃ m, find_minimum_cycle
      [(1, [.bare 2]), (2, [.bare 1, .bare 3]), (3, [.bare 2])] = .ok m) ∧
    count_bridges [(1, [.bare 2])] = .error .keyError ∧
    find_minimum_cycle [(1, [.bare 2])] = .error .keyError :=
  ⟨by decide,
    ((bridges_min_cycle_require_keyed_vertices
      [(1, [.bare 2]), (2, [.bare 1, .bare 3]), (3, [.bare 2])]
      (by decide)).1 (by decide)).1,
    ((bridges_min_cycle_require_keyed_vertices
      [(1, [.bare 2]), (2, [.bare 1, .bare 3]), (3, [.bare 2])]
      (by decide)).1 (by decide)).2,
    ((bridges_min_cycle_require_keyed_vertices [(1, [.bare 2])]
      (by decide)).2 (by decide)).1,
    ((bridges_min_cycle_require_keyed_vertices [(1, [.bare 2])]
      (by decide)).2 (by decide)).2⟩

/-- Insertion keeps one more element. -/
lemma length_insertSortedInt (x : ℤ) (l : List ℤ) :
    (insertSortedInt x l).length = l.length + 1 := by
  induction l with
  | nil => rfl
  | cons y rest ih =>
    unfold insertSortedInt
    by_cases h : x ≤ y
    · rw [if_pos h]
      rfl
    · rw [if_neg h]
      simp [ih]

/-- Sorting preserves length. -/
lemma length_sortInts (l : List ℤ) : (sortInts l).length = l.length := by
  unfold sortInts
  induction l with
  | nil => rfl
  | cons y rest ih =>
    simp only [List.foldr_cons, length_insertSortedInt, ih]
    rfl

/-- Counterexample to claim C8 as stated: when the determinant comes back
far from an integer (here the oracle returns `2.4` for the triangle's
reduced Laplacian), `count_spanning_trees` still returns the rounded value
`2` — it does not treat the significant rounding as a disconnected-graph
signal and return `0`. -/
theorem spanning_tree_count_keeps_rounded_value :
    count_spanning_trees (fun _ _ => mkRat 24 10)
      [(1, [.bare 2, .bare 3]), (2, [.bare 1, .bare 3]), (3, [.bare 1, .bare 2])] = 2 := by
  decide

/-- Claim C8 (amended): `count_spanning_trees` returns `0` for the empty
vertex set and `1` for a single vertex, and otherwise always returns the
absolute value of the reduced-Laplacian determinant rounded to the nearest
integer — a determinant far from an integer only triggers a printed
warning, the rounded value is returned regardless (`0` arises only when the
determinant itself rounds to `0`). -/
theorem spanning_tree_count_rounding (detf : (ℕ → ℕ → ℚ) → ℕ → ℚ) (g : Graph) :
    count_spanning_trees detf [] = 0 ∧
    ((stcNodes g).length = 1 → count_spanning_trees detf g = 1) ∧
    (2 ≤ (stcNodes g).length →
      count_spanning_trees detf g =
        pyRound (ratAbs (detf
          (fun a b => buildLaplacian g (sortInts (stcNodes g)) (a + 1) (b + 1))
          ((sortInts (stcNodes g)).length - 1)))) := by
  refine ⟨rfl, ?_, ?_⟩
  · intro h1
    unfold count_spanning_trees
    have hne : stcNodes g ≠ [] := by
      intro h
      rw [h] at h1
      simp at h1
    rw [if_neg hne, if_pos (by rw [length_sortInts]; exact h1)]
  · intro h2
    unfold count_spanning_trees
    have hne : stcNodes g ≠ [] := by
      intro h
      rw [h] at h2
      simp at h2
    rw [if_neg hne, if_neg (by rw [length_sortInts]; omega)]

/-- Witness for claim C8's amended theorem: the triangle with the true
determinant `3` yields three spanning trees, and the single-vertex and
empty graphs give `1` and `0`. -/
theorem spanning_tree_count_rounding_witness :
    count_spanning_trees (fun _ _ => (3 : ℚ)) [] = 0 ∧
    count_spanning_trees (fun _ _ => (3 : ℚ)) [(7, [])] = 1 ∧
    count_spanning_trees (fun _ _ => (3 : ℚ))
        [(1, [.bare 2, .bare 3]), (2, [.bare 1, .bare 3]), (3, [.bare 1, .bare 2])] =
      pyRound (ratAbs ((fun _ _ => (3 : ℚ))
        (fun a b => buildLaplacian
          [(1, [.bare 2, .bare 3]), (2, [.bare 1, .bare 3]), (3, [.bare 1, .bare 2])]
          (sortInts (stcNodes [(1, [.bare 2, .bare 3]), (2, [.bare 1, .bare 3]),
            (3, [.bare 1, .bare 2])])) (a + 1) (b + 1))
        ((sortInts (stcNodes [(1, [.bare 2, .bare 3]), (2, [.bare 1, .bare 3]),
          (3, [.bare 1, .bare 2])])).length - 1))) :=
  ⟨(spanning_tree_count_rounding (fun _ _ => (3 : ℚ)) []).1,
    (spanning_tree_count_rounding (fun _ _ => (3 : ℚ)) [(7, [])]).2.1 (by decide),
    (spanning_tree_count_rounding (fun _ _ => (3 : ℚ))
      [(1, [.bare 2, .bare 3]), (2, [.bare 1, .bare 3]), (3, [.bare 1, .bare 2])]).2.2
      (by decide)⟩

/-- Claim C4: `find_mst_using_kruskal` (and hence `find_mst_weight`) reports
the `inf` sentinel (`none`) with an empty edge list exactly when, on a graph
with at least two vertices, fewer than `n - 1` union-find merges succeed over
the deduplicated weight-sorted edge set; empty and single-vertex graphs get
weight `0` with no edges; and the concrete disconnected graph
`{1:[2], 2:[1], 3:[]}` gets the sentinel. -/
theorem mst_disconnected_inf_sentinel (g : Graph) :
    ((g = [] ∨ (extract_edges_and_vertices g).1.length ≤ 1) →
      find_mst_using_kruskal g = ([], some 0)) ∧
    (2 ≤ (extract_edges_and_vertices g).1.length →
      (find_mst_using_kruskal g = ([], none) ↔
        mstMergeCount g < (extract_edges_and_vertices g).1.length - 1)) ∧
    find_mst_weight [(1, [.bare 2]), (2, [.bare 1]), (3, [])] = none := by
  refine ⟨?_, ?_, ?_⟩
  · rintro (rfl | h)
    · rfl
    · unfold find_mst_using_kruskal
      split
      · rfl
      · simp only [if_pos h]
  · intro h2
    have hg : g ≠ [] := by
      intro h
      subst h
      simp [extract_edges_and_vertices] at h2
    unfold find_mst_using_kruskal
    rw [if_neg hg]
    simp only [if_neg (by omega : ¬ (extract_edges_and_vertices g).1.length ≤ 1)]
    by_cases he : (extract_edges_and_vertices g).2 = []
    · rw [if_pos he]
      have hcnt : mstMergeCount g = 0 := by
        simp only [mstMergeCount, kruskalLoop, he]
        rfl
      exact ⟨fun _ => by omega, fun _ => rfl⟩
    · rw [if_neg he]
      unfold mstMergeCount
      split
      · next hlt => exact ⟨fun _ => hlt, fun _ => rfl⟩
      · next hge =>
        constructor
        · intro hEq
          exact absurd (congrArg Prod.snd hEq) (by simp)
        · intro hlt
          omega
  · rfl

/-- The second-MST candidate scan only ever records candidates strictly
heavier than the MST weight. -/
lemma optMin_gt (mw x : ℤ) (acc : Option ℤ)
    (hacc : ∀ a, acc = some a → mw < a) (hx : mw < x) :
    ∀ a, optMin acc x = some a → mw < a := by
  intro a ha
  cases acc with
  | none =>
    simp only [optMin] at ha
    cases ha
    exact hx
  | some b =>
    simp only [optMin] at ha
    cases ha
    exact lt_min (hacc b rfl) hx

/-- One step of the second-MST scan preserves strict heaviness of the
accumulator. -/
lemma secondMstStep_gt (adj : ℤ → List (ℤ × ℤ)) (mstSet : List (ℤ × ℤ))
    (mw : ℤ) (fuel : ℕ) (acc : Option ℤ) (e : WEdge)
    (hacc : ∀ a, acc = some a → mw < a) :
    ∀ a, secondMstStep adj mstSet mw fuel acc e = some a → mw < a := by
  intro a ha
  unfold secondMstStep at ha
  split at ha
  · exact hacc a ha
  · split at ha
    · exact hacc a ha
    · next m _ =>
      split at ha
      · next hgt =>
        exact optMin_gt mw _ acc hacc (by omega) a ha
      · split at ha
        · next heq =>
          split at ha
          · next hcand => exact optMin_gt mw _ acc hacc hcand a ha
          · exact hacc a ha
        · exact hacc a ha

/-- The fold of the second-MST scan yields only strictly heavier weights. -/
lemma secondMst_fold_gt (adj : ℤ → List (ℤ × ℤ)) (mstSet : List (ℤ × ℤ))
    (mw : ℤ) (fuel : ℕ) :
    ∀ (es : List WEdge) (acc : Option ℤ),
      (∀ a, acc = some a → mw < a) →
      ∀ s, es.foldl (secondMstStep adj mstSet mw fuel) acc = some s → mw < s := by
  intro es
  induction es with
  | nil => intro acc hacc s hs; exact hacc s hs
  | cons e rest ih =>
    intro acc hacc s hs
    exact ih _ (secondMstStep_gt adj mstSet mw fuel acc e hacc) s hs

/-- Claim C3: on a connected graph with at least two vertices, whenever the
optimized second-MST scan finds a candidate, the public
`find_second_mst_weight` returns it and it is strictly heavier than the MST
weight; when no strictly-heavier candidate exists the `-1` sentinel is
returned. -/
theorem second_mst_strictly_heavier (g : Graph) (w : ℤ)
    (hn : 2 ≤ (extract_edges_and_vertices g).1.length)
    (hw : find_mst_weight g = some w) :
    (find_second_mst_weight_optimized g = none → find_second_mst_weight g = -1) ∧
    ∀ s, find_second_mst_weight_optimized g = some s →
      find_second_mst_weight g = s ∧ w < s := by
  have hg : g ≠ [] := by
    intro h
    subst h
    simp [extract_edges_and_vertices] at hn
  have hkm : (find_mst_using_kruskal g).2 = some w := by
    unfold find_mst_weight at hw
    rw [if_neg hg] at hw
    exact hw
  constructor
  · intro hnone
    unfold find_second_mst_weight
    rw [hnone]
  · intro s hs
    have hstep : find_second_mst_weight g
        = if s = 0 ∧ (g = [] ∨ g.length ≤ 1) then 0 else if s = 0 then 0 else s := by
      unfold find_second_mst_weight
      rw [hs]
    have hval : find_second_mst_weight g = s := by
      rw [hstep]
      by_cases h0 : s = 0
      · subst h0
        split <;> simp
      · rw [if_neg (show ¬(s = 0 ∧ (g = [] ∨ g.length ≤ 1)) from fun h => h0 h.1),
          if_neg h0]
    refine ⟨hval, ?_⟩
    simp only [find_second_mst_weight_optimized] at hs
    rw [if_neg (by omega : ¬ (extract_edges_and_vertices g).1.length ≤ 1), hkm] at hs
    exact secondMst_fold_gt _ _ w _ _ none (fun a h => by cases h) s hs

/-- Witness for claim C4: the concrete disconnected graph `{1:[2],2:[1],3:[]}`
has three vertices, only one successful merge, and gets the `inf` sentinel. -/
theorem mst_disconnected_inf_sentinel_witness :
    find_mst_using_kruskal [(1, [.bare 2]), (2, [.bare 1]), (3, [])] = ([], none) :=
  ((mst_disconnected_inf_sentinel [(1, [.bare 2]), (2, [.bare 1]), (3, [])]).2.1
    (by decide)).mpr (by decide)

/-- Witness for claim C3: on the weighted triangle `1-2 (1), 2-3 (2), 1-3 (3)`
the MST weighs `3` and the second MST `4 > 3`. -/
theorem second_mst_strictly_heavier_witness :
    find_second_mst_weight
        [(1, [.pair 2 1, .pair 3 3]), (2, [.pair 1 1, .pair 3 2]),
          (3, [.pair 1 3, .pair 2 2])] = 4 ∧ (3 : ℤ) < 4 :=
  (second_mst_strictly_heavier
      [(1, [.pair 2 1, .pair 3 3]), (2, [.pair 1 1, .pair 3 2]),
        (3, [.pair 1 3, .pair 2 2])] 3 (by decide) (by decide)).2 4 (by decide)

/-- An `Except` value that is no error is an `ok`. -/
lemma except_ok_of_ne_error {σ : Type} (e : Except PyErr σ)
    (h : ∀ err, e ≠ .error err) : ∃ st2, e = .ok st2 := by
  cases e with
  | error err => exact absurd rfl (h err)
  | ok st => exact ⟨st, rfl⟩

/-- A `foldlM` over `Except` errors as soon as any element is bad (each step
is total on good elements and raises on bad ones). -/
lemma foldlM_error_of_any {σ α : Type} (step : σ → α → Except PyErr σ)
    (bad : α → Bool)
    (hbad : ∀ st a, bad a = true → step st a = .error .valueError)
    (hgood : ∀ st a, bad a = false → ∃ st2, step st a = .ok st2) :
    ∀ (l : List α) (st : σ),
      (l.any bad = true → l.foldlM step st = .error .valueError) ∧
      (l.any bad = false → ∃ st2, l.foldlM step st = .ok st2) := by
  intro l
  induction l with
  | nil =>
    intro st
    refine ⟨fun h => by simp at h, fun _ => ⟨st, rfl⟩⟩
  | cons a rest ih =>
    intro st
    constructor
    · intro h
      cases hba : bad a with
      | true =>
        rw [List.foldlM_cons, hbad st a hba]
        rfl
      | false =>
        obtain ⟨st2, hst2⟩ := hgood st a hba
        rw [List.foldlM_cons, hst2]
        have hrest : rest.any bad = true := by
          simp only [List.any_cons, hba, Bool.false_or] at h
          exact h
        simpa using (ih st2).1 hrest
    · intro h
      simp only [List.any_cons, Bool.or_eq_false_iff] at h
      obtain ⟨st2, hst2⟩ := hgood st a h.1
      rw [List.foldlM_cons, hst2]
      simpa using (ih st2).2 h.2

/-- The `spStep` build step errors exactly on negatively weighted tuples. -/
lemma spStep_cases (u : ℤ) :
    (∀ st i, NeighborInfo.negWeighted i = true → spStep u st i = .error .valueError) ∧
    (∀ st i, NeighborInfo.negWeighted i = false → ∃ st2, spStep u st i = .ok st2) := by
  constructor
  · intro st i hi
    cases i with
    | bare v => simp [NeighborInfo.negWeighted] at hi
    | pair v w =>
      simp only [NeighborInfo.negWeighted, decide_eq_true_eq] at hi
      simp [spStep, hi]
    | triple v w c =>
      simp only [NeighborInfo.negWeighted, decide_eq_true_eq] at hi
      simp [spStep, hi]
  · intro st i hi
    cases i with
    | bare v => exact ⟨_, rfl⟩
    | pair v w =>
      simp only [NeighborInfo.negWeighted, decide_eq_false_iff_not] at hi
      refine except_ok_of_ne_error _ ?_
      intro err hcontra
      simp only [spStep, if_neg hi] at hcontra
      exact Except.noConfusion hcontra
    | triple v w c =>
      simp only [NeighborInfo.negWeighted, decide_eq_false_iff_not] at hi
      refine except_ok_of_ne_error _ ?_
      intro err hcontra
      simp only [spStep, if_neg hi] at hcontra
      exact Except.noConfusion hcontra

/-- A graph with a negative weight makes `spBuild` raise `ValueError`. -/
lemma spBuild_error (g : Graph) (h : hasNegWeight g = true) :
    spBuild g = .error .valueError := by
  unfold spBuild
  unfold hasNegWeight at h
  have inner := fun (u : ℤ) =>
    foldlM_error_of_any (spStep u) NeighborInfo.negWeighted
      (spStep_cases u).1 (spStep_cases u).2
  have outer := foldlM_error_of_any
    (fun (st : (ℤ → List (ℤ × ℤ)) × List ℤ) (p : ℤ × List NeighborInfo) =>
      p.2.foldlM (spStep p.1) st)
    (fun p => p.2.any NeighborInfo.negWeighted)
    (fun st p hp => (inner p.1 p.2 st).1 hp)
    (fun st p hp => (inner p.1 p.2 st).2 hp)
  exact (outer g _).1 h

/-- The `mcfStep` build step errors exactly on negative capacities. -/
lemma mcfStep_cases (u : ℤ) :
    (∀ st i, NeighborInfo.negCapacity i = true → mcfStep u st i = .error .valueError) ∧
    (∀ st i, NeighborInfo.negCapacity i = false → ∃ st2, mcfStep u st i = .ok st2) := by
  constructor
  · intro st i hi
    cases i with
    | bare v => simp [NeighborInfo.negCapacity] at hi
    | pair v w =>
      simp only [NeighborInfo.negCapacity, decide_eq_true_eq] at hi
      simp [mcfStep, NeighborInfo.weight2, hi]
    | triple v w c =>
      simp only [NeighborInfo.negCapacity, decide_eq_true_eq] at hi
      simp [mcfStep, NeighborInfo.weight2, hi]
  · intro st i hi
    cases i with
    | bare v => exact ⟨_, rfl⟩
    | pair v w =>
      simp only [NeighborInfo.negCapacity, decide_eq_false_iff_not] at hi
      refine except_ok_of_ne_error _ ?_
      intro err hcontra
      simp only [mcfStep, NeighborInfo.weight2, if_neg hi] at hcontra
      exact Except.noConfusion hcontra
    | triple v w c =>
      simp only [NeighborInfo.negCapacity, decide_eq_false_iff_not] at hi
      refine except_ok_of_ne_error _ ?_
      intro err hcontra
      simp only [mcfStep, NeighborInfo.weight2, if_neg hi] at hcontra
      exact Except.noConfusion hcontra

/-- A graph with a negative capacity makes `mcfBuild` raise `ValueError`. -/
lemma mcfBuild_error (g : Graph) (h : hasNegCapacity g = true) :
    mcfBuild g = .error .valueError := by
  unfold mcfBuild
  unfold hasNegCapacity at h
  have inner := fun (u : ℤ) =>
    foldlM_error_of_any (mcfStep u) NeighborInfo.negCapacity
      (mcfStep_cases u).1 (mcfStep_cases u).2
  have outer := foldlM_error_of_any
    (fun (st : RAdj ℤ × List ℤ) (p : ℤ × List NeighborInfo) =>
      p.2.foldlM (mcfStep p.1) st)
    (fun p => p.2.any NeighborInfo.negCapacity)
    (fun st p hp => (inner p.1 p.2 st).1 hp)
    (fun st p hp => (inner p.1 p.2 st).2 hp)
  exact (outer g _).1 h

/-- Counterexample to claim C2 as stated: `find_maximum_flow` performs no
capacity validation — fed a negative capacity it completes normally with
flow `0` instead of failing with an explicit error (the negative-capacity
arc simply never carries flow). -/
theorem flow_negative_capacity_silently_accepted :
    find_maximum_flow [(1, [.pair 2 (-5)])] 1 2 = 0 := by
  rfl

/-- Claim C2 (amended): `find_shortest_path_length` raises `ValueError` on
every graph containing a negative edge weight, and `find_min_cost_max_flow`
raises `ValueError` on every graph containing a negative capacity — but
`find_maximum_flow`/`find_minimum_cut` perform no such validation and return
normally (the concrete negative-capacity network yields flow `0`). -/
theorem negative_input_validation (g g2 : Graph) (s e s2 t2 : ℤ)
    (hga : hasNegWeight g = true) (hgc : hasNegCapacity g2 = true) :
    find_shortest_path_length g s e = .error .valueError ∧
    find_min_cost_max_flow g2 s2 t2 = .error .valueError ∧
    find_minimum_cut [(1, [.pair 2 (-5)])] 1 2 = 0 := by
  refine ⟨?_, ?_, rfl⟩
  · unfold find_shortest_path_length
    rw [spBuild_error g hga]
  · unfold find_min_cost_max_flow
    rw [mcfBuild_error g2 hgc]

/-- Witness for claim C2's amended theorem at concrete negative inputs. -/
theorem negative_input_validation_witness :
    find_shortest_path_length [(1, [.pair 2 (-3)])] 1 2 = .error .valueError ∧
    find_min_cost_max_flow [(1, [.triple 2 (-1) 0])] 1 2 = .error .valueError ∧
    find_minimum_cut [(1, [.pair 2 (-5)])] 1 2 = 0 :=
  negative_input_validation [(1, [.pair 2 (-3)])] [(1, [.triple 2 (-1) 0])]
    1 2 1 2 (by decide) (by decide)

/-- Counterexample to claim C5 as stated: `find_min_cost_max_flow` with an
absent source reports the pair `(0, 0)`, not the `-1` sentinel. -/
theorem mcf_absent_endpoint_zero_pair :
    find_min_cost_max_flow [(1, [.triple 2 1 0])] 5 2 = .ok (0, 0) := by
  rfl

/-- Claim C5 (amended): with a validation-clean build, an absent endpoint
makes `find_shortest_path_length` return the `-1` sentinel, while
`find_min_cost_max_flow` returns the pair `(0, 0)` (not `-1`). -/
theorem absent_endpoint_sentinels (g g2 : Graph) (s e s2 t2 : ℤ)
    (ns ns2 : List ℤ)
    (hb : (spBuild g).toOption.map Prod.snd = some ns)
    (hse : s ∉ ns ∨ e ∉ ns)
    (hb2 : (mcfBuild g2).toOption.map Prod.snd = some ns2)
    (hst : s2 ∉ ns2 ∨ t2 ∉ ns2) :
    find_shortest_path_length g s e = .ok (-1) ∧
    find_min_cost_max_flow g2 s2 t2 = .ok (0, 0) := by
  constructor
  · unfold find_shortest_path_length
    cases hsp : spBuild g with
    | error err => rw [hsp] at hb; simp [Except.toOption] at hb
    | ok st =>
      rw [hsp] at hb
      simp only [Except.toOption, Option.map_some] at hb
      cases hb
      simp only [hsp]
      rw [if_pos hse]
  · unfold find_min_cost_max_flow
    cases hsp : mcfBuild g2 with
    | error err => rw [hsp] at hb2; simp [Except.toOption] at hb2
    | ok st =>
      rw [hsp] at hb2
      simp only [Except.toOption, Option.map_some] at hb2
      cases hb2
      simp only [hsp]
      rw [if_pos hst]

/-- Witness for claim C5's amended theorem at concrete absent endpoints. -/
theorem absent_endpoint_sentinels_witness :
    find_shortest_path_length [(1, [.bare 2])] 1 5 = .ok (-1) ∧
    find_min_cost_max_flow [(1, [.triple 2 1 0])] 5 2 = .ok (0, 0) :=
  absent_endpoint_sentinels [(1, [.bare 2])] [(1, [.triple 2 1 0])] 1 5 5 2
    [1, 2] [1, 2] (by decide) (by decide) (by decide) (by decide)

/-- Claim C9: `find_minimum_cut` delegates to `find_maximum_flow`, so the two
agree on every query (max-flow/min-cut duality at the public contract). -/
theorem min_cut_eq_max_flow (g : Graph) (s t : ℤ) :
    find_minimum_cut g s t = find_maximum_flow g s t := rfl

/-- Claim C1 (code bug): the Python degree computations do not respect
multiplicities.  `has_eulerian_circuit` on the lone-self-loop graph `{1:[1]}`
returns `False` (the self-loop counts 1 toward the degree, not 2, so the
vertex looks odd), although a graph whose only edge is a self-loop has an
Eulerian circuit; and `has_eulerian_path` on the multigraph path
`1-2, 2=3 (doubled), 3-4` returns `True` although its four odd-degree
vertices (degrees 1,3,3,1) rule an Eulerian path out — the parallel edge is
dropped by the canonical-pair deduplication. -/
theorem eulerian_degree_miscount :
    has_eulerian_circuit [(1, [.bare 1])] = false ∧
    has_eulerian_path
        [(1, [.bare 2]), (2, [.bare 1, .bare 3, .bare 3]),
          (3, [.bare 2, .bare 2, .bare 4]), (4, [.bare 3])] = true := by
  constructor
  · rfl
  · rfl

/-! Residual-network pairing layer for claim C7. -/

/-- Characterization of `shapeAt` hits. -/
lemma shapeAt_some_iff {χ : Type} (adj : RAdj χ) (u : ℤ) (i : ℕ) (t : ℤ) (r : ℕ) :
    shapeAt adj u i = some (t, r) ↔
      ∃ e, (adj u).get? i = some e ∧ e.tgt = t ∧ e.rev = r := by
  unfold shapeAt
  cases h : (adj u).get? i with
  | none => simp
  | some e => simp [Prod.ext_iff]

/-- A `ZeroPaired` network is mutually paired. -/
lemma zeroPaired_mutual {χ : Type} (adj : RAdj χ) (h : ZeroPaired adj) :
    MutualPaired adj := by
  intro u i t r hsh
  obtain ⟨e, he, het, her⟩ := (shapeAt_some_iff adj u i t r).mp hsh
  obtain ⟨e2, he2, h2t, h2r, _⟩ := h u i e he
  subst het her
  exact (shapeAt_some_iff adj e.tgt e.rev u i).mpr ⟨e2, he2, h2t, h2r⟩

/-- `setCapAt` unfolded at a hit. -/
lemma setCapAt_of_get? {χ : Type} (adj : RAdj χ) (u : ℤ) (i : ℕ) (c : ℤ)
    (e : REdge χ) (he : (adj u).get? i = some e) :
    setCapAt adj u i c = Function.update adj u ((adj u).set i { e with cap := c }) := by
  unfold setCapAt
  rw [he]

/-- `setCapAt` unfolded at a miss. -/
lemma setCapAt_of_none {χ : Type} (adj : RAdj χ) (u : ℤ) (i : ℕ) (c : ℤ)
    (he : (adj u).get? i = none) : setCapAt adj u i c = adj := by
  unfold setCapAt
  rw [he]

/-- `setCapAt` keeps every shape. -/
lemma shapeAt_setCapAt {χ : Type} (adj : RAdj χ) (u : ℤ) (i : ℕ) (c : ℤ)
    (w : ℤ) (j : ℕ) : shapeAt (setCapAt adj u i c) w j = shapeAt adj w j := by
  cases hui : (adj u).get? i with
  | none => rw [setCapAt_of_none adj u i c hui]
  | some e =>
    rw [setCapAt_of_get? adj u i c e hui]
    unfold shapeAt
    by_cases hw : w = u
    · subst hw
      rw [Function.update_same]
      by_cases hj : j = i
      · subst hj
        obtain ⟨hlt, _⟩ := List.get?_eq_some.mp hui
        rw [List.get?_set_eq_of_lt _ hlt, hui]
        rfl
      · rw [List.get?_set_ne _ _ (fun h => hj h.symm)]
    · rw [Function.update_noteq hw]

/-- `setCapAt` leaves other positions' full entries unchanged. -/
lemma get?_setCapAt_other {χ : Type} (adj : RAdj χ) (u : ℤ) (i : ℕ) (c : ℤ)
    (w : ℤ) (j : ℕ) (h : w ≠ u ∨ j ≠ i) :
    ((setCapAt adj u i c) w).get? j = (adj w).get? j := by
  cases hui : (adj u).get? i with
  | none => rw [setCapAt_of_none adj u i c hui]
  | some e =>
    rw [setCapAt_of_get? adj u i c e hui]
    by_cases hw : w = u
    · subst hw
      have hj : j ≠ i := by
        rcases h with h | h
        · exact absurd rfl h
        · exact h
      rw [Function.update_same, List.get?_set_ne _ _ (fun hh => hj hh.symm)]
    · rw [Function.update_noteq hw]

/-- `setCapAt` rewrites the capacity of the designated entry. -/
lemma get?_setCapAt_self {χ : Type} (adj : RAdj χ) (u : ℤ) (i : ℕ) (c : ℤ)
    (e : REdge χ) (he : (adj u).get? i = some e) :
    ((setCapAt adj u i c) u).get? i = some { e with cap := c } := by
  rw [setCapAt_of_get? adj u i c e he, Function.update_same]
  obtain ⟨hlt, _⟩ := List.get?_eq_some.mp he
  rw [List.get?_set_eq_of_lt _ hlt]

/-- `pairCapSum` when the shape misses. -/
lemma pairCapSum_none_shape {χ : Type} (adj : RAdj χ) (u : ℤ) (i : ℕ)
    (h : shapeAt adj u i = none) : pairCapSum adj u i = none := by
  unfold pairCapSum
  rw [h]
  rfl

/-- `pairCapSum` when the shape hits. -/
lemma pairCapSum_some_shape {χ : Type} (adj : RAdj χ) (u : ℤ) (i : ℕ)
    (p : ℤ × ℕ) (h : shapeAt adj u i = some p) :
    pairCapSum adj u i =
      (capAt adj u i).bind fun c => (capAt adj p.1 p.2).map fun c2 => c + c2 := by
  unfold pairCapSum
  rw [h]
  rfl

/-- Networks agreeing in all shapes and capacities share all pair sums. -/
lemma pairCapSum_congr {χ : Type} (a b : RAdj χ)
    (hsh : ∀ u i, shapeAt a u i = shapeAt b u i)
    (hc : ∀ u i, capAt a u i = capAt b u i) (u : ℤ) (i : ℕ) :
    pairCapSum a u i = pairCapSum b u i := by
  cases hs : shapeAt b u i with
  | none =>
    rw [pairCapSum_none_shape a u i (by rw [hsh]; exact hs),
      pairCapSum_none_shape b u i hs]
  | some p =>
    rw [pairCapSum_some_shape a u i p (by rw [hsh]; exact hs),
      pairCapSum_some_shape b u i p hs, hc, hc]

/-- `capAt` from a full-entry equation. -/
lemma capAt_of_get? {χ : Type} (adj : RAdj χ) (u : ℤ) (i : ℕ) (e : REdge χ)
    (he : (adj u).get? i = some e) : capAt adj u i = some e.cap := by
  unfold capAt
  rw [he]
  rfl

/-- `applyAug` unfolded once the forward arc is known. -/
lemma applyAug_red {χ : Type} (adj : RAdj χ) (u : ℤ) (i : ℕ) (v : ℤ) (f : ℤ)
    (e : REdge χ) (he : (adj u).get? i = some e) :
    applyAug adj u i v f =
      match ((setCapAt adj u i (e.cap - f)) v).get? e.rev with
      | none => setCapAt adj u i (e.cap - f)
      | some e2 => setCapAt (setCapAt adj u i (e.cap - f)) v e.rev (e2.cap + f) := by
  unfold applyAug
  rw [he]

/-- The core paired-update lemma: under mutual pairing, one augmentation
assignment pair (`applyAug` at an arc whose target is the walk node)
preserves every shape and every pair capacity sum. -/
lemma applyAug_invariant {χ : Type} (adj : RAdj χ) (u : ℤ) (i : ℕ) (v : ℤ)
    (f : ℤ) (r : ℕ) (hMP : MutualPaired adj)
    (hsh : shapeAt adj u i = some (v, r)) :
    (∀ w j, shapeAt (applyAug adj u i v f) w j = shapeAt adj w j) ∧
    (∀ w j, pairCapSum (applyAug adj u i v f) w j = pairCapSum adj w j) := by
  obtain ⟨e, he, het, her⟩ := (shapeAt_some_iff adj u i v r).mp hsh
  subst het
  subst her
  have hpart : shapeAt adj e.tgt e.rev = some (u, i) := hMP u i e.tgt e.rev hsh
  obtain ⟨e2, he2, h2t, h2r⟩ := (shapeAt_some_iff adj e.tgt e.rev u i).mp hpart
  by_cases hself : e.tgt = u ∧ e.rev = i
  · -- the degenerate self-paired arc: the two assignments cancel out
    have hself1 := hself.1
    have hself2 := hself.2
    have heself : (adj e.tgt).get? e.rev = some e := by
      rw [hself1, hself2]
      exact he
    have hred2 : applyAug adj u i e.tgt f
        = setCapAt (setCapAt adj u i (e.cap - f)) e.tgt e.rev (e.cap - f + f) := by
      rw [applyAug_red adj u i e.tgt f e he, hself1, hself2,
        get?_setCapAt_self adj u i (e.cap - f) e he]
    rw [hred2, hself1, hself2]
    have hsh2 : ∀ w j,
        shapeAt (setCapAt (setCapAt adj u i (e.cap - f)) u i (e.cap - f + f)) w j
          = shapeAt adj w j := by
      intro w j
      rw [shapeAt_setCapAt, shapeAt_setCapAt]
    have hcap : ∀ w j,
        capAt (setCapAt (setCapAt adj u i (e.cap - f)) u i (e.cap - f + f)) w j
          = capAt adj w j := by
      intro w j
      by_cases hw : w = u ∧ j = i
      · rw [hw.1, hw.2]
        have h1 := get?_setCapAt_self adj u i (e.cap - f) e he
        have h2 := get?_setCapAt_self (setCapAt adj u i (e.cap - f)) u i (e.cap - f + f) _ h1
        rw [capAt_of_get? _ _ _ _ h2, capAt_of_get? _ _ _ _ he]
        show some (e.cap - f + f) = some e.cap
        congr 1
        ring
      · have hor : w ≠ u ∨ j ≠ i := by tauto
        unfold capAt
        rw [get?_setCapAt_other _ _ _ _ _ _ hor, get?_setCapAt_other _ _ _ _ _ _ hor]
    exact ⟨hsh2, fun w j => pairCapSum_congr _ _ hsh2 hcap w j⟩
  · -- a proper pair: decrement the forward side, increment the reverse side
    have hne : e.tgt ≠ u ∨ e.rev ≠ i := by tauto
    have h1 : ((setCapAt adj u i (e.cap - f)) e.tgt).get? e.rev = some e2 := by
      rw [get?_setCapAt_other _ _ _ _ _ _ hne]
      exact he2
    have hred2 : applyAug adj u i e.tgt f
        = setCapAt (setCapAt adj u i (e.cap - f)) e.tgt e.rev (e2.cap + f) := by
      rw [applyAug_red adj u i e.tgt f e he, h1]
    rw [hred2]
    set adj2 := setCapAt (setCapAt adj u i (e.cap - f)) e.tgt e.rev (e2.cap + f) with hadj2
    have hsh2 : ∀ w j, shapeAt adj2 w j = shapeAt adj w j := by
      intro w j
      rw [hadj2, shapeAt_setCapAt, shapeAt_setCapAt]
    refine ⟨hsh2, ?_⟩
    have hnes : u ≠ e.tgt ∨ i ≠ e.rev := by tauto
    have hcapui : capAt adj2 u i = some (e.cap - f) := by
      have hg1 := get?_setCapAt_self adj u i (e.cap - f) e he
      have hg2 : (adj2 u).get? i = some { e with cap := e.cap - f } := by
        rw [hadj2, get?_setCapAt_other _ _ _ _ _ _ hnes]
        exact hg1
      rw [capAt_of_get? _ _ _ _ hg2]
    have hcapvr : capAt adj2 e.tgt e.rev = some (e2.cap + f) := by
      have hg2 := get?_setCapAt_self (setCapAt adj u i (e.cap - f)) e.tgt e.rev (e2.cap + f) e2 h1
      rw [← hadj2] at hg2
      rw [capAt_of_get? _ _ _ _ hg2]
    have hcapother : ∀ w j, ¬(w = u ∧ j = i) → ¬(w = e.tgt ∧ j = e.rev) →
        capAt adj2 w j = capAt adj w j := by
      intro w j hx1 hx2
      unfold capAt
      rw [hadj2, get?_setCapAt_other _ _ _ _ _ _ (by tauto : w ≠ e.tgt ∨ j ≠ e.rev)]
      rw [get?_setCapAt_other _ _ _ _ _ _ (by tauto : w ≠ u ∨ j ≠ i)]
    intro w j
    cases hswj : shapeAt adj w j with
    | none =>
      rw [pairCapSum_none_shape adj2 w j (by rw [hsh2]; exact hswj),
        pairCapSum_none_shape adj w j hswj]
    | some p =>
      rw [pairCapSum_some_shape adj2 w j p (by rw [hsh2]; exact hswj),
        pairCapSum_some_shape adj w j p hswj]
      by_cases hwui : w = u ∧ j = i
      · have hshwj : shapeAt adj w j = some (e.tgt, e.rev) := by
          rw [hwui.1, hwui.2]
          exact hsh
        have hp : p = (e.tgt, e.rev) :=
          (Option.some.injEq _ _).mp (hswj.symm.trans hshwj)
        rw [hwui.1, hwui.2, hp]
        dsimp only
        rw [hcapui, hcapvr, capAt_of_get? _ _ _ _ he, capAt_of_get? _ _ _ _ he2]
        show some (e.cap - f + (e2.cap + f)) = some (e.cap + e2.cap)
        congr 1
        ring
      · by_cases hwvr : w = e.tgt ∧ j = e.rev
        · have hshwj : shapeAt adj w j = some (u, i) := by
            rw [hwvr.1, hwvr.2]
            exact hpart
          have hp : p = (u, i) :=
            (Option.some.injEq _ _).mp (hswj.symm.trans hshwj)
          rw [hwvr.1, hwvr.2, hp]
          dsimp only
          rw [hcapvr, hcapui, capAt_of_get? _ _ _ _ he2, capAt_of_get? _ _ _ _ he]
          show some (e2.cap + f + (e.cap - f)) = some (e2.cap + e.cap)
          congr 1
          ring
        · have hpui : ¬(p.1 = u ∧ p.2 = i) := by
            intro hp
            have hx := hMP w j p.1 p.2 (by rw [hswj])
            rw [hp.1, hp.2, hsh] at hx
            have hy := (Option.some.injEq _ _).mp hx
            exact hwvr ⟨(congrArg Prod.fst hy).symm, (congrArg Prod.snd hy).symm⟩
          have hpvr : ¬(p.1 = e.tgt ∧ p.2 = e.rev) := by
            intro hp
            have hx := hMP w j p.1 p.2 (by rw [hswj])
            rw [hp.1, hp.2, hpart] at hx
            have hy := (Option.some.injEq _ _).mp hx
            exact hwui ⟨(congrArg Prod.fst hy).symm, (congrArg Prod.snd hy).symm⟩
          rw [hcapother w j hwui hwvr, hcapother p.1 p.2 hpui hpvr]

/-- Networks with equal shapes validate the same parent maps. -/
lemma parentOK_of_shapeEq {χ : Type} (parent : ℤ → Option (ℤ × ℕ))
    (a b : RAdj χ) (hs : ∀ u i, shapeAt a u i = shapeAt b u i)
    (h : ParentOK parent b) : ParentOK parent a := by
  intro v u i hp
  obtain ⟨r, hr⟩ := h v u i hp
  exact ⟨r, by rw [hs]; exact hr⟩

/-- Mutual pairing is a property of shapes alone. -/
lemma mutualPaired_of_shapeEq {χ : Type} (a b : RAdj χ)
    (hs : ∀ u i, shapeAt a u i = shapeAt b u i) (h : MutualPaired b) :
    MutualPaired a := by
  intro u i t r hsh
  rw [hs] at hsh
  have hx := h u i t r hsh
  rw [hs]
  exact hx

/-- One-step unfolding of `augmentWalk`. -/
lemma augmentWalk_succ {χ : Type} (parent : ℤ → Option (ℤ × ℕ)) (f source : ℤ)
    (fuel : ℕ) (v : ℤ) (adj : RAdj χ) :
    augmentWalk parent f source (fuel + 1) v adj =
      if v = source then adj
      else
        match parent v with
        | none => adj
        | some ui => augmentWalk parent f source fuel ui.1 (applyAug adj ui.1 ui.2 v f) := rfl

/-- The full flow-module augmentation walk preserves shapes and pair sums. -/
lemma augmentWalk_invariant {χ : Type} (parent : ℤ → Option (ℤ × ℕ))
    (f source : ℤ) :
    ∀ (fuel : ℕ) (v : ℤ) (adj : RAdj χ), MutualPaired adj → ParentOK parent adj →
      (∀ w j, shapeAt (augmentWalk parent f source fuel v adj) w j = shapeAt adj w j) ∧
      (∀ w j, pairCapSum (augmentWalk parent f source fuel v adj) w j = pairCapSum adj w j) := by
  intro fuel
  induction fuel with
  | zero => exact fun v adj _ _ => ⟨fun _ _ => rfl, fun _ _ => rfl⟩
  | succ fuel ih =>
    intro v adj hMP hPO
    rw [augmentWalk_succ]
    by_cases hv : v = source
    · rw [if_pos hv]
      exact ⟨fun _ _ => rfl, fun _ _ => rfl⟩
    · rw [if_neg hv]
      cases hp : parent v with
      | none => exact ⟨fun _ _ => rfl, fun _ _ => rfl⟩
      | some ui =>
        obtain ⟨r, hr⟩ := hPO v ui.1 ui.2 hp
        have happ := applyAug_invariant adj ui.1 ui.2 v f r hMP hr
        have hMP2 := mutualPaired_of_shapeEq _ _ happ.1 hMP
        have hPO2 := parentOK_of_shapeEq parent _ _ happ.1 hPO
        have hrec := ih ui.1 (applyAug adj ui.1 ui.2 v f) hMP2 hPO2
        exact ⟨fun w j => (hrec.1 w j).trans (happ.1 w j),
          fun w j => (hrec.2 w j).trans (happ.2 w j)⟩

/-- One-step unfolding of `mcfAugWalk`. -/
lemma mcfAugWalk_succ (parent : ℤ → Option (ℤ × ℕ)) (f source : ℤ)
    (fuel : ℕ) (v : ℤ) (adj : RAdj ℤ) :
    mcfAugWalk parent f source (fuel + 1) v adj =
      if v = source then adj
      else
        match parent v with
        | none => adj
        | some ui =>
          match (adj ui.1).get? ui.2 with
          | none => adj
          | some e =>
            match (adj v).get? e.rev with
            | none => adj
            | some _ => mcfAugWalk parent f source fuel ui.1 (applyAug adj ui.1 ui.2 v f) := rfl

/-- The min-cost-flow augmentation walk preserves shapes and pair sums. -/
lemma mcfAugWalk_invariant (parent : ℤ → Option (ℤ × ℕ)) (f source : ℤ) :
    ∀ (fuel : ℕ) (v : ℤ) (adj : RAdj ℤ), MutualPaired adj → ParentOK parent adj →
      (∀ w j, shapeAt (mcfAugWalk parent f source fuel v adj) w j = shapeAt adj w j) ∧
      (∀ w j, pairCapSum (mcfAugWalk parent f source fuel v adj) w j = pairCapSum adj w j) := by
  intro fuel
  induction fuel with
  | zero => exact fun v adj _ _ => ⟨fun _ _ => rfl, fun _ _ => rfl⟩
  | succ fuel ih =>
    intro v adj hMP hPO
    rw [mcfAugWalk_succ]
    by_cases hv : v = source
    · rw [if_pos hv]
      exact ⟨fun _ _ => rfl, fun _ _ => rfl⟩
    · rw [if_neg hv]
      cases hp : parent v with
      | none => exact ⟨fun _ _ => rfl, fun _ _ => rfl⟩
      | some ui =>
        have hval : (match (some ui : Option (ℤ × ℕ)) with
            | none => adj
            | some ui =>
              match (adj ui.1).get? ui.2 with
              | none => adj
              | some e =>
                match (adj v).get? e.rev with
                | none => adj
                | some _ => mcfAugWalk parent f source fuel ui.1 (applyAug adj ui.1 ui.2 v f))
            = match (adj ui.1).get? ui.2 with
              | none => adj
              | some e =>
                match (adj v).get? e.rev with
                | none => adj
                | some _ => mcfAugWalk parent f source fuel ui.1 (applyAug adj ui.1 ui.2 v f) := rfl
        rw [hval]
        cases hgf : (adj ui.1).get? ui.2 with
        | none => exact ⟨fun _ _ => rfl, fun _ _ => rfl⟩
        | some e =>
          have hval2 : (match (some e : Option (REdge ℤ)) with
              | none => adj
              | some e =>
                match (adj v).get? e.rev with
                | none => adj
                | some _ => mcfAugWalk parent f source fuel ui.1 (applyAug adj ui.1 ui.2 v f))
              = match (adj v).get? e.rev with
                | none => adj
                | some _ => mcfAugWalk parent f source fuel ui.1 (applyAug adj ui.1 ui.2 v f) := rfl
          rw [hval2]
          cases hgr : (adj v).get? e.rev with
          | none => exact ⟨fun _ _ => rfl, fun _ _ => rfl⟩
          | some e3 =>
            obtain ⟨r, hr⟩ := hPO v ui.1 ui.2 hp
            have happ := applyAug_invariant adj ui.1 ui.2 v f r hMP hr
            have hMP2 := mutualPaired_of_shapeEq _ _ happ.1 hMP
            have hPO2 := parentOK_of_shapeEq parent _ _ happ.1 hPO
            have hrec := ih ui.1 (applyAug adj ui.1 ui.2 v f) hMP2 hPO2
            exact ⟨fun w j => (hrec.1 w j).trans (happ.1 w j),
              fun w j => (hrec.2 w j).trans (happ.2 w j)⟩

/-- Enumerated entries really live at their index. -/
lemma mem_enum_get? {α : Type} (l : List α) (x : ℕ × α) (h : x ∈ l.enum) :
    l.get? x.1 = some x.2 :=
  List.mem_enum_iff_get?.mp h

/-- The all-`None` initial parent map is vacuously valid. -/
lemma parentOK_init {χ : Type} (adj : RAdj χ) :
    ParentOK (fun _ => (none : Option (ℤ × ℕ))) adj := by
  intro v u i hp
  exact absurd hp (by simp)

/-- One-step unfolding of `bfsScan`. -/
lemma bfsScan_cons (u sink : ℤ) (i : ℕ) (e : FEdge) (rest : List (ℕ × FEdge))
    (parent : ℤ → Option (ℤ × ℕ)) (queue : List ℤ) :
    bfsScan u sink ((i, e) :: rest) parent queue =
      if parent e.tgt = none ∧ 0 < e.cap then
        if e.tgt = sink then (Function.update parent e.tgt (some (u, i)), [], true)
        else bfsScan u sink rest (Function.update parent e.tgt (some (u, i)))
          (queue ++ [e.tgt])
      else bfsScan u sink rest parent queue := rfl

/-- `bfsScan` only adds parent pointers along existing arcs of `u`. -/
lemma bfsScan_parentOK (adj : RAdj Unit) (u sink : ℤ) :
    ∀ (l : List (ℕ × FEdge)) (parent : ℤ → Option (ℤ × ℕ)) (queue : List ℤ),
      (∀ x ∈ l, (adj u).get? x.1 = some x.2) → ParentOK parent adj →
      ParentOK (bfsScan u sink l parent queue).1 adj := by
  intro l
  induction l with
  | nil => exact fun parent queue _ h => h
  | cons x rest ih =>
    intro parent queue hl hPO
    obtain ⟨i, e⟩ := x
    have hx := hl (i, e) (List.mem_cons_self _ _)
    have hrest : ∀ y ∈ rest, (adj u).get? y.1 = some y.2 :=
      fun y hy => hl y (List.mem_cons_of_mem _ hy)
    have hupd : ParentOK (Function.update parent e.tgt (some (u, i))) adj := by
      intro v u2 i2 hp
      by_cases hv : v = e.tgt
      · subst hv
        rw [Function.update_same] at hp
        injection hp with hui
        injection hui with h1 h2
        subst h1
        subst h2
        exact ⟨e.rev, (shapeAt_some_iff adj u i e.tgt e.rev).mpr ⟨e, hx, rfl, rfl⟩⟩
      · rw [Function.update_noteq hv] at hp
        exact hPO v u2 i2 hp
    rw [bfsScan_cons]
    by_cases hc : parent e.tgt = none ∧ 0 < e.cap
    · rw [if_pos hc]
      by_cases hs : e.tgt = sink
      · rw [if_pos hs]
        exact hupd
      · rw [if_neg hs]
        exact ih _ _ hrest hupd
    · rw [if_neg hc]
      exact ih _ _ hrest hPO

/-- One-step unfolding of `flowBfs` at a nonempty queue. -/
lemma flowBfs_cons (adj : RAdj Unit) (sink : ℤ) (fuel : ℕ) (u : ℤ)
    (rest : List ℤ) (parent : ℤ → Option (ℤ × ℕ)) :
    flowBfs adj sink (fuel + 1) (u :: rest) parent =
      if u = sink then (parent, true)
      else if (bfsScan u sink (adj u).enum parent rest).2.2 then
        ((bfsScan u sink (adj u).enum parent rest).1, true)
      else flowBfs adj sink fuel (bfsScan u sink (adj u).enum parent rest).2.1
        (bfsScan u sink (adj u).enum parent rest).1 := rfl

/-- The parent map produced by `find_maximum_flow`'s BFS is valid. -/
lemma flowBfs_parentOK (adj : RAdj Unit) (sink : ℤ) :
    ∀ (fuel : ℕ) (queue : List ℤ) (parent : ℤ → Option (ℤ × ℕ)),
      ParentOK parent adj → ParentOK (flowBfs adj sink fuel queue parent).1 adj := by
  intro fuel
  induction fuel with
  | zero => exact fun queue parent h => h
  | succ fuel ih =>
    intro queue parent hPO
    cases queue with
    | nil => exact hPO
    | cons u rest =>
      rw [flowBfs_cons]
      by_cases hu : u = sink
      · rw [if_pos hu]
        exact hPO
      · rw [if_neg hu]
        have hscan := bfsScan_parentOK adj u sink (adj u).enum parent rest
          (fun x hx => mem_enum_get? _ x hx) hPO
        by_cases hf : (bfsScan u sink (adj u).enum parent rest).2.2 = true
        · rw [if_pos hf]
          exact hscan
        · rw [if_neg hf]
          exact ih _ _ hscan

/-- One Edmonds–Karp iteration preserves shapes and pair capacity sums. -/
lemma emStep_invariant (source sink : ℤ) (nodes : List ℤ)
    (adj adj2 : RAdj Unit) (f : ℤ) (hMP : MutualPaired adj)
    (h : emStep source sink nodes adj = some (adj2, f)) :
    (∀ w j, shapeAt adj2 w j = shapeAt adj w j) ∧
    (∀ w j, pairCapSum adj2 w j = pairCapSum adj w j) := by
  simp only [emStep] at h
  split at h
  · exact absurd h (by simp)
  · split at h
    · exact absurd h (by simp)
    · next f2 hbw =>
      have hinj := (Option.some.injEq _ _).mp h
      have hadj2 : adj2 = augmentWalk
          (flowBfs adj sink (nodes.length + 2) [source] fun _ => none).1 f2 source
          (nodes.length + 2) sink adj := (congrArg Prod.fst hinj).symm
      have hPO := flowBfs_parentOK adj sink (nodes.length + 2) [source]
        (fun _ => none) (parentOK_init adj)
      have hw := augmentWalk_invariant
        (flowBfs adj sink (nodes.length + 2) [source] fun _ => none).1 f2 source
        (nodes.length + 2) sink adj hMP hPO
      rw [hadj2]
      exact hw

/-- `get?` before the appended element. -/
lemma get?_snoc_lt {α : Type} (l : List α) (a : α) (j : ℕ) (h : j < l.length) :
    (l ++ [a]).get? j = l.get? j := by
  induction l generalizing j with
  | nil => simp at h
  | cons b rest ih =>
    cases j with
    | zero => rfl
    | succ j => exact ih j (by simpa using h)

/-- `get?` at the appended element. -/
lemma get?_snoc_self {α : Type} (l : List α) (a : α) :
    (l ++ [a]).get? l.length = some a := by
  induction l with
  | nil => rfl
  | cons b rest ih => exact ih

/-- Dichotomy for `get?` hits on a snoc. -/
lemma get?_snoc_cases {α : Type} (l : List α) (a : α) (j : ℕ) (e : α)
    (h : (l ++ [a]).get? j = some e) :
    (j < l.length ∧ l.get? j = some e) ∨ (j = l.length ∧ e = a) := by
  by_cases hj : j < l.length
  · exact Or.inl ⟨hj, by rw [← get?_snoc_lt l a j hj]; exact h⟩
  · obtain ⟨hlt, _⟩ := List.get?_eq_some.mp h
    have hj2 : j = l.length := by
      simp only [List.length_append, List.length_singleton] at hlt
      omega
    subst hj2
    rw [get?_snoc_self] at h
    exact Or.inr ⟨rfl, ((Option.some.injEq _ _).mp h).symm⟩

/-- Appending one forward/backward arc pair (as both residual constructions
do, for a non-self-loop descriptor) preserves the construction invariant. -/
lemma zeroPaired_addPair {χ : Type} (adj : RAdj χ) (u v : ℤ) (cap : ℤ)
    (x1 x2 : χ) (hne : v ≠ u) (hz : ZeroPaired adj) :
    ZeroPaired (rAdd (rAdd adj u ⟨v, cap, x1, (adj v).length⟩) v
      ⟨u, 0, x2, (adj u).length⟩) := by
  set fwd : REdge χ := ⟨v, cap, x1, (adj v).length⟩ with hfwd
  set bwd : REdge χ := ⟨u, 0, x2, (adj u).length⟩ with hbwd
  set B := rAdd (rAdd adj u fwd) v bwd with hB
  have hBu : B u = adj u ++ [fwd] := by
    rw [hB]
    unfold rAdd
    rw [Function.update_noteq (fun h => hne h.symm), Function.update_same]
  have hBv : B v = adj v ++ [bwd] := by
    rw [hB]
    unfold rAdd
    rw [Function.update_same, Function.update_noteq hne]
  have hBo : ∀ w, w ≠ u → w ≠ v → B w = adj w := by
    intro w h1 h2
    rw [hB]
    unfold rAdd
    rw [Function.update_noteq h2, Function.update_noteq h1]
  have hpres : ∀ t (r : ℕ) e2, (adj t).get? r = some e2 → (B t).get? r = some e2 := by
    intro t r e2 h2
    obtain ⟨hlt2, _⟩ := List.get?_eq_some.mp h2
    by_cases h1 : t = u
    · subst h1
      rw [hBu, get?_snoc_lt _ _ _ hlt2]
      exact h2
    · by_cases h2v : t = v
      · subst h2v
        rw [hBv, get?_snoc_lt _ _ _ hlt2]
        exact h2
      · rw [hBo t h1 h2v]
        exact h2
  intro w j e hget
  by_cases hwu : w = u
  · subst hwu
    rw [hBu] at hget
    rcases get?_snoc_cases _ _ _ _ hget with ⟨hlt, hold⟩ | ⟨hj, henew⟩
    · obtain ⟨e2, he2, h2t, h2r, hcap0⟩ := hz w j e hold
      exact ⟨e2, hpres _ _ _ he2, h2t, h2r, hcap0⟩
    · subst henew
      refine ⟨bwd, ?_, rfl, ?_, Or.inr rfl⟩
      · show (B v).get? (adj v).length = some bwd
        rw [hBv]
        exact get?_snoc_self _ _
      · show (adj w).length = j
        exact hj.symm
  · by_cases hwv : w = v
    · subst hwv
      rw [hBv] at hget
      rcases get?_snoc_cases _ _ _ _ hget with ⟨hlt, hold⟩ | ⟨hj, henew⟩
      · obtain ⟨e2, he2, h2t, h2r, hcap0⟩ := hz w j e hold
        exact ⟨e2, hpres _ _ _ he2, h2t, h2r, hcap0⟩
      · subst henew
        refine ⟨fwd, ?_, rfl, ?_, Or.inl rfl⟩
        · show (B u).get? (adj u).length = some fwd
          rw [hBu]
          exact get?_snoc_self _ _
        · show (adj w).length = j
          exact hj.symm
    · rw [hBo w hwu hwv] at hget
      obtain ⟨e2, he2, h2t, h2r, hcap0⟩ := hz w j e hget
      exact ⟨e2, hpres _ _ _ he2, h2t, h2r, hcap0⟩

/-- One `flow.py` build step preserves the construction invariant. -/
lemma flowBuildStep_zeroPaired (u : ℤ) (st : RAdj Unit × List ℤ)
    (info : NeighborInfo) (hne : info.target ≠ u) (hz : ZeroPaired st.1) :
    ZeroPaired (flowBuildStep u st info).1 :=
  zeroPaired_addPair st.1 u info.target info.weight2 () () hne hz

/-- The `flow.py` residual construction satisfies the invariant. -/
lemma flowBuild_zeroPaired (g : Graph) (h : NoSelfLoops g) :
    ZeroPaired (flowBuild g).1 := by
  have main : ∀ (l : Graph) (st : RAdj Unit × List ℤ),
      (∀ p ∈ l, ∀ info ∈ p.2, NeighborInfo.target info ≠ p.1) → ZeroPaired st.1 →
      ZeroPaired ((l.foldl (fun st p => p.2.foldl (flowBuildStep p.1) st) st).1) := by
    intro l
    induction l with
    | nil => exact fun st _ hz => hz
    | cons p rest ih =>
      intro st hns hz
      have hinner : ∀ (ds : List NeighborInfo) (st : RAdj Unit × List ℤ),
          (∀ info ∈ ds, NeighborInfo.target info ≠ p.1) → ZeroPaired st.1 →
          ZeroPaired ((ds.foldl (flowBuildStep p.1) st).1) := by
        intro ds
        induction ds with
        | nil => exact fun st _ hz => hz
        | cons d rest2 ih2 =>
          intro st2 hns2 hz2
          exact ih2 _ (fun x hx => hns2 x (List.mem_cons_of_mem _ hx))
            (flowBuildStep_zeroPaired p.1 st2 d (hns2 d (List.mem_cons_self _ _)) hz2)
      exact ih _ (fun q hq info hi => hns q (List.mem_cons_of_mem _ hq) info hi)
        (hinner p.2 st (fun info hi => hns p (List.mem_cons_self _ _) info hi) hz)
  exact main g _ h (fun w j e hget => absurd hget (by simp))

/-- The whole Edmonds–Karp run preserves shapes and pair sums relative to the
constructed network. -/
lemma flowStateAfter_invariant (g : Graph) (source sink : ℤ)
    (h : NoSelfLoops g) (k : ℕ) :
    (∀ w j, shapeAt (flowStateAfter g source sink k) w j
        = shapeAt (flowBuild g).1 w j) ∧
    (∀ w j, pairCapSum (flowStateAfter g source sink k) w j
        = pairCapSum (flowBuild g).1 w j) := by
  have hMP0 := zeroPaired_mutual _ (flowBuild_zeroPaired g h)
  induction k with
  | zero => exact ⟨fun _ _ => rfl, fun _ _ => rfl⟩
  | succ k ih =>
    have hMPk : MutualPaired (flowStateAfter g source sink k) :=
      mutualPaired_of_shapeEq _ _ ih.1 hMP0
    cases he : emStep source sink (flowBuild g).2 (flowStateAfter g source sink k) with
    | none =>
      have hval : flowStateAfter g source sink (k + 1)
          = flowStateAfter g source sink k := by
        show (match emStep source sink (flowBuild g).2 (flowStateAfter g source sink k) with
          | none => flowStateAfter g source sink k
          | some st => st.1) = flowStateAfter g source sink k
        rw [he]
      rw [hval]
      exact ih
    | some st =>
      have hval : flowStateAfter g source sink (k + 1) = st.1 := by
        show (match emStep source sink (flowBuild g).2 (flowStateAfter g source sink k) with
          | none => flowStateAfter g source sink k
          | some st => st.1) = st.1
        rw [he]
      obtain ⟨s1, s2⟩ := emStep_invariant source sink (flowBuild g).2
        (flowStateAfter g source sink k) st.1 st.2 hMPk (by rw [he])
      rw [hval]
      exact ⟨fun w j => (s1 w j).trans (ih.1 w j),
        fun w j => (s2 w j).trans (ih.2 w j)⟩

/-- The relaxation state keeps the parent update regardless of enqueueing. -/
lemma spfaRelax_parent (st : SpfaState) (u : ℤ) (i : ℕ) (e : REdge ℤ) (du : ℤ) :
    (spfaRelax st u i e du).parent = Function.update st.parent e.tgt (some (u, i)) := by
  unfold spfaRelax
  by_cases hq : st.inQ e.tgt
  · rw [if_pos hq]
  · rw [if_neg hq]

/-- One-step unfolding of `spfaScan`. -/
lemma spfaScan_cons (nodes : List ℤ) (u : ℤ) (i : ℕ) (e : REdge ℤ)
    (rest : List (ℕ × REdge ℤ)) (st : SpfaState) :
    spfaScan nodes u ((i, e) :: rest) st =
      match st.dist u with
      | none => spfaScan nodes u rest st
      | some du =>
        if decide (e.tgt ∈ nodes) && decide (0 < e.cap) &&
            (match st.dist e.tgt with
             | none => true
             | some dv => decide (du + e.extra < dv)) then
          spfaScan nodes u rest (spfaRelax st u i e du)
        else spfaScan nodes u rest st := rfl

/-- Any parent entry after an SPFA scan either predates the scan or points
to one of the scanned arcs of `u`. -/
lemma spfaScan_parent_sub (nodes : List ℤ) (u : ℤ) :
    ∀ (l : List (ℕ × REdge ℤ)) (st : SpfaState) (v : ℤ) (p : ℤ × ℕ),
      (spfaScan nodes u l st).parent v = some p →
      st.parent v = some p ∨ ∃ x ∈ l, v = (x.2 : REdge ℤ).tgt ∧ p = (u, x.1) := by
  intro l
  induction l with
  | nil => exact fun st v p h => Or.inl h
  | cons x rest ih =>
    intro st v p h
    obtain ⟨i, e⟩ := x
    rw [spfaScan_cons] at h
    cases hdu : st.dist u with
    | none =>
      rw [hdu] at h
      rcases ih st v p h with h2 | ⟨y, hy, hv, hp⟩
      · exact Or.inl h2
      · exact Or.inr ⟨y, List.mem_cons_of_mem _ hy, hv, hp⟩
    | some du =>
      rw [hdu] at h
      by_cases hcond : (decide (e.tgt ∈ nodes) && decide (0 < e.cap) &&
          (match st.dist e.tgt with
           | none => true
           | some dv => decide (du + e.extra < dv))) = true
      · have h2 : (spfaScan nodes u rest (spfaRelax st u i e du)).parent v = some p := by
          have hred : (match (some du : Option ℤ) with
              | none => spfaScan nodes u rest st
              | some du =>
                if decide (e.tgt ∈ nodes) && decide (0 < e.cap) &&
                    (match st.dist e.tgt with
                     | none => true
                     | some dv => decide (du + e.extra < dv)) then
                  spfaScan nodes u rest (spfaRelax st u i e du)
                else spfaScan nodes u rest st)
              = spfaScan nodes u rest (spfaRelax st u i e du) := by
            show (if decide (e.tgt ∈ nodes) && decide (0 < e.cap) &&
                (match st.dist e.tgt with
                 | none => true
                 | some dv => decide (du + e.extra < dv)) then
                spfaScan nodes u rest (spfaRelax st u i e du)
              else spfaScan nodes u rest st) = _
            rw [if_pos hcond]
          rw [hred] at h
          exact h
        rcases ih _ v p h2 with h3 | ⟨y, hy, hv, hp⟩
        · rw [spfaRelax_parent] at h3
          by_cases hv : v = e.tgt
          · subst hv
            rw [Function.update_same] at h3
            exact Or.inr ⟨(i, e), List.mem_cons_self _ _, rfl,
              ((Option.some.injEq _ _).mp h3).symm⟩
          · rw [Function.update_noteq hv] at h3
            exact Or.inl h3
        · exact Or.inr ⟨y, List.mem_cons_of_mem _ hy, hv, hp⟩
      · have h2 : (spfaScan nodes u rest st).parent v = some p := by
          have hred : (match (some du : Option ℤ) with
              | none => spfaScan nodes u rest st
              | some du =>
                if decide (e.tgt ∈ nodes) && decide (0 < e.cap) &&
                    (match st.dist e.tgt with
                     | none => true
                     | some dv => decide (du + e.extra < dv)) then
                  spfaScan nodes u rest (spfaRelax st u i e du)
                else spfaScan nodes u rest st)
              = spfaScan nodes u rest st := by
            show (if decide (e.tgt ∈ nodes) && decide (0 < e.cap) &&
                (match st.dist e.tgt with
                 | none => true
                 | some dv => decide (du + e.extra < dv)) then
                spfaScan nodes u rest (spfaRelax st u i e du)
              else spfaScan nodes u rest st) = _
            rw [if_neg (by simpa using hcond)]
          rw [hred] at h
          exact h
        rcases ih st v p h2 with h3 | ⟨y, hy, hv, hp⟩
        · exact Or.inl h3
        · exact Or.inr ⟨y, List.mem_cons_of_mem _ hy, hv, hp⟩

/-- `spfaScan` over the enumerated arcs of `u` produces a valid parent map. -/
lemma spfaScan_parentOK (adj : RAdj ℤ) (nodes : List ℤ) (u : ℤ)
    (st : SpfaState) (hPO : ParentOK st.parent adj) :
    ParentOK (spfaScan nodes u (adj u).enum st).parent adj := by
  intro v u2 i2 hp
  rcases spfaScan_parent_sub nodes u (adj u).enum st v (u2, i2) hp with h | ⟨x, hx, hv, hp2⟩
  · exact hPO v u2 i2 h
  · have hget := mem_enum_get? (adj u) x hx
    injection hp2 with h1 h2
    subst hv
    refine ⟨x.2.rev, ?_⟩
    rw [h1, h2]
    exact (shapeAt_some_iff adj u x.1 x.2.tgt x.2.rev).mpr ⟨x.2, hget, rfl, rfl⟩

/-- One-step unfolding of `spfaLoop`. -/
lemma spfaLoop_succ (adj : RAdj ℤ) (nodes : List ℤ) (fuel : ℕ) (st : SpfaState) :
    spfaLoop adj nodes (fuel + 1) st =
      match st.queue with
      | [] => st
      | u :: rest =>
        spfaLoop adj nodes fuel
          (spfaScan nodes u (adj u).enum
            { st with queue := rest, inQ := Function.update st.inQ u false }) := rfl

/-- The SPFA loop produces a valid parent map. -/
lemma spfaLoop_parentOK (adj : RAdj ℤ) (nodes : List ℤ) :
    ∀ (fuel : ℕ) (st : SpfaState), ParentOK st.parent adj →
      ParentOK (spfaLoop adj nodes fuel st).parent adj := by
  intro fuel
  induction fuel with
  | zero => exact fun st h => h
  | succ fuel ih =>
    intro st hPO
    rw [spfaLoop_succ]
    cases hq : st.queue with
    | nil => exact hPO
    | cons u rest =>
      exact ih _ (spfaScan_parentOK adj nodes u
        { st with queue := rest, inQ := Function.update st.inQ u false } hPO)

/-- A successful `spfaSearch` returns a valid parent map. -/
lemma spfaSearch_parentOK (adj : RAdj ℤ) (nodes : List ℤ) (source sink : ℤ)
    (fuel : ℕ) (r : ℤ × ℤ × (ℤ → Option (ℤ × ℕ)))
    (h : spfaSearch adj nodes source sink fuel = some r) :
    ParentOK r.2.2 adj := by
  simp only [spfaSearch] at h
  have hloop := spfaLoop_parentOK adj nodes fuel
    { dist := Function.update (fun _ => none) source (some 0)
      parent := fun _ => none
      inQ := Function.update (fun _ => false) source true
      queue := [source] } (parentOK_init adj)
  split at h
  · exact absurd h (by simp)
  · split at h
    · exact absurd h (by simp)
    · split at h
      · exact absurd h (by simp)
      · split at h
        · exact absurd h (by simp)
        · split at h
          · split at h
            · have hinj := (Option.some.injEq _ _).mp h
              rw [← hinj]
              exact hloop
            · exact absurd h (by simp)
          · split at h
            · split at h
              · have hinj := (Option.some.injEq _ _).mp h
                rw [← hinj]
                exact hloop
              · exact absurd h (by simp)
            · have hinj := (Option.some.injEq _ _).mp h
              rw [← hinj]
              exact hloop

/-- One successful `min_cost_flow.py` build step preserves the construction
invariant. -/
lemma mcfStep_ok_zeroPaired (u : ℤ) (st st2 : RAdj ℤ × List ℤ)
    (info : NeighborInfo) (hne : info.target ≠ u) (hz : ZeroPaired st.1)
    (h : mcfStep u st info = .ok st2) : ZeroPaired st2.1 := by
  simp only [mcfStep] at h
  split at h
  · exact absurd h (by simp)
  · injection h with h2
    rw [← h2]
    exact zeroPaired_addPair st.1 u info.target info.weight2 info.cost3
      (-info.cost3) hne hz

/-- A successful `min_cost_flow.py` residual construction satisfies the
invariant. -/
lemma mcfBuild_zeroPaired (g : Graph) (h : NoSelfLoops g)
    (st : RAdj ℤ × List ℤ) (hok : mcfBuild g = .ok st) : ZeroPaired st.1 := by
  have inner : ∀ (ds : List NeighborInfo) (u : ℤ) (st0 : RAdj ℤ × List ℤ),
      (∀ info ∈ ds, NeighborInfo.target info ≠ u) → ZeroPaired st0.1 →
      ∀ st1, ds.foldlM (mcfStep u) st0 = .ok st1 → ZeroPaired st1.1 := by
    intro ds
    induction ds with
    | nil =>
      intro u st0 _ hz st1 h1
      injection h1 with h2
      rw [← h2]
      exact hz
    | cons d rest ih =>
      intro u st0 hns hz st1 h1
      rw [List.foldlM_cons] at h1
      cases hstep : mcfStep u st0 d with
      | error e =>
        rw [hstep] at h1
        exact Except.noConfusion h1
      | ok stm =>
        rw [hstep] at h1
        have hzm := mcfStep_ok_zeroPaired u st0 stm d
          (hns d (List.mem_cons_self _ _)) hz hstep
        exact ih u stm (fun x hx => hns x (List.mem_cons_of_mem _ hx)) hzm st1 h1
  have main : ∀ (l : Graph) (st0 : RAdj ℤ × List ℤ),
      (∀ p ∈ l, ∀ info ∈ p.2, NeighborInfo.target info ≠ p.1) → ZeroPaired st0.1 →
      ∀ st1, (l.foldlM (fun st p => p.2.foldlM (mcfStep p.1) st) st0) = .ok st1 →
        ZeroPaired st1.1 := by
    intro l
    induction l with
    | nil =>
      intro st0 _ hz st1 h1
      injection h1 with h2
      rw [← h2]
      exact hz
    | cons p rest ih =>
      intro st0 hns hz st1 h1
      rw [List.foldlM_cons] at h1
      cases hstep : p.2.foldlM (mcfStep p.1) st0 with
      | error e =>
        rw [hstep] at h1
        exact Except.noConfusion h1
      | ok stm =>
        rw [hstep] at h1
        have hzm := inner p.2 p.1 st0
          (fun info hi => hns p (List.mem_cons_self _ _) info hi) hz stm hstep
        exact ih stm (fun q hq info hi => hns q (List.mem_cons_of_mem _ hq) info hi)
          hzm st1 h1
  exact main g _ h (fun w j e hget => absurd hget (by simp)) st hok

/-- One successive-shortest-path iteration preserves shapes and pair sums. -/
lemma mcfIterStep_invariant (nodes : List ℤ) (source sink : ℤ) (sfuel : ℕ)
    (adj : RAdj ℤ) (st : RAdj ℤ × ℤ × ℤ) (hMP : MutualPaired adj)
    (h : mcfIterStep nodes source sink sfuel adj = some st) :
    (∀ w j, shapeAt st.1 w j = shapeAt adj w j) ∧
    (∀ w j, pairCapSum st.1 w j = pairCapSum adj w j) := by
  unfold mcfIterStep at h
  cases hs : spfaSearch adj nodes source sink sfuel with
  | none =>
    rw [hs] at h
    exact absurd h (by simp)
  | some r =>
    rw [hs] at h
    have h2 : (if r.1 ≤ 0 then none
        else some (mcfAugWalk r.2.2 r.1 source (nodes.length + 2) sink adj,
          r.1, r.2.1)) = some st := h
    by_cases hr : r.1 ≤ 0
    · rw [if_pos hr] at h2
      exact absurd h2 (by simp)
    · rw [if_neg hr] at h2
      have hinj := (Option.some.injEq _ _).mp h2
      have hPO := spfaSearch_parentOK adj nodes source sink sfuel r hs
      have hw := mcfAugWalk_invariant r.2.2 r.1 source (nodes.length + 2) sink
        adj hMP hPO
      rw [← congrArg Prod.fst hinj]
      exact hw

/-- The whole min-cost-flow run preserves shapes and pair sums relative to
the constructed network. -/
lemma mcfStateAfter_invariant (g : Graph) (source sink : ℤ)
    (h : NoSelfLoops g) (k : ℕ) :
    (∀ w j, shapeAt (mcfStateAfter g source sink k) w j
        = shapeAt (mcfStateAfter g source sink 0) w j) ∧
    (∀ w j, pairCapSum (mcfStateAfter g source sink k) w j
        = pairCapSum (mcfStateAfter g source sink 0) w j) := by
  cases hb : mcfBuild g with
  | error e =>
    have hconst : ∀ m, mcfStateAfter g source sink m = fun _ => [] := by
      intro m
      cases m with
      | zero =>
        show (match mcfBuild g with
          | .error _ => fun _ => ([] : List (REdge ℤ))
          | .ok st => st.1) = fun _ => []
        rw [hb]
      | succ m =>
        show (match mcfBuild g with
          | .error _ => fun _ => ([] : List (REdge ℤ))
          | .ok st =>
            match mcfIterStep st.2 source sink (spFuel g) (mcfStateAfter g source sink m) with
            | none => mcfStateAfter g source sink m
            | some r => r.1) = fun _ => []
        rw [hb]
    rw [hconst k, hconst 0]
    exact ⟨fun _ _ => rfl, fun _ _ => rfl⟩
  | ok st =>
    have h0 : mcfStateAfter g source sink 0 = st.1 := by
      show (match mcfBuild g with
        | .error _ => fun _ => ([] : List (REdge ℤ))
        | .ok st => st.1) = st.1
      rw [hb]
    have hsucc : ∀ m, mcfStateAfter g source sink (m + 1)
        = match mcfIterStep st.2 source sink (spFuel g) (mcfStateAfter g source sink m) with
          | none => mcfStateAfter g source sink m
          | some r => r.1 := by
      intro m
      show (match mcfBuild g with
        | .error _ => fun _ => ([] : List (REdge ℤ))
        | .ok st =>
          match mcfIterStep st.2 source sink (spFuel g) (mcfStateAfter g source sink m) with
          | none => mcfStateAfter g source sink m
          | some r => r.1) = _
      rw [hb]
    have hMP0 : MutualPaired (mcfStateAfter g source sink 0) := by
      rw [h0]
      exact zeroPaired_mutual _ (mcfBuild_zeroPaired g h st hb)
    induction k with
    | zero => exact ⟨fun _ _ => rfl, fun _ _ => rfl⟩
    | succ k ih =>
      have hMPk : MutualPaired (mcfStateAfter g source sink k) :=
        mutualPaired_of_shapeEq _ _ ih.1 hMP0
      rw [hsucc k]
      cases he : mcfIterStep st.2 source sink (spFuel g) (mcfStateAfter g source sink k) with
      | none => exact ih
      | some r =>
        obtain ⟨s1, s2⟩ := mcfIterStep_invariant st.2 source sink (spFuel g)
          (mcfStateAfter g source sink k) r hMPk he
        exact ⟨fun w j => (s1 w j).trans (ih.1 w j),
          fun w j => (s2 w j).trans (ih.2 w j)⟩

/-- Counterexample to claim C7 as stated: on a self-loop descriptor the
builders of both flow modules compute the forward arc's reverse index
before appending it, so the arc `(1, 1)` of capacity `5` is stored with
reverse index `0` — it designates itself as its reverse arc, an arc of
initial capacity `5`, not the claimed implicit reverse arc of capacity
`0`. -/
theorem residual_self_loop_pairs_itself :
    shapeAt (flowBuild [(1, [.pair 1 5])]).1 1 0 = some (1, 0) ∧
    capAt (flowBuild [(1, [.pair 1 5])]).1 1 0 = some 5 ∧
    (mcfBuild [(1, [.triple 1 5 2])]).toOption.map
        (fun st => (shapeAt st.1 1 0, capAt st.1 1 0))
      = some (some (1, 0), some 5) := by
  refine ⟨rfl, rfl, rfl⟩

/-- Claim C7 (amended): in both flow modules' residual networks of graphs
without self-loop descriptors, every arc is mutually paired with the
reverse arc its stored index designates, one side of each pair starting at
capacity `0` — so the pair's initial capacity sum is the arc's original
capacity — and every augmentation of either main loop updates the two
paired capacities together, keeping each pair's capacity sum constant
throughout the run.  Self-loop descriptors are excluded: there the stored
reverse index designates the forward arc itself (capacity `c`, not `0`),
so the claimed pairing fails at construction time. -/
theorem residual_pair_invariant (g : Graph) (source sink : ℤ)
    (h : NoSelfLoops g) :
    ZeroPaired (flowBuild g).1 ∧
    (∀ k u i, pairCapSum (flowStateAfter g source sink k) u i
        = pairCapSum (flowBuild g).1 u i) ∧
    (∀ st, mcfBuild g = .ok st → ZeroPaired st.1) ∧
    (∀ k u i, pairCapSum (mcfStateAfter g source sink k) u i
        = pairCapSum (mcfStateAfter g source sink 0) u i) := by
  refine ⟨flowBuild_zeroPaired g h, ?_, fun st hok => mcfBuild_zeroPaired g h st hok, ?_⟩
  · intro k u i
    exact (flowStateAfter_invariant g source sink h k).2 u i
  · intro k u i
    exact (mcfStateAfter_invariant g source sink h k).2 u i

/-- Witness for claim C7 on concrete one-arc networks. -/
theorem residual_pair_invariant_witness :
    pairCapSum (flowStateAfter [(1, [.pair 2 3])] 1 2 1) 1 0
      = pairCapSum (flowBuild [(1, [.pair 2 3])]).1 1 0 ∧
    pairCapSum (mcfStateAfter [(1, [.triple 2 3 1])] 1 2 1) 1 0
      = pairCapSum (mcfStateAfter [(1, [.triple 2 3 1])] 1 2 0) 1 0 :=
  ⟨(residual_pair_invariant [(1, [.pair 2 3])] 1 2 (by decide)).2.1 1 1 0,
    (residual_pair_invariant [(1, [.triple 2 3 1])] 1 2 (by decide)).2.2.2 1 1 0⟩

/-- Once a parent chain repeats a value it is constant from there on. -/
lemma iterate_eventually_const (f : ℤ → ℤ) (v : ℤ) (k : ℕ)
    (hk : f^[k + 1] v = f^[k] v) : ∀ m, k ≤ m → f^[m] v = f^[k] v := by
  intro m hm
  obtain ⟨d, rfl⟩ := Nat.exists_eq_add_of_le hm
  clear hm
  induction d with
  | zero => rfl
  | succ d ih =>
    calc f^[k + (d + 1)] v
        = f (f^[k + d] v) := by rw [show k + (d + 1) = (k + d) + 1 from rfl,
          Function.iterate_succ_apply']
      _ = f (f^[k] v) := by rw [ih]
      _ = f^[k] v := by rw [← Function.iterate_succ_apply' f k v, hk]

/-- A period of a parent chain repeats at every multiple. -/
lemma iterate_periodic_const (f : ℤ → ℤ) (v : ℤ) (i p : ℕ)
    (hper : f^[i + p] v = f^[i] v) : ∀ t, f^[i + t * p] v = f^[i] v := by
  intro t
  induction t with
  | zero => simp
  | succ t ih =>
    have h1 : i + (t + 1) * p = p + (i + t * p) := by ring
    rw [h1, Function.iterate_add_apply, ih, ← Function.iterate_add_apply,
      Nat.add_comm p i, hper]

/-- On a stabilizing chain, any repeated value marks the stabilization point:
a chain that is both eventually periodic and eventually constant is constant
from the first repeat on. -/
lemma stab_of_iterate_eq (f : ℤ → ℤ) (v : ℤ) (i j : ℕ) (hij : i < j)
    (heq : f^[i] v = f^[j] v) (hstab : ∃ k, f^[k + 1] v = f^[k] v) :
    f^[i + 1] v = f^[i] v := by
  obtain ⟨k, hk⟩ := hstab
  have hp1 : 0 < j - i := by omega
  have hper : f^[i + (j - i)] v = f^[i] v := by
    rw [show i + (j - i) = j from by omega]
    exact heq.symm
  have hper1 : f^[(i + 1) + (j - i)] v = f^[i + 1] v := by
    rw [show (i + 1) + (j - i) = (i + (j - i)) + 1 from by omega,
      Function.iterate_succ_apply', hper, Function.iterate_succ_apply']
  have hmul : k + 1 ≤ (k + 1) * (j - i) := by
    calc k + 1 = (k + 1) * 1 := by ring
      _ ≤ (k + 1) * (j - i) := Nat.mul_le_mul_left _ hp1
  calc f^[i + 1] v
      = f^[(i + 1) + (k + 1) * (j - i)] v := (iterate_periodic_const f v (i + 1) (j - i) hper1 (k + 1)).symm
    _ = f^[k] v := iterate_eventually_const f v k hk _ (by omega)
    _ = f^[i + (k + 1) * (j - i)] v := (iterate_eventually_const f v k hk _ (by omega)).symm
    _ = f^[i] v := iterate_periodic_const f v i (j - i) hper (k + 1)

/-- Parent chains stay inside the vertex set. -/
lemma UnionFind.iterate_mem (uf : UnionFind)
    (hClo : ∀ v ∈ uf.verts, uf.parent v ∈ uf.verts) {v : ℤ}
    (hv : v ∈ uf.verts) : ∀ m, uf.parent^[m] v ∈ uf.verts := by
  intro m
  induction m with
  | zero => exact hv
  | succ m ih => rw [Function.iterate_succ_apply']; exact hClo _ ih

/-- Under the forest invariant, every chain of an initialization vertex
stabilizes strictly within `card verts` steps: the prefix up to the first
stabilization point consists of pairwise distinct vertices. -/
lemma UnionFind.stab_le_card (uf : UnionFind) (hInv : uf.Inv) (v : ℤ)
    (hv : v ∈ uf.verts) :
    ∃ k, k + 1 ≤ uf.verts.card ∧ uf.parent^[k + 1] v = uf.parent^[k] v := by
  have hex := hInv.2.2.1 v
  refine ⟨Nat.find hex, ?_, Nat.find_spec hex⟩
  by_contra hlt
  push_neg at hlt
  have hinj : Set.InjOn (fun i => uf.parent^[i] v)
      ↑(Finset.range (Nat.find hex + 1)) := by
    intro i hi j hj hij2
    simp only [Finset.coe_range, Set.mem_Iio] at hi hj
    by_contra hne
    rcases Nat.lt_or_ge i j with h | h
    · have hst := stab_of_iterate_eq uf.parent v i j h hij2 hex
      exact Nat.find_min hex (by omega) hst
    · have hj2 : j < i := by omega
      have hst := stab_of_iterate_eq uf.parent v j i hj2 hij2.symm hex
      exact Nat.find_min hex (by omega) hst
  have hcard := Finset.card_le_card_of_injOn (fun i => uf.parent^[i] v)
    (fun i _ => uf.iterate_mem hInv.1 hv i) hinj
  rw [Finset.card_range] at hcard
  omega

/-- From `card verts` steps on, every chain sits at its root. -/
lemma UnionFind.iterate_card_eq_root (uf : UnionFind) (hInv : uf.Inv) (v : ℤ) :
    ∀ m, uf.verts.card ≤ m → uf.parent^[m] v = uf.root v := by
  by_cases hv : v ∈ uf.verts
  · obtain ⟨k, hk1, hk2⟩ := uf.stab_le_card hInv v hv
    have hconst := iterate_eventually_const uf.parent v k hk2
    intro m hm
    show uf.parent^[m] v = uf.parent^[uf.verts.card] v
    rw [hconst m (by omega), hconst uf.verts.card (by omega)]
  · intro m hm
    have hfix : uf.parent v = v := hInv.2.1 v hv
    show uf.parent^[m] v = uf.parent^[uf.verts.card] v
    rw [Function.iterate_fixed hfix, Function.iterate_fixed hfix]

/-- Roots are fixed points of `parent`. -/
lemma UnionFind.parent_root (uf : UnionFind) (hInv : uf.Inv) (v : ℤ) :
    uf.parent (uf.root v) = uf.root v := by
  have h1 := uf.iterate_card_eq_root hInv v (uf.verts.card + 1) (by omega)
  rw [Function.iterate_succ_apply'] at h1
  exact h1

/-- Roots of initialization vertices are initialization vertices. -/
lemma UnionFind.root_mem (uf : UnionFind) (hInv : uf.Inv) {v : ℤ}
    (hv : v ∈ uf.verts) : uf.root v ∈ uf.verts :=
  uf.iterate_mem hInv.1 hv _

/-- A vertex whose chain returns to it after at least one step is already a
fixed point. -/
lemma UnionFind.parent_eq_self_of_iterate (uf : UnionFind) (hInv : uf.Inv)
    {v : ℤ} {m : ℕ} (hm : 1 ≤ m) (h : uf.parent^[m] v = v) :
    uf.parent v = v := by
  have hst := stab_of_iterate_eq uf.parent v 0 m hm (by simpa using h.symm)
    (hInv.2.2.1 v)
  simpa using hst

/-- Iterating a chain-preserving map follows the original chain at least as
far. -/
lemma chainPres_iterate {f g : ℤ → ℤ} (h : ChainPres f g) (x : ℤ) (k : ℕ) :
    ∃ M, k ≤ M ∧ g^[k] x = f^[M] x := by
  induction k with
  | zero => exact ⟨0, Nat.le_refl 0, rfl⟩
  | succ k ih =>
    obtain ⟨M, hM, hMx⟩ := ih
    obtain ⟨m, hm, hmx⟩ := h (f^[M] x)
    refine ⟨m + M, by omega, ?_⟩
    rw [Function.iterate_succ_apply', hMx, hmx, ← Function.iterate_add_apply]

/-- Every map preserves its own chains. -/
lemma chainPres_refl (f : ℤ → ℤ) : ChainPres f f :=
  fun _ => ⟨1, Nat.le_refl 1, rfl⟩

/-- Chain preservation composes. -/
lemma chainPres_trans {f g h : ℤ → ℤ} (h1 : ChainPres f g)
    (h2 : ChainPres g h) : ChainPres f h := by
  intro x
  obtain ⟨m, hm, hmx⟩ := h2 x
  obtain ⟨M, hM, hMx⟩ := chainPres_iterate h1 x m
  exact ⟨M, by omega, by rw [hmx, hMx]⟩

/-- A chain-preserving update keeps exactly the same fixed points. -/
lemma chainPres_fixed_iff {uf : UnionFind} (hInv : uf.Inv) {g : ℤ → ℤ}
    (h : ChainPres uf.parent g) (x : ℤ) : g x = x ↔ uf.parent x = x := by
  obtain ⟨m, hm, hmx⟩ := h x
  constructor
  · intro hx
    exact uf.parent_eq_self_of_iterate hInv hm (hmx.symm.trans hx)
  · intro hx
    rw [hmx, Function.iterate_fixed hx]

/-- Any state whose parent map preserves the chains of an invariant state
(with vertex set and count untouched) is again invariant and induces the
identical root function. -/
lemma UnionFind.inv_of_chainPres {uf t : UnionFind} (hInv : uf.Inv)
    (hp : ChainPres uf.parent t.parent) (hverts : t.verts = uf.verts)
    (hcount : t.count = uf.count) :
    t.Inv ∧ ∀ w, t.root w = uf.root w := by
  have hroot : ∀ w, t.root w = uf.root w := by
    intro w
    obtain ⟨M, hM, hMx⟩ := chainPres_iterate hp w t.verts.card
    show t.parent^[t.verts.card] w = uf.root w
    rw [hMx]
    exact uf.iterate_card_eq_root hInv w M (by rw [hverts] at hM; omega)
  refine ⟨⟨?_, ?_, ?_, ?_⟩, hroot⟩
  · intro v hv
    obtain ⟨m, hm, hmx⟩ := hp v
    rw [hverts] at hv ⊢
    rw [hmx]
    exact uf.iterate_mem hInv.1 hv m
  · intro v hv
    obtain ⟨m, hm, hmx⟩ := hp v
    rw [hmx, Function.iterate_fixed (hInv.2.1 v (by rwa [hverts] at hv))]
  · intro v
    refine ⟨t.verts.card, ?_⟩
    obtain ⟨M1, hM1, hM1x⟩ := chainPres_iterate hp v (t.verts.card + 1)
    obtain ⟨M2, hM2, hM2x⟩ := chainPres_iterate hp v t.verts.card
    rw [hverts] at hM1 hM2
    rw [hM1x, hM2x, uf.iterate_card_eq_root hInv v M1 (by omega),
      uf.iterate_card_eq_root hInv v M2 (by omega)]
  · rw [hcount, hInv.2.2.2, hverts]
    congr 1
    apply Finset.filter_congr
    intro x _
    exact (chainPres_fixed_iff hInv hp x).symm

/-- One-step unfolding of `findAux` at positive fuel. -/
lemma UnionFind.findAux_succ (uf : UnionFind) (fuel : ℕ) (v : ℤ) :
    uf.findAux (fuel + 1) v =
      if uf.parent v = v then (uf, v)
      else
        let r := uf.findAux fuel (uf.parent v)
        ({ r.1 with parent := Function.update r.1.parent v r.2 }, r.2) := rfl

/-- `findAux` on a root returns immediately. -/
lemma UnionFind.findAux_succ_self (uf : UnionFind) (fuel : ℕ) (v : ℤ)
    (hv : uf.parent v = v) : uf.findAux (fuel + 1) v = (uf, v) := by
  rw [UnionFind.findAux_succ, if_pos hv]

/-- `findAux` on a non-root recurses on the parent and repoints `v`. -/
lemma UnionFind.findAux_succ_ne (uf : UnionFind) (fuel : ℕ) (v : ℤ)
    (hv : uf.parent v ≠ v) :
    uf.findAux (fuel + 1) v =
      ({ (uf.findAux fuel (uf.parent v)).1 with
          parent := Function.update (uf.findAux fuel (uf.parent v)).1.parent v
            (uf.findAux fuel (uf.parent v)).2 },
        (uf.findAux fuel (uf.parent v)).2) := by
  rw [UnionFind.findAux_succ, if_neg hv]

/-- Path compression is chain-preserving, touches neither `rank` nor `count`
nor `verts`, and returns a vertex of the original chain. -/
lemma UnionFind.findAux_spec (uf : UnionFind) (fuel : ℕ) : ∀ v : ℤ,
    ChainPres uf.parent ((uf.findAux fuel v).1).parent ∧
    ((uf.findAux fuel v).1).rank = uf.rank ∧
    ((uf.findAux fuel v).1).count = uf.count ∧
    ((uf.findAux fuel v).1).verts = uf.verts ∧
    ∃ j, (uf.findAux fuel v).2 = uf.parent^[j] v := by
  induction fuel with
  | zero => exact fun v => ⟨chainPres_refl _, rfl, rfl, rfl, 0, rfl⟩
  | succ fuel ih =>
    intro v
    by_cases hv : uf.parent v = v
    · rw [uf.findAux_succ_self fuel v hv]
      exact ⟨chainPres_refl _, rfl, rfl, rfl, 0, rfl⟩
    · obtain ⟨hcp, hrk, hct, hvs, j, hj⟩ := ih (uf.parent v)
      rw [uf.findAux_succ_ne fuel v hv]
      refine ⟨?_, hrk, hct, hvs, j + 1, ?_⟩
      · intro x
        by_cases hx : x = v
        · subst hx
          refine ⟨j + 1, by omega, ?_⟩
          show Function.update (uf.findAux fuel (uf.parent x)).1.parent x
            (uf.findAux fuel (uf.parent x)).2 x = uf.parent^[j + 1] x
          rw [Function.update_same, hj, ← Function.iterate_succ_apply]
        · obtain ⟨m, hm, hmx⟩ := hcp x
          refine ⟨m, hm, ?_⟩
          show Function.update (uf.findAux fuel (uf.parent v)).1.parent v
            (uf.findAux fuel (uf.parent v)).2 x = uf.parent^[m] x
          rw [Function.update_noteq hx, hmx]
      · show (uf.findAux fuel (uf.parent v)).2 = uf.parent^[j + 1] v
        rw [hj, ← Function.iterate_succ_apply]

/-- With fuel at least the distance to a fixed point, `findAux` returns that
fixed point. -/
lemma UnionFind.findAux_reaches (uf : UnionFind) (fuel : ℕ) :
    ∀ (v : ℤ) (m : ℕ), m ≤ fuel →
      uf.parent (uf.parent^[m] v) = uf.parent^[m] v →
      (uf.findAux fuel v).2 = uf.parent^[m] v := by
  induction fuel with
  | zero =>
    intro v m hm hfix
    have hm0 : m = 0 := by omega
    subst hm0
    rfl
  | succ fuel ih =>
    intro v m hm hfix
    by_cases hv : uf.parent v = v
    · rw [uf.findAux_succ_self fuel v hv]
      show v = uf.parent^[m] v
      rw [Function.iterate_fixed hv]
    · have hm0 : m ≠ 0 := by
        intro h
        subst h
        exact hv (by simpa using hfix)
      obtain ⟨m', rfl⟩ : ∃ m', m = m' + 1 := ⟨m - 1, by omega⟩
      rw [uf.findAux_succ_ne fuel v hv]
      have hfix' : uf.parent (uf.parent^[m'] (uf.parent v))
          = uf.parent^[m'] (uf.parent v) := by
        rw [← Function.iterate_succ_apply]
        exact hfix
      have hres := ih (uf.parent v) m' (by omega) hfix'
      show (uf.findAux fuel (uf.parent v)).2 = uf.parent^[m' + 1] v
      rw [hres, ← Function.iterate_succ_apply]

/-- `find` keeps the invariant, the root function, `rank`, `count` and
`verts`, and returns the root of its argument. -/
lemma UnionFind.find_spec (uf : UnionFind) (hInv : uf.Inv) (v : ℤ) :
    ((uf.find v).1).Inv ∧ (∀ w, ((uf.find v).1).root w = uf.root w) ∧
    ((uf.find v).1).rank = uf.rank ∧ ((uf.find v).1).count = uf.count ∧
    ((uf.find v).1).verts = uf.verts ∧ (uf.find v).2 = uf.root v := by
  obtain ⟨hcp, hrk, hct, hvs, _⟩ := uf.findAux_spec (uf.verts.card + 1) v
  have h2 : (uf.find v).2 = uf.root v := by
    have hfix : uf.parent (uf.parent^[uf.verts.card] v)
        = uf.parent^[uf.verts.card] v := uf.parent_root hInv v
    exact uf.findAux_reaches (uf.verts.card + 1) v uf.verts.card (by omega) hfix
  obtain ⟨hInvT, hroot⟩ := UnionFind.inv_of_chainPres hInv hcp hvs hct
  exact ⟨hInvT, hroot, hrk, hct, hvs, h2⟩

/-- Linking one root under another (what both rank branches of `union` do)
keeps the forest invariant, decrements `count` by exactly one, and merges
precisely the child root's class into the parent root's class. -/
lemma UnionFind.link_spec (s t : UnionFind) (hInv : s.Inv) (rc rp : ℤ)
    (hc : rc ∈ s.verts) (hpm : rp ∈ s.verts)
    (hfc : s.parent rc = rc) (hfp : s.parent rp = rp) (hne : rc ≠ rp)
    (hpar : t.parent = Function.update s.parent rc rp)
    (hverts : t.verts = s.verts) (hcount : t.count = s.count - 1) :
    t.Inv ∧ t.count + 1 = s.count ∧
    ∀ w, t.root w = if s.root w = rc then rp else s.root w := by
  have hfixiff : ∀ x, t.parent x = x ↔ s.parent x = x ∧ x ≠ rc := by
    intro x
    by_cases hx : x = rc
    · subst hx
      rw [hpar, Function.update_same]
      constructor
      · intro h
        exact absurd h.symm hne
      · rintro ⟨_, hx2⟩
        exact absurd rfl hx2
    · rw [hpar, Function.update_noteq hx]
      exact ⟨fun h => ⟨h, hx⟩, fun h => h.1⟩
  have hrcfil : rc ∈ s.verts.filter fun v => s.parent v = v :=
    Finset.mem_filter.2 ⟨hc, hfc⟩
  have hcfilter : (t.verts.filter fun v => t.parent v = v)
      = (s.verts.filter fun v => s.parent v = v).erase rc := by
    ext x
    simp only [Finset.mem_filter, Finset.mem_erase, hverts, hfixiff x]
    tauto
  have hcpos : 1 ≤ (s.verts.filter fun v => s.parent v = v).card :=
    Finset.card_pos.2 ⟨rc, hrcfil⟩
  have htpc : t.parent rc = rp := by rw [hpar, Function.update_same]
  have htpp : t.parent rp = rp := by
    rw [hpar, Function.update_noteq (Ne.symm hne)]
    exact hfp
  have hchain_eq : ∀ (w : ℤ) (i : ℕ), (∀ j, j < i → s.parent^[j] w ≠ rc) →
      t.parent^[i] w = s.parent^[i] w := by
    intro w i
    induction i with
    | zero => intro _; rfl
    | succ i ih =>
      intro hj
      rw [Function.iterate_succ_apply', Function.iterate_succ_apply',
        ih (fun j hj2 => hj j (by omega)), hpar,
        Function.update_noteq (hj i (by omega))]
  have hafter : ∀ (w : ℤ) (i : ℕ), t.parent^[i] w = rc →
      ∀ d, 1 ≤ d → t.parent^[i + d] w = rp := by
    intro w i hi d hd
    obtain ⟨d', rfl⟩ : ∃ d', d = d' + 1 := ⟨d - 1, by omega⟩
    calc t.parent^[i + (d' + 1)] w
        = t.parent^[d' + 1] (t.parent^[i] w) := by
          rw [Nat.add_comm, Function.iterate_add_apply]
      _ = t.parent^[d'] (t.parent rc) := by
          rw [hi, Function.iterate_succ_apply]
      _ = rp := by rw [htpc, Function.iterate_fixed htpp]
  have hroot : ∀ w, t.root w = if s.root w = rc then rp else s.root w := by
    intro w
    by_cases hw : s.root w = rc
    · rw [if_pos hw]
      have hwv : w ∈ s.verts := by
        by_contra hwv
        have hfw : s.parent w = w := hInv.2.1 w hwv
        have : s.root w = w := Function.iterate_fixed hfw _
        rw [this] at hw
        rw [hw] at hwv
        exact hwv hc
      obtain ⟨k, hk1, hk2⟩ := s.stab_le_card hInv w hwv
      have hkroot : s.parent^[k] w = s.root w :=
        (iterate_eventually_const s.parent w k hk2 s.verts.card (by omega)).symm
      have hex : ∃ i, s.parent^[i] w = rc := ⟨k, by rw [hkroot, hw]⟩
      have hi0 : s.parent^[Nat.find hex] w = rc := Nat.find_spec hex
      have hi0min : ∀ j, j < Nat.find hex → s.parent^[j] w ≠ rc :=
        fun j hj => Nat.find_min hex hj
      have hi0le : Nat.find hex ≤ k := Nat.find_min' hex (by rw [hkroot, hw])
      have ht0 : t.parent^[Nat.find hex] w = rc := by
        rw [hchain_eq w (Nat.find hex) hi0min]
        exact hi0
      show t.parent^[t.verts.card] w = rp
      rw [hverts]
      obtain ⟨d, hd1, hd2⟩ : ∃ d, s.verts.card = Nat.find hex + d ∧ 1 ≤ d :=
        ⟨s.verts.card - Nat.find hex, by omega, by omega⟩
      rw [hd1]
      exact hafter w (Nat.find hex) ht0 d hd2
    · rw [if_neg hw]
      have hnever : ∀ j, s.parent^[j] w ≠ rc := by
        intro j hj
        apply hw
        have h1 := s.iterate_card_eq_root hInv w (s.verts.card + j) (by omega)
        rw [Function.iterate_add_apply, hj, Function.iterate_fixed hfc] at h1
        exact h1.symm
      show t.parent^[t.verts.card] w = s.root w
      rw [hverts, hchain_eq w s.verts.card (fun j _ => hnever j)]
      rfl
  have hrootfix : ∀ w, t.parent (t.root w) = t.root w := by
    intro w
    rw [hroot w]
    by_cases hw : s.root w = rc
    · rw [if_pos hw]
      exact htpp
    · rw [if_neg hw, hpar, Function.update_noteq hw]
      exact s.parent_root hInv w
  refine ⟨⟨?_, ?_, ?_, ?_⟩, ?_, hroot⟩
  · intro x hx
    rw [hverts] at hx ⊢
    by_cases hxc : x = rc
    · subst hxc
      rw [htpc]
      exact hpm
    · rw [hpar, Function.update_noteq hxc]
      exact hInv.1 x hx
  · intro x hx
    rw [hverts] at hx
    have hxc : x ≠ rc := fun h => hx (h ▸ hc)
    rw [hpar, Function.update_noteq hxc]
    exact hInv.2.1 x hx
  · intro w
    refine ⟨t.verts.card, ?_⟩
    rw [Function.iterate_succ_apply']
    exact hrootfix w
  · rw [hcfilter, Finset.card_erase_of_mem hrcfil, hcount, hInv.2.2.2]
  · rw [hcount, hInv.2.2.2]
    omega

/-- `union` unfolded: two `find` calls, then the root comparison and the
three rank branches. -/
lemma UnionFind.union_def (uf : UnionFind) (u v : ℤ) :
    uf.union u v =
      (if (uf.find u).2 = ((uf.find u).1.find v).2 then
        (((uf.find u).1.find v).1, false)
      else if ((uf.find u).1.find v).1.rank (uf.find u).2
          < ((uf.find u).1.find v).1.rank ((uf.find u).1.find v).2 then
        ({ ((uf.find u).1.find v).1 with
            parent := Function.update ((uf.find u).1.find v).1.parent
              (uf.find u).2 ((uf.find u).1.find v).2,
            count := ((uf.find u).1.find v).1.count - 1 }, true)
      else if ((uf.find u).1.find v).1.rank (uf.find u).2
          = ((uf.find u).1.find v).1.rank ((uf.find u).1.find v).2 then
        ({ ((uf.find u).1.find v).1 with
            parent := Function.update ((uf.find u).1.find v).1.parent
              ((uf.find u).1.find v).2 (uf.find u).2,
            rank := Function.update ((uf.find u).1.find v).1.rank
              (uf.find u).2
              (((uf.find u).1.find v).1.rank (uf.find u).2 + 1),
            count := ((uf.find u).1.find v).1.count - 1 }, true)
      else
        ({ ((uf.find u).1.find v).1 with
            parent := Function.update ((uf.find u).1.find v).1.parent
              ((uf.find u).1.find v).2 (uf.find u).2,
            count := ((uf.find u).1.find v).1.count - 1 }, true)) := rfl

/-- `union` keeps the invariant and the vertex set; on two vertices of the
same class it returns `False` with `count` and every root unchanged; on two
vertices of different classes it returns `True` and decrements `count` by
exactly one. -/
lemma UnionFind.union_spec (uf : UnionFind) (hInv : uf.Inv) (u v : ℤ)
    (hu : u ∈ uf.verts) (hv : v ∈ uf.verts) :
    ((uf.union u v).1).Inv ∧ ((uf.union u v).1).verts = uf.verts ∧
    (uf.root u = uf.root v →
      (uf.union u v).2 = false ∧ ((uf.union u v).1).count = uf.count ∧
      ∀ w, ((uf.union u v).1).root w = uf.root w) ∧
    (uf.root u ≠ uf.root v →
      (uf.union u v).2 = true ∧ ((uf.union u v).1).count + 1 = uf.count) := by
  obtain ⟨hInv1, hroot1, hrk1, hct1, hvs1, hr1⟩ := uf.find_spec hInv u
  obtain ⟨hInv2, hroot2, hrk2, hct2, hvs2, hr2⟩ := (uf.find u).1.find_spec hInv1 v
  have hru : (uf.find u).2 = uf.root u := hr1
  have hrv : ((uf.find u).1.find v).2 = uf.root v := by rw [hr2, hroot1]
  have hvsv : ((uf.find u).1.find v).1.verts = uf.verts := hvs2.trans hvs1
  have hctv : ((uf.find u).1.find v).1.count = uf.count := hct2.trans hct1
  have hrootv : ∀ w, ((uf.find u).1.find v).1.root w = uf.root w :=
    fun w => (hroot2 w).trans (hroot1 w)
  by_cases heq : uf.root u = uf.root v
  · have hcv : (uf.find u).2 = ((uf.find u).1.find v).2 := by
      rw [hru, hrv, heq]
    have hEq : uf.union u v = (((uf.find u).1.find v).1, false) := by
      rw [UnionFind.union_def, if_pos hcv]
    rw [hEq]
    exact ⟨hInv2, hvsv, fun _ => ⟨rfl, hctv, hrootv⟩,
      fun h => absurd heq h⟩
  · have hcv : (uf.find u).2 ≠ ((uf.find u).1.find v).2 := by
      rw [hru, hrv]
      exact heq
    have hcu : uf.root u ∈ ((uf.find u).1.find v).1.verts := by
      rw [hvsv]
      exact uf.root_mem hInv hu
    have hcvm : uf.root v ∈ ((uf.find u).1.find v).1.verts := by
      rw [hvsv]
      exact uf.root_mem hInv hv
    have hfixu : ((uf.find u).1.find v).1.parent (uf.root u) = uf.root u := by
      have h := ((uf.find u).1.find v).1.parent_root hInv2 u
      rw [hrootv u] at h
      exact h
    have hfixv : ((uf.find u).1.find v).1.parent (uf.root v) = uf.root v := by
      have h := ((uf.find u).1.find v).1.parent_root hInv2 v
      rw [hrootv v] at h
      exact h
    by_cases hrank1 : ((uf.find u).1.find v).1.rank (uf.find u).2
        < ((uf.find u).1.find v).1.rank ((uf.find u).1.find v).2
    · have hEq : uf.union u v =
          ({ ((uf.find u).1.find v).1 with
              parent := Function.update ((uf.find u).1.find v).1.parent
                (uf.find u).2 ((uf.find u).1.find v).2,
              count := ((uf.find u).1.find v).1.count - 1 }, true) := by
        rw [UnionFind.union_def, if_neg hcv, if_pos hrank1]
      rw [hEq, hru, hrv]
      obtain ⟨hInvT, hcntT, _⟩ :=
        UnionFind.link_spec ((uf.find u).1.find v).1
          ({ ((uf.find u).1.find v).1 with
              parent := Function.update ((uf.find u).1.find v).1.parent
                (uf.root u) (uf.root v),
              count := ((uf.find u).1.find v).1.count - 1 }) hInv2
          (uf.root u) (uf.root v) hcu hcvm hfixu hfixv heq rfl rfl rfl
      refine ⟨hInvT, hvsv, fun h => absurd h heq, fun _ => ⟨rfl, ?_⟩⟩
      rw [hcntT, hctv]
    · by_cases hrank2 : ((uf.find u).1.find v).1.rank (uf.find u).2
          = ((uf.find u).1.find v).1.rank ((uf.find u).1.find v).2
      · have hEq : uf.union u v =
            ({ ((uf.find u).1.find v).1 with
                parent := Function.update ((uf.find u).1.find v).1.parent
                  ((uf.find u).1.find v).2 (uf.find u).2,
                rank := Function.update ((uf.find u).1.find v).1.rank
                  (uf.find u).2
                  (((uf.find u).1.find v).1.rank (uf.find u).2 + 1),
                count := ((uf.find u).1.find v).1.count - 1 }, true) := by
          rw [UnionFind.union_def, if_neg hcv, if_neg hrank1, if_pos hrank2]
        rw [hEq, hru, hrv]
        obtain ⟨hInvT, hcntT, _⟩ :=
          UnionFind.link_spec ((uf.find u).1.find v).1
            ({ ((uf.find u).1.find v).1 with
                parent := Function.update ((uf.find u).1.find v).1.parent
                  (uf.root v) (uf.root u),
                rank := Function.update ((uf.find u).1.find v).1.rank
                  (uf.root u)
                  (((uf.find u).1.find v).1.rank (uf.root u) + 1),
                count := ((uf.find u).1.find v).1.count - 1 }) hInv2
            (uf.root v) (uf.root u) hcvm hcu hfixv hfixu (Ne.symm heq)
            rfl rfl rfl
        refine ⟨hInvT, hvsv, fun h => absurd h heq, fun _ => ⟨rfl, ?_⟩⟩
        rw [hcntT, hctv]
      · have hEq : uf.union u v =
            ({ ((uf.find u).1.find v).1 with
                parent := Function.update ((uf.find u).1.find v).1.parent
                  ((uf.find u).1.find v).2 (uf.find u).2,
                count := ((uf.find u).1.find v).1.count - 1 }, true) := by
          rw [UnionFind.union_def, if_neg hcv, if_neg hrank1, if_neg hrank2]
        rw [hEq, hru, hrv]
        obtain ⟨hInvT, hcntT, _⟩ :=
          UnionFind.link_spec ((uf.find u).1.find v).1
            ({ ((uf.find u).1.find v).1 with
                parent := Function.update ((uf.find u).1.find v).1.parent
                  (uf.root v) (uf.root u),
                count := ((uf.find u).1.find v).1.count - 1 }) hInv2
            (uf.root v) (uf.root u) hcvm hcu hfixv hfixu (Ne.symm heq)
            rfl rfl rfl
        refine ⟨hInvT, hvsv, fun h => absurd h heq, fun _ => ⟨rfl, ?_⟩⟩
        rw [hcntT, hctv]

/-- `UnionFind.__init__` on a duplicate-free vertex list establishes the
forest invariant. -/
lemma UnionFind.init_inv (vs : List ℤ) (hnd : vs.Nodup) :
    (UnionFind.init vs).Inv := by
  refine ⟨fun v hv => hv, fun v _ => rfl, fun v => ⟨0, rfl⟩, ?_⟩
  show vs.length = (vs.toFinset.filter fun v => v = v).card
  rw [Finset.filter_true_of_mem (fun _ _ => rfl),
    List.toFinset_card_of_nodup hnd]

/-- Under the invariant, the `count` field is the number of distinct roots. -/
lemma UnionFind.count_eq_roots (uf : UnionFind) (hInv : uf.Inv) :
    uf.count = (uf.verts.image uf.root).card := by
  rw [hInv.2.2.2]
  congr 1
  ext x
  simp only [Finset.mem_filter, Finset.mem_image]
  constructor
  · rintro ⟨hx, hfix⟩
    exact ⟨x, hx, Function.iterate_fixed hfix _⟩
  · rintro ⟨y, hy, hyx⟩
    refine ⟨?_, ?_⟩
    · rw [← hyx]
      exact uf.root_mem hInv hy
    · rw [← hyx]
      exact uf.parent_root hInv y

/-- Any valid operation sequence keeps the forest invariant and the vertex
set. -/
lemma ufRun_inv (ops : List UFOp) : ∀ uf : UnionFind, uf.Inv →
    (∀ op ∈ ops, op.InVerts uf.verts) →
    (ufRun uf ops).Inv ∧ (ufRun uf ops).verts = uf.verts := by
  induction ops with
  | nil => exact fun uf hInv _ => ⟨hInv, rfl⟩
  | cons op ops ih =>
    intro uf hInv hval
    have hop := hval op (List.mem_cons_self op ops)
    have hstep : (ufApplyOp uf op).Inv ∧ (ufApplyOp uf op).verts = uf.verts := by
      cases op with
      | find v =>
        obtain ⟨hInvT, _, _, _, hvs, _⟩ := uf.find_spec hInv v
        exact ⟨hInvT, hvs⟩
      | union a b =>
        obtain ⟨ha, hb⟩ := hop
        obtain ⟨hInvT, hvsT, _, _⟩ := uf.union_spec hInv a b ha hb
        exact ⟨hInvT, hvsT⟩
    have hval2 : ∀ o ∈ ops, o.InVerts (ufApplyOp uf op).verts := by
      intro o ho
      rw [hstep.2]
      exact hval o (List.mem_cons_of_mem op ho)
    have hrec := ih (ufApplyOp uf op) hstep.1 hval2
    exact ⟨hrec.1, hrec.2.trans hstep.2⟩

/-- Claim C10: for a `UnionFind` initialized on any finite vertex set, after
every valid sequence of `find`/`union` operations the `count` field equals
the number of distinct roots of the partition; `find` returns its argument's
root, keeps `count`, and changes no vertex's root (path compression only
re-points parents inside one set); `union` on two vertices of different sets
returns `True` and decrements `count` by exactly one, and on two vertices of
the same set returns `False`, keeping `count` and every vertex's root. -/
theorem union_find_invariants (vs : List ℤ) (ops : List UFOp)
    (hnd : vs.Nodup) (hops : (ops.all fun op => op.valid vs) = true) :
    (ufAfter vs ops).count
        = ((ufAfter vs ops).verts.image (ufAfter vs ops).root).card ∧
    (∀ v ∈ (ufAfter vs ops).verts,
      ((ufAfter vs ops).find v).2 = (ufAfter vs ops).root v ∧
      ((ufAfter vs ops).find v).1.count = (ufAfter vs ops).count ∧
      ∀ w, ((ufAfter vs ops).find v).1.root w = (ufAfter vs ops).root w) ∧
    (∀ u ∈ (ufAfter vs ops).verts, ∀ v ∈ (ufAfter vs ops).verts,
      ((ufAfter vs ops).root u ≠ (ufAfter vs ops).root v →
        ((ufAfter vs ops).union u v).2 = true ∧
        ((ufAfter vs ops).union u v).1.count + 1 = (ufAfter vs ops).count) ∧
      ((ufAfter vs ops).root u = (ufAfter vs ops).root v →
        ((ufAfter vs ops).union u v).2 = false ∧
        ((ufAfter vs ops).union u v).1.count = (ufAfter vs ops).count ∧
        ∀ w, ((ufAfter vs ops).union u v).1.root w
          = (ufAfter vs ops).root w)) := by
  have hInv0 := UnionFind.init_inv vs hnd
  have hval : ∀ op ∈ ops, op.InVerts (UnionFind.init vs).verts := by
    intro op hop
    have h2 := List.all_eq_true.1 hops op hop
    cases op with
    | find w =>
      simp only [UFOp.valid, decide_eq_true_eq] at h2
      exact List.mem_toFinset.2 h2
    | union a b =>
      simp only [UFOp.valid, Bool.and_eq_true, decide_eq_true_eq] at h2
      exact ⟨List.mem_toFinset.2 h2.1, List.mem_toFinset.2 h2.2⟩
  obtain ⟨hInv, hverts⟩ := ufRun_inv ops (UnionFind.init vs) hInv0 hval
  refine ⟨(ufAfter vs ops).count_eq_roots hInv, ?_, ?_⟩
  · intro v hv
    obtain ⟨_, hroot, _, hct, _, hres⟩ := (ufAfter vs ops).find_spec hInv v
    exact ⟨hres, hct, hroot⟩
  · intro u hu v hv
    obtain ⟨_, _, hsame, hdiff⟩ := (ufAfter vs ops).union_spec hInv u v hu hv
    exact ⟨hdiff, hsame⟩

/-- Witness for claim C10: a three-vertex structure after one merge and one
compressing `find`; its `count` field matches the number of distinct roots. -/
theorem union_find_invariants_witness :
    ([1, 2, 3] : List ℤ).Nodup ∧
    (([UFOp.union 1 2, UFOp.find 2].all fun op => op.valid [1, 2, 3]) = true) ∧
    (ufAfter [1, 2, 3] [UFOp.union 1 2, UFOp.find 2]).count
      = ((ufAfter [1, 2, 3] [UFOp.union 1 2, UFOp.find 2]).verts.image
          (ufAfter [1, 2, 3] [UFOp.union 1 2, UFOp.find 2]).root).card :=
  ⟨by decide, by decide,
    (union_find_invariants [1, 2, 3] [UFOp.union 1 2, UFOp.find 2]
      (by decide) (by decide)).1⟩

end GTA
